import Mathlib

/-!
Shallow embedding of `scheme-fmt.py` (a span-preserving S-expression
formatter) and proofs about its parser (`ParserFormatter.parse_expr`,
`parse`) and renderer (`ParserFormatter._fmt_expr`, `fmt_expr`, `fmt`).

Source text is modelled as `List Char`; positions are `Nat` indices, so
`code[pos:pos+k]` becomes `slice code pos (pos+k)`.  The parser's
unbounded `while` loop is modelled with explicit fuel: the constructor
`PResult.div` marks fuel exhaustion, so "the Python loops forever" is
rendered as "for every fuel the result is `.div`".
-/

namespace SchemeFmt

/-- Source text: a Python `str` as a list of characters. -/
abbrev Str : Type := List Char

/-- The backquote character (spelled via its code point). -/
def backquote : Char := Char.ofNat 96

/-- Python `str.isspace` restricted to the ASCII whitespace characters
(the only ones relevant to this development): space, tab, newline,
carriage return, vertical tab, form feed. -/
def isSpace (c : Char) : Bool :=
  c = ' ' || c = '\t' || c = '\n' || c = '\r' || c = '\x0b' || c = '\x0c'

/-- Python `s.isspace()` on a whole string: nonempty and all whitespace. -/
def strIsSpace (s : Str) : Bool := !s.isEmpty && s.all isSpace

/-- Python slice `code[a:b]` (with `a ≤ b` in all uses that matter). -/
def slice (code : Str) (a b : Nat) : Str := (code.drop a).take (b - a)

/-- `ParserFormatter.cursor`: `code[pos:pos+len]`. -/
def cursorN (code : Str) (pos len : Nat) : Str := slice code pos (pos + len)

/-- The four list-opening bracket kinds (`SExpr`, `QuotedSExpr`,
`QuasiQuotedSExpr`, `UnquotedSExpr`). -/
inductive Kind : Type where
  | plain | quoted | quasi | unquoted
deriving DecidableEq, Repr

/-- The `BEGIN` delimiter string of each bracket kind. -/
def Kind.beginStr : Kind → Str
  | .plain => ['(']
  | .quoted => ['\'', '(']
  | .quasi => [backquote, '(']
  | .unquoted => [',', '(']

/-- `SExpr.END` (shared by every list kind). -/
def endStr : Str := [')']

/-- `Comment.BEGIN`. -/
def commentBegin : Str := [';']

/-- `Comment.END` (the line terminator, itself one of the delimiters). -/
def nlStr : Str := ['\n']

/-- `ParserFormatter.DELIMETERS`, in the source's order. -/
def DELIMETERS : List Str :=
  [Kind.beginStr .plain, Kind.beginStr .quoted, Kind.beginStr .quasi,
   Kind.beginStr .unquoted, endStr, commentBegin, nlStr]

/-- Whether the literal `d` occurs at position `pos` (the test
`self.cursor(len(t)) == t` done by `ParserFormatter.take`). -/
def matchTok (code : Str) (pos : Nat) (d : Str) : Bool :=
  cursorN code pos d.length = d

/-- `ParserFormatter.take`: on success returns the advanced position. -/
def take (code : Str) (pos : Nat) (t : Str) : Option Nat :=
  if matchTok code pos t then some (pos + t.length) else none

/-- The character at position `p` (only consulted when `p < code.length`). -/
def charAt (code : Str) (p : Nat) : Char := code.getD p (Char.ofNat 0)

/-- Does some delimiter match at position `pos`?  This is the
`any(self.cursor(len(d)) == d for d in self.DELIMETERS)` test. -/
def delimAt (code : Str) (pos : Nat) : Bool :=
  DELIMETERS.any (fun d => matchTok code pos d)

/-- Structural worker for `scanEnd`: `rem` is the number of characters
left (`code.length - pos`), so the cursor is nonempty exactly when
`rem` is a successor. -/
def scanEndF (f : Nat → Bool) : Nat → Nat → Nat
  | 0, pos => pos
  | rem + 1, pos => if f pos then pos else scanEndF f rem (pos + 1)

/-- `ParserFormatter.take_until`: starting from `pos`, advance while the
cursor is nonempty and the stop predicate (here position-indexed) is
false; return the final position (the Python method also returns the
consumed slice, recovered as `slice code pos result`). -/
def scanEnd (code : Str) (f : Nat → Bool) (pos : Nat) : Nat :=
  scanEndF f (code.length - pos) pos

/-- `take_whitespace`: `take_until(lambda s: not s.isspace())`. -/
def skipWs (code : Str) (pos : Nat) : Nat :=
  scanEnd code (fun p => !isSpace (charAt code p)) pos

/-- The stop predicate of `take_token`'s fallback scan:
`lambda s: s.isspace() or any(self.cursor(len(d)) == d for d in DELIMETERS)`. -/
def atomStop (code : Str) (p : Nat) : Bool :=
  isSpace (charAt code p) || delimAt code p

/-- End position of the maximal atom run starting at `pos`. -/
def atomEnd (code : Str) (pos : Nat) : Nat := scanEnd code (atomStop code) pos

/-- End position of a comment body: `take_until(lambda s: s == Comment.END)`. -/
def commentEnd (code : Str) (pos : Nat) : Nat :=
  scanEnd code (fun p => charAt code p = '\n') pos

/-- `ParserFormatter.take_token`: try each delimiter in `DELIMETERS`
order, else consume a maximal atom run.  Returns the token text and the
new position. -/
def takeToken (code : Str) (pos : Nat) : Str × Nat :=
  if matchTok code pos (Kind.beginStr .plain) then
    (Kind.beginStr .plain, pos + (Kind.beginStr .plain).length)
  else if matchTok code pos (Kind.beginStr .quoted) then
    (Kind.beginStr .quoted, pos + (Kind.beginStr .quoted).length)
  else if matchTok code pos (Kind.beginStr .quasi) then
    (Kind.beginStr .quasi, pos + (Kind.beginStr .quasi).length)
  else if matchTok code pos (Kind.beginStr .unquoted) then
    (Kind.beginStr .unquoted, pos + (Kind.beginStr .unquoted).length)
  else if matchTok code pos endStr then (endStr, pos + endStr.length)
  else if matchTok code pos commentBegin then
    (commentBegin, pos + commentBegin.length)
  else if matchTok code pos nlStr then (nlStr, pos + nlStr.length)
  else
    let e := atomEnd code pos
    (slice code pos e, e)

/-- `TaggedExpr`: the position-tagged expression tree.  `inner` is a
string (atom), a `Comment`, or one of the four `SExpr` list classes. -/
inductive TExpr : Type where
  | atom (text : Str) (startPos endPos : Nat)
  | comment (text : Str) (startPos endPos : Nat)
  | list (kind : Kind) (children : List TExpr) (startPos endPos : Nat)
deriving Repr

/-- `TaggedExpr.start_pos`. -/
def startP : TExpr → Nat
  | .atom _ s _ => s
  | .comment _ s _ => s
  | .list _ _ s _ => s

/-- `TaggedExpr.end_pos`. -/
def endP : TExpr → Nat
  | .atom _ _ e => e
  | .comment _ _ e => e
  | .list _ _ _ e => e

/-- `TaggedExpr.__eq__` against `expr.END` (`")"`): true exactly for an
atom whose text is `")"` (a list or comment never equals a string). -/
def isEnd : TExpr → Bool
  | .atom t _ _ => t = [')']
  | _ => false

/-- `TaggedExpr.__eq__` against the sentinel `""` used by
`iter(self.parse_expr, "")`: true exactly for an atom with empty text. -/
def isSentinel : TExpr → Bool
  | .atom t _ _ => t = []
  | _ => false

/-- Outcome of running the (fuelled) parser: `ok`, a raised
`ValueError` (message and position), or fuel exhaustion `div`, which
models nontermination of the Python loop. -/
inductive PResult (α : Type) : Type where
  | ok (val : α) | err (msg : Str) (pos : Nat) | div
deriving Repr, DecidableEq

/-- The parser position after a comment body ending at `commentEnd code p2`:
`self.take(Comment.END)` advances past the line terminator when present. -/
def commentFin (code : Str) (p2 : Nat) : Nat :=
  match take code (commentEnd code p2) nlStr with
  | some p => p
  | none => commentEnd code p2

mutual

/-- `ParserFormatter.parse_expr`, with explicit fuel.  Note the faithful
modelling of the list loop: it stops only when the parsed element equals
`")"`; the element can never be `None`, so the `raise ValueError` line
after the loop is unreachable (the loop is exited only with
`elem == expr.END`), and at end of input inside a list the loop spins
forever appending empty atoms — here: it exhausts any fuel (`.div`). -/
def parseExpr : Nat → Str → Nat → PResult (TExpr × Nat)
  | 0, _, _ => .div
  | fuel + 1, code, pos =>
    if (takeToken code (skipWs code pos)).1 = Kind.beginStr .plain then
      parseChildren fuel code (takeToken code (skipWs code pos)).2 .plain
        (skipWs code pos) []
    else if (takeToken code (skipWs code pos)).1 = Kind.beginStr .quoted then
      parseChildren fuel code (takeToken code (skipWs code pos)).2 .quoted
        (skipWs code pos) []
    else if (takeToken code (skipWs code pos)).1 = Kind.beginStr .quasi then
      parseChildren fuel code (takeToken code (skipWs code pos)).2 .quasi
        (skipWs code pos) []
    else if (takeToken code (skipWs code pos)).1 = Kind.beginStr .unquoted then
      parseChildren fuel code (takeToken code (skipWs code pos)).2 .unquoted
        (skipWs code pos) []
    else if (takeToken code (skipWs code pos)).1 = commentBegin then
      .ok (.comment
        (slice code (takeToken code (skipWs code pos)).2
          (commentEnd code (takeToken code (skipWs code pos)).2))
        (skipWs code pos)
        (commentFin code (takeToken code (skipWs code pos)).2),
        commentFin code (takeToken code (skipWs code pos)).2)
    else .ok (.atom (takeToken code (skipWs code pos)).1 (skipWs code pos)
        (takeToken code (skipWs code pos)).2,
      (takeToken code (skipWs code pos)).2)

/-- The `while True` child-collecting loop of `parse_expr`. -/
def parseChildren : Nat → Str → Nat → Kind → Nat → List TExpr →
    PResult (TExpr × Nat)
  | 0, _, _, _, _, _ => .div
  | fuel + 1, code, pos, kind, start, acc =>
    match parseExpr fuel code pos with
    | .div => .div
    | .err m p => .err m p
    | .ok (elem, pos') =>
      if isEnd elem then .ok (.list kind acc start pos', pos')
      else parseChildren fuel code pos' kind start (acc ++ [elem])

end

/-- `ParserFormatter.parse`: `iter(self.parse_expr, "")` — repeatedly
parse one top-level form, stopping at the empty-atom sentinel. -/
def parseAll : Nat → Str → Nat → PResult (List TExpr)
  | 0, _, _ => .div
  | fuel + 1, code, pos =>
    match parseExpr fuel code pos with
    | .div => .div
    | .err m p => .err m p
    | .ok (e, pos') =>
      if isSentinel e then .ok []
      else
        match parseAll fuel code pos' with
        | .ok rest => .ok (e :: rest)
        | .err m p => .err m p
        | .div => .div

/-- `FormatOptions` (the default `indent_seq` is two spaces). -/
structure FormatOptions : Type where
  indent_seq : Str := [' ', ' ']

/-- `"\n" in s`. -/
def hasNl (s : Str) : Bool := s.contains '\n'

/-- `s.count("\n")` (for the single-character needle this is the number
of newline characters). -/
def countNl (s : Str) : Nat := s.count '\n'

/-- Python `ind * n` for a string `ind`. -/
def indRep (ind : Str) (n : Nat) : Str := (List.replicate n ind).flatten

/-- Last fragment yielded so far (the Python local `last`, whose initial
value is `""`). -/
def lastFrag (fs : List Str) : Str := fs.getLastD []

mutual

/-- `ParserFormatter._fmt_expr`: the fragment stream yielded for one
expression at a given indent. -/
def fmtFrags (ind : Str) (code : Str) : TExpr → Nat → List Str
  | .atom t _ _, _ => [t]
  | .comment t _ _, d => [commentBegin, t, nlStr, indRep ind d]
  | .list k cs _ _, d =>
    Kind.beginStr k ::
      ((match cs with
        | [] => []
        | c0 :: rest =>
          fmtFrags ind code c0 (d + 1) ++
            fmtSibs ind code c0 rest d
              (lastFrag (fmtFrags ind code c0 (d + 1)))) ++ [endStr])

/-- The sibling loop of `_fmt_expr`: for each adjacent pair, a break
(newline + one-deeper indent) if the raw slice between their spans
contains a newline, else a single space unless the previous fragment is
whitespace. -/
def fmtSibs (ind : Str) (code : Str) :
    TExpr → List TExpr → Nat → Str → List Str
  | _, [], _, _ => []
  | prev, e :: rest, d, last =>
    (if hasNl (slice code (endP prev) (startP e)) then
        [nlStr, indRep ind (d + 1)]
      else if strIsSpace last then []
      else [[' ']]) ++
    (fmtFrags ind code e (d + 1) ++
      fmtSibs ind code e rest d (lastFrag (fmtFrags ind code e (d + 1))))

end

/-- `ParserFormatter.fmt_expr`: join the fragments of one form rendered
at depth 0. -/
def fmtStr (ind : Str) (code : Str) (t : TExpr) : Str :=
  (fmtFrags ind code t 0).flatten

/-- The body of `ParserFormatter.fmt` once the form stream is in hand:
first form, then for each consecutive pair the separator
`"\n" * count` followed by the next form. -/
def fmtTops (ind : Str) (code : Str) : TExpr → List TExpr → Str
  | e, [] => fmtStr ind code e
  | e, f :: rest =>
    fmtStr ind code e ++
      List.replicate (countNl (slice code (endP e) (startP f))) '\n' ++
      fmtTops ind code f rest

/-- `"".join(pf.fmt())` on the Python side: parse all top-level forms and render them.  An
empty form stream makes the unguarded `next(exprs2)` raise
(StopIteration escaping a generator), modelled as an `err` result. -/
def fmtCore (fuel : Nat) (opts : FormatOptions) (code : Str) : PResult Str :=
  match parseAll fuel code 0 with
  | .div => .div
  | .err m p => .err m p
  | .ok [] => .err ('S' :: 't' :: 'o' :: 'p' :: []) 0
  | .ok (e :: rest) => .ok (fmtTops opts.indent_seq code e rest)

/-- The driver-level `format`: append a trailing newline to the core output. -/
def format (fuel : Nat) (opts : FormatOptions) (code : Str) : PResult Str :=
  match fmtCore fuel opts code with
  | .ok r => .ok (r ++ ['\n'])
  | .err m p => .err m p
  | .div => .div

/-- `MatchAt code p t`: the source contains the literal `t` at `p`. -/
def MatchAt (code : Str) (p : Nat) (t : Str) : Prop :=
  slice code p (p + t.length) = t

/-- Adjacent sibling spans in parse order: non-overlapping
(`endP a ≤ startP b`) and strictly increasing in start offset. -/
def spansOrdered : List TExpr → Bool
  | [] => true
  | [_] => true
  | a :: b :: rest =>
    (decide (endP a ≤ startP b) && decide (startP a < startP b)) &&
      spansOrdered (b :: rest)

mutual

/-- Well-formed spans: every node's span is nonempty, a list's span
strictly contains the spans of all of its children, and sibling spans
are ordered.  (Recursive over the tree.) -/
def spanWF : TExpr → Bool
  | .atom _ s e => decide (s < e)
  | .comment _ s e => decide (s < e)
  | .list _ cs s e =>
    decide (s < e) && spanWFList cs && spansOrdered cs &&
      cs.all (fun c => decide (s < startP c) && decide (endP c < e))

/-- `spanWF` for every element of a child list. -/
def spanWFList : List TExpr → Bool
  | [] => true
  | c :: cs => spanWF c && spanWFList cs

end

/-- Layout tree: a parse tree with the spans replaced by the renderer's
break decision for each non-first sibling (`true` = the raw slice
between the adjacent spans contained a newline).  Two parse trees with
the same layout render identically, which is the backbone of the
idempotence proof. -/
inductive LExpr : Type where
  | atom (text : Str)
  | comment (text : Str)
  | list (kind : Kind) (children : List (Bool × LExpr))

mutual

/-- The layout of a parsed expression over its source buffer. -/
def layoutOf (code : Str) : TExpr → LExpr
  | .atom t _ _ => .atom t
  | .comment t _ _ => .comment t
  | .list k cs _ _ => .list k (layoutSibs code cs)

/-- Layout of a child list: the first child gets flag `false` (no
separator is emitted before it), later children get their break flag. -/
def layoutSibs (code : Str) : List TExpr → List (Bool × LExpr)
  | [] => []
  | c :: rest => (false, layoutOf code c) :: layoutTail code c rest

/-- Layout of the non-first children, each flagged by whether the raw
slice from the previous child's end to its start contains a newline. -/
def layoutTail (code : Str) : TExpr → List TExpr → List (Bool × LExpr)
  | _, [] => []
  | prev, e :: rest =>
    (hasNl (slice code (endP prev) (startP e)), layoutOf code e) ::
      layoutTail code e rest

end

/-- Is this layout node a comment?  (A comment's render ends in its
forced indent, which is what the `last.isspace()` check reacts to.) -/
def isCommentL : LExpr → Bool
  | .comment _ => true
  | _ => false

mutual

/-- Pure renderer over layouts (no source buffer needed). -/
def renderL (ind : Str) : LExpr → Nat → List Str
  | .atom t, _ => [t]
  | .comment t, d => [commentBegin, t, nlStr, indRep ind d]
  | .list k cs, d =>
    Kind.beginStr k ::
      ((match cs with
        | [] => []
        | (_, c0) :: rest =>
          renderL ind c0 (d + 1) ++ renderLSibs ind c0 rest d) ++ [endStr])

/-- Sibling renderer over layouts: separator by flag, with the space
suppressed exactly after a comment. -/
def renderLSibs (ind : Str) : LExpr → List (Bool × LExpr) → Nat → List Str
  | _, [], _ => []
  | prev, (b, e) :: rest, d =>
    (if b then [nlStr, indRep ind (d + 1)]
     else if isCommentL prev then [] else [[' ']]) ++
    (renderL ind e (d + 1) ++ renderLSibs ind e rest d)

end

/-- The rendered text of one layout at a depth. -/
def flatL (ind : Str) (l : LExpr) (d : Nat) : Str := (renderL ind l d).flatten

/-- A character allowed inside a lexed atom: not whitespace and not a
one-character delimiter.  (`(` can never occur inside an atom at all,
which is why only the token's last character can interact with a
following delimiter.) -/
def cleanAtomChar (c : Char) : Bool :=
  !isSpace c && !(c = '(') && !(c = ')') && !(c = ';') && !(c = '\n')

/-- First-sibling flag is `false` (as `layoutSibs` always produces). -/
def headFlagFalse : List (Bool × LExpr) → Bool
  | [] => true
  | (b, _) :: _ => !b

mutual

/-- Layout well-formedness, as guaranteed for parser output: atom texts
are nonempty runs of clean characters, comment texts contain no
newline, and a list's children satisfy the same recursively with a
`false` flag on the first child. -/
def lwf : LExpr → Bool
  | .atom t => !t.isEmpty && t.all cleanAtomChar
  | .comment t => t.all (fun c => !(c = '\n'))
  | .list _ cs => headFlagFalse cs && lwfSibs cs

/-- `lwf` on every child of a list. -/
def lwfSibs : List (Bool × LExpr) → Bool
  | [] => true
  | (_, c) :: rest => lwf c && lwfSibs rest

end

/-- Top-level layout well-formedness: ordinary `lwf`, or the stray-`)`
atom which only the top level can produce. -/
def topWF (l : LExpr) : Bool :=
  lwf l ||
    (match l with
      | .atom t => t = [')']
      | _ => false)

/-- Quote-family characters: the only characters that can combine with
a following `(` to form a two-character delimiter. -/
def isQuote (c : Char) : Bool := c = '\'' || c = backquote || c = ','

/-- Separator string emitted by the sibling loop before a non-first
child: break (newline + indent), nothing (after a comment), or one
space. -/
def sepL (ind : Str) (b : Bool) (prev : LExpr) (d : Nat) : Str :=
  if b then '\n' :: indRep ind (d + 1)
  else if isCommentL prev then [] else [' ']

/-- Flattened render of the non-first children of a list. -/
def sibsFlat (ind : Str) : LExpr → List (Bool × LExpr) → Nat → Str
  | _, [], _ => []
  | prev, (b, e) :: rest, d =>
    sepL ind b prev d ++ flatL ind e (d + 1) ++ sibsFlat ind e rest d

/-- Flattened render of a list body (between the delimiters). -/
def bodyFlat (ind : Str) : List (Bool × LExpr) → Nat → Str
  | [], _ => []
  | (_, c0) :: rest, d => flatL ind c0 (d + 1) ++ sibsFlat ind c0 rest d

/-- The part of a rendered node that a re-parse actually consumes: for
a comment the trailing indent is left for the following whitespace
skip, everything else is consumed whole. -/
def consStr (ind : Str) : LExpr → Nat → Str
  | .atom t, _ => t
  | .comment t, _ => ';' :: (t ++ ['\n'])
  | .list k cs, d => flatL ind (.list k cs) d

/-- Length of the consumed part. -/
def consL (ind : Str) (l : LExpr) (d : Nat) : Nat := (consStr ind l d).length

/-- The unconsumed residue of a rendered node (a comment's trailing
indent). -/
def resL (ind : Str) : LExpr → Nat → Str
  | .comment _, d => indRep ind d
  | _, _ => []

mutual

/-- Sufficient parser fuel for one rendered node. -/
def fuelL : LExpr → Nat
  | .atom _ => 1
  | .comment _ => 1
  | .list _ cs => 1 + fuelSibs cs

/-- Sufficient fuel for the child loop over the remaining children. -/
def fuelSibs : List (Bool × LExpr) → Nat
  | [] => 2
  | (_, c) :: rest => 1 + fuelL c + fuelSibs rest

end

/-- The non-first top-level forms with their newline counts. -/
def topsTail (code : Str) : TExpr → List TExpr → List (Nat × LExpr)
  | _, [] => []
  | prev, f :: rest =>
    (countNl (slice code (endP prev) (startP f)), layoutOf code f) ::
      topsTail code f rest

/-- The top-level stream of one parse: each form's layout together with
the number of newlines separating it from its predecessor (0 for the
first form). -/
def topsOf (code : Str) (e : TExpr) (rest : List TExpr) :
    List (Nat × LExpr) :=
  (0, layoutOf code e) :: topsTail code e rest

/-- Rendered text of the whole top-level stream. -/
def flatTops (ind : Str) : List (Nat × LExpr) → Str
  | [] => []
  | (k, l) :: rest => List.replicate k '\n' ++ flatL ind l 0 ++ flatTops ind rest

/-- Rendered text of a top-level form stream starting from a previous
end position `p`: each form contributes the newline count of the gap
from `p` to its start, then its own render.  (`fmtTops` is this with
the leading gap of the first form dropped.) -/
def glued (ind code : Str) : Nat → List TExpr → Str
  | _, [] => []
  | p, e :: rest =>
    List.replicate (countNl (slice code p (startP e))) '\n' ++
      fmtStr ind code e ++ glued ind code (endP e) rest

/-- Sufficient parser fuel for the whole top-level stream. -/
def fuelTops : List (Nat × LExpr) → Nat
  | [] => 2
  | (_, l) :: rest => 1 + fuelL l + fuelTops rest

/-! ### Basic facts about `slice`, `charAt` and `scanEnd` -/

theorem slice_eq_nil_of_le {code : Str} {a b : Nat} (h : b ≤ a) :
    slice code a b = [] := by
  simp [slice, Nat.sub_eq_zero_of_le h]

theorem slice_eq_nil_of_len_le {code : Str} {a b : Nat}
    (h : code.length ≤ a) : slice code a b = [] := by
  simp [slice, List.drop_eq_nil_iff.2 h]

theorem length_slice (code : Str) (a b : Nat) :
    (slice code a b).length = min (b - a) (code.length - a) := by
  simp [slice]

theorem charAt_eq_getElem {code : Str} {p : Nat} (h : p < code.length) :
    charAt code p = code[p] := by
  simp [charAt, List.getD_eq_getElem?_getD, List.getElem?_eq_getElem h]

theorem drop_eq_charAt_cons {code : Str} {p : Nat} (h : p < code.length) :
    code.drop p = charAt code p :: code.drop (p + 1) := by
  rw [charAt_eq_getElem h]
  exact List.drop_eq_getElem_cons h

theorem slice_cons_of_lt {code : Str} {p b : Nat} (h : p < code.length)
    (hb : p < b) : slice code p b = charAt code p :: slice code (p + 1) b := by
  unfold slice
  rw [drop_eq_charAt_cons h]
  have hsub : b - p = (b - (p + 1)) + 1 := by omega
  rw [hsub, List.take_succ_cons]

theorem matchAt_nil (code : Str) (p : Nat) : MatchAt code p [] := by
  simp [MatchAt, slice]

theorem matchAt_cons_iff {code : Str} {p : Nat} {c : Char} {cs : Str} :
    MatchAt code p (c :: cs) ↔
      p < code.length ∧ charAt code p = c ∧ MatchAt code (p + 1) cs := by
  have hb : p < p + (c :: cs).length := by
    simp only [List.length_cons]; omega
  constructor
  · intro h
    unfold MatchAt at h
    have hlen : p < code.length := by
      rcases Nat.lt_or_ge p code.length with h1 | h1
      · exact h1
      · rw [slice_eq_nil_of_len_le h1] at h
        exact absurd h.symm (List.cons_ne_nil _ _)
    rw [slice_cons_of_lt hlen hb] at h
    have h1 := List.head_eq_of_cons_eq h
    have h2 := List.tail_eq_of_cons_eq h
    refine ⟨hlen, h1, ?_⟩
    unfold MatchAt
    have hl : p + (c :: cs).length = (p + 1) + cs.length := by
      simp only [List.length_cons]; omega
    rw [hl] at h2
    exact h2
  · rintro ⟨hlen, hc, hm⟩
    unfold MatchAt at hm ⊢
    rw [slice_cons_of_lt hlen hb, hc]
    congr 1
    have hl : p + (c :: cs).length = (p + 1) + cs.length := by
      simp only [List.length_cons]; omega
    rw [hl]
    exact hm

theorem matchAt_append_iff {code : Str} {p : Nat} {s t : Str} :
    MatchAt code p (s ++ t) ↔
      MatchAt code p s ∧ MatchAt code (p + s.length) t := by
  induction s generalizing p with
  | nil => simp [matchAt_nil]
  | cons c cs ih =>
    simp only [List.cons_append, matchAt_cons_iff, ih, List.length_cons]
    constructor
    · rintro ⟨h1, h2, h3, h4⟩
      refine ⟨⟨h1, h2, h3⟩, ?_⟩
      have hl : p + (cs.length + 1) = (p + 1) + cs.length := by omega
      rw [hl]
      exact h4
    · rintro ⟨⟨h1, h2, h3⟩, h4⟩
      refine ⟨h1, h2, h3, ?_⟩
      have hl : (p + 1) + cs.length = p + (cs.length + 1) := by omega
      rw [hl]
      exact h4

theorem MatchAt.le_length {code : Str} {p : Nat} {c : Char} {cs : Str}
    (h : MatchAt code p (c :: cs)) : p + (c :: cs).length ≤ code.length := by
  induction cs generalizing p c with
  | nil =>
    rw [matchAt_cons_iff] at h
    simp only [List.length_cons, List.length_nil]
    omega
  | cons c2 cs2 ih =>
    rw [matchAt_cons_iff] at h
    have := ih h.2.2
    simp only [List.length_cons] at this ⊢
    omega

theorem matchTok_iff {code : Str} {pos : Nat} {d : Str} :
    matchTok code pos d = true ↔ MatchAt code pos d := by
  unfold matchTok cursorN MatchAt
  simp

theorem scanEnd_stop {code : Str} {f : Nat → Bool} {pos : Nat}
    (h : code.length ≤ pos ∨ f pos = true) : scanEnd code f pos = pos := by
  unfold scanEnd
  rcases h with h | h
  · rw [Nat.sub_eq_zero_of_le h]
    rfl
  · cases hrem : code.length - pos with
    | zero => rfl
    | succ n => simp [scanEndF, h]

theorem scanEnd_step {code : Str} {f : Nat → Bool} {pos : Nat}
    (h : pos < code.length) (hf : f pos = false) :
    scanEnd code f pos = scanEnd code f (pos + 1) := by
  unfold scanEnd
  have hrem : code.length - pos = (code.length - (pos + 1)) + 1 := by omega
  rw [hrem]
  simp [scanEndF, hf]

theorem scanEnd_ge (code : Str) (f : Nat → Bool) (pos : Nat) :
    pos ≤ scanEnd code f pos := by
  have H : ∀ n p, code.length - p = n → p ≤ scanEnd code f p := by
    intro n
    induction n with
    | zero =>
      intro p hp
      rw [scanEnd_stop (Or.inl (by omega))]
    | succ n ih =>
      intro p hp
      by_cases hf : f p = true
      · rw [scanEnd_stop (Or.inr hf)]
      · rw [scanEnd_step (by omega) (by simpa using hf)]
        have := ih (p + 1) (by omega)
        omega
  exact H (code.length - pos) pos rfl

theorem scanEnd_le (code : Str) (f : Nat → Bool) (pos : Nat)
    (h : pos ≤ code.length) : scanEnd code f pos ≤ code.length := by
  have H : ∀ n p, code.length - p = n → p ≤ code.length →
      scanEnd code f p ≤ code.length := by
    intro n
    induction n with
    | zero =>
      intro p hp hple
      rw [scanEnd_stop (Or.inl (by omega))]
      omega
    | succ n ih =>
      intro p hp hple
      by_cases hf : f p = true
      · rw [scanEnd_stop (Or.inr hf)]
        omega
      · rw [scanEnd_step (by omega) (by simpa using hf)]
        exact ih (p + 1) (by omega) (by omega)
  exact H (code.length - pos) pos rfl h

/-- Run characterization: if `f` is false on `[pos, q)` (all in range)
and `q` is a stopping point, the scan ends exactly at `q`. -/
theorem scanEnd_eq_of_run {code : Str} {f : Nat → Bool} {pos q : Nat}
    (hle : pos ≤ q)
    (hrun : ∀ i, pos ≤ i → i < q → i < code.length ∧ f i = false)
    (hstop : code.length ≤ q ∨ f q = true) : scanEnd code f pos = q := by
  have H : ∀ n p, q - p = n → p ≤ q →
      (∀ i, p ≤ i → i < q → i < code.length ∧ f i = false) →
      scanEnd code f p = q := by
    intro n
    induction n with
    | zero =>
      intro p h1 h2 _
      have hpq : p = q := by omega
      subst hpq
      exact scanEnd_stop hstop
    | succ n ih =>
      intro p h1 h2 hrun2
      have hlt : p < q := by omega
      obtain ⟨ha, hb⟩ := hrun2 p (Nat.le_refl _) hlt
      rw [scanEnd_step ha hb]
      exact ih (p + 1) (by omega) (by omega)
        (fun i hi1 hi2 => hrun2 i (by omega) hi2)
  exact H (q - pos) pos rfl hle hrun

/-- Below the scan result, `f` is false and positions are in range. -/
theorem scanEnd_run {code : Str} {f : Nat → Bool} {pos : Nat} :
    ∀ i, pos ≤ i → i < scanEnd code f pos →
      i < code.length ∧ f i = false := by
  have H : ∀ n p, code.length - p = n → ∀ i, p ≤ i → i < scanEnd code f p →
      i < code.length ∧ f i = false := by
    intro n
    induction n with
    | zero =>
      intro p hp i hi1 hi2
      rw [scanEnd_stop (Or.inl (by omega))] at hi2
      omega
    | succ n ih =>
      intro p hp i hi1 hi2
      by_cases hf : f p = true
      · rw [scanEnd_stop (Or.inr hf)] at hi2
        omega
      · rcases Nat.eq_or_lt_of_le hi1 with heq | hlt
        · subst heq
          exact ⟨by omega, by simpa using hf⟩
        · rw [scanEnd_step (by omega) (by simpa using hf)] at hi2
          exact ih (p + 1) (by omega) i hlt hi2
  exact H (code.length - pos) pos rfl

/-- The scan result is a stopping point. -/
theorem scanEnd_is_stop (code : Str) (f : Nat → Bool) (pos : Nat) :
    code.length ≤ scanEnd code f pos ∨ f (scanEnd code f pos) = true := by
  have H : ∀ n p, code.length - p = n →
      code.length ≤ scanEnd code f p ∨ f (scanEnd code f p) = true := by
    intro n
    induction n with
    | zero =>
      intro p hp
      rw [scanEnd_stop (Or.inl (by omega))]
      omega
    | succ n ih =>
      intro p hp
      by_cases hf : f p = true
      · rw [scanEnd_stop (Or.inr hf)]
        exact Or.inr hf
      · rw [scanEnd_step (by omega) (by simpa using hf)]
        exact ih (p + 1) (by omega)
  exact H (code.length - pos) pos rfl

/-! ### Token-level lemmas -/

theorem beginStr_plain : Kind.beginStr .plain = ['('] := rfl

theorem beginStr_quoted : Kind.beginStr .quoted = ['\'', '('] := rfl

theorem beginStr_quasi : Kind.beginStr .quasi = [backquote, '('] := rfl

theorem beginStr_unquoted : Kind.beginStr .unquoted = [',', '('] := rfl

theorem matchTok_head {code : Str} {pos : Nat} {c : Char} {cs : Str}
    (h : matchTok code pos (c :: cs) = true) :
    pos < code.length ∧ charAt code pos = c := by
  rw [matchTok_iff, matchAt_cons_iff] at h
  exact ⟨h.1, h.2.1⟩

theorem matchTok_false_of_head {code : Str} {pos : Nat} {c : Char} {cs : Str}
    (h : charAt code pos ≠ c) : matchTok code pos (c :: cs) = false := by
  rcases hb : matchTok code pos (c :: cs) with _ | _
  · rfl
  · exact absurd (matchTok_head hb).2 h

theorem matchTok_false_of_eof {code : Str} {pos : Nat} {c : Char} {cs : Str}
    (h : code.length ≤ pos) : matchTok code pos (c :: cs) = false := by
  rcases hb : matchTok code pos (c :: cs) with _ | _
  · rfl
  · have := (matchTok_head hb).1
    omega

theorem delimAt_false_iff {code : Str} {pos : Nat} :
    delimAt code pos = false ↔
      matchTok code pos ['('] = false ∧
      matchTok code pos ['\'', '('] = false ∧
      matchTok code pos [backquote, '('] = false ∧
      matchTok code pos [',', '('] = false ∧
      matchTok code pos [')'] = false ∧
      matchTok code pos [';'] = false ∧
      matchTok code pos ['\n'] = false := by
  unfold delimAt DELIMETERS
  rw [beginStr_plain]
  simp [List.any, endStr, commentBegin, nlStr, beginStr_quoted,
    beginStr_quasi, beginStr_unquoted]

theorem takeToken_of_eof {code : Str} {pos : Nat} (h : code.length ≤ pos) :
    takeToken code pos = ([], pos) := by
  unfold takeToken
  rw [beginStr_plain, beginStr_quoted, beginStr_quasi, beginStr_unquoted]
  simp only [matchTok_false_of_eof h, endStr, commentBegin, nlStr,
    Bool.false_eq_true, if_false]
  have he : atomEnd code pos = pos := scanEnd_stop (Or.inl h)
  rw [he, slice_eq_nil_of_len_le h]

theorem takeToken_of_atom {code : Str} {pos : Nat}
    (h : delimAt code pos = false) :
    takeToken code pos = (slice code pos (atomEnd code pos), atomEnd code pos) := by
  obtain ⟨h1, h2, h3, h4, h5, h6, h7⟩ := delimAt_false_iff.1 h
  unfold takeToken
  rw [beginStr_plain, beginStr_quoted, beginStr_quasi, beginStr_unquoted]
  simp only [endStr, commentBegin, nlStr, h1, h2, h3, h4, h5, h6, h7,
    Bool.false_eq_true, if_false]

theorem matchTok_single {code : Str} {pos : Nat} {c : Char}
    (hlen : pos < code.length) (hc : charAt code pos = c) :
    matchTok code pos [c] = true := by
  rw [matchTok_iff, matchAt_cons_iff]
  exact ⟨hlen, hc, matchAt_nil _ _⟩

theorem takeToken_lparen {code : Str} {pos : Nat}
    (hlen : pos < code.length) (hc : charAt code pos = '(') :
    takeToken code pos = (['('], pos + 1) := by
  unfold takeToken
  rw [beginStr_plain]
  simp [matchTok_single hlen hc]

theorem takeToken_rparen {code : Str} {pos : Nat}
    (hlen : pos < code.length) (hc : charAt code pos = ')') :
    takeToken code pos = ([')'], pos + 1) := by
  unfold takeToken
  rw [beginStr_plain, beginStr_quoted, beginStr_quasi, beginStr_unquoted]
  rw [matchTok_false_of_head (by rw [hc]; decide),
    matchTok_false_of_head (c := '\'') (by rw [hc]; decide),
    matchTok_false_of_head (c := backquote) (by rw [hc]; decide),
    matchTok_false_of_head (c := ',') (by rw [hc]; decide)]
  simp [endStr, matchTok_single hlen hc]

theorem takeToken_semicolon {code : Str} {pos : Nat}
    (hlen : pos < code.length) (hc : charAt code pos = ';') :
    takeToken code pos = ([';'], pos + 1) := by
  unfold takeToken
  rw [beginStr_plain, beginStr_quoted, beginStr_quasi, beginStr_unquoted]
  simp only [endStr, commentBegin, nlStr]
  rw [matchTok_false_of_head (by rw [hc]; decide),
    matchTok_false_of_head (c := '\'') (by rw [hc]; decide),
    matchTok_false_of_head (c := backquote) (by rw [hc]; decide),
    matchTok_false_of_head (c := ',') (by rw [hc]; decide),
    matchTok_false_of_head (c := ')') (by rw [hc]; decide)]
  simp [matchTok_single hlen hc]

theorem matchTok_pair {code : Str} {pos : Nat} {a b : Char}
    (hlen : pos + 1 < code.length) (ha : charAt code pos = a)
    (hb : charAt code (pos + 1) = b) : matchTok code pos [a, b] = true := by
  rw [matchTok_iff, matchAt_cons_iff, matchAt_cons_iff]
  exact ⟨by omega, ha, hlen, hb, matchAt_nil _ _⟩

theorem takeToken_quoted {code : Str} {pos : Nat}
    (hlen : pos + 1 < code.length) (ha : charAt code pos = '\'')
    (hb : charAt code (pos + 1) = '(') :
    takeToken code pos = (['\'', '('], pos + 2) := by
  unfold takeToken
  rw [beginStr_plain, beginStr_quoted]
  rw [matchTok_false_of_head (by rw [ha]; decide)]
  simp [matchTok_pair hlen ha hb]

theorem takeToken_quasi {code : Str} {pos : Nat}
    (hlen : pos + 1 < code.length) (ha : charAt code pos = backquote)
    (hb : charAt code (pos + 1) = '(') :
    takeToken code pos = ([backquote, '('], pos + 2) := by
  unfold takeToken
  rw [beginStr_plain, beginStr_quoted, beginStr_quasi]
  rw [matchTok_false_of_head (by rw [ha]; decide),
    matchTok_false_of_head (c := '\'') (by rw [ha]; decide)]
  simp [matchTok_pair hlen ha hb]

theorem takeToken_unquoted {code : Str} {pos : Nat}
    (hlen : pos + 1 < code.length) (ha : charAt code pos = ',')
    (hb : charAt code (pos + 1) = '(') :
    takeToken code pos = ([',', '('], pos + 2) := by
  unfold takeToken
  rw [beginStr_plain, beginStr_quoted, beginStr_quasi, beginStr_unquoted]
  rw [matchTok_false_of_head (by rw [ha]; decide),
    matchTok_false_of_head (c := '\'') (by rw [ha]; decide),
    matchTok_false_of_head (c := backquote) (by rw [ha]; decide)]
  simp [matchTok_pair hlen ha hb]

/-! ### Parser step lemmas -/

theorem parseExpr_of_list {fuel : Nat} {code : Str} {pos p2 : Nat} {k : Kind}
    (h : takeToken code (skipWs code pos) = (Kind.beginStr k, p2)) :
    parseExpr (fuel + 1) code pos =
      parseChildren fuel code p2 k (skipWs code pos) [] := by
  cases k <;> (simp only [parseExpr, h]; simp [Kind.beginStr, backquote, commentBegin])

theorem parseExpr_of_atom {fuel : Nat} {code : Str} {pos p2 : Nat} {t : Str}
    (h : takeToken code (skipWs code pos) = (t, p2))
    (h1 : t ≠ Kind.beginStr .plain) (h2 : t ≠ Kind.beginStr .quoted)
    (h3 : t ≠ Kind.beginStr .quasi) (h4 : t ≠ Kind.beginStr .unquoted)
    (h5 : t ≠ commentBegin) :
    parseExpr (fuel + 1) code pos = .ok (.atom t (skipWs code pos) p2, p2) := by
  simp only [parseExpr, h]
  rw [if_neg h1, if_neg h2, if_neg h3, if_neg h4, if_neg h5]

theorem parseExpr_of_comment {fuel : Nat} {code : Str} {pos p2 : Nat}
    (h : takeToken code (skipWs code pos) = (commentBegin, p2)) :
    parseExpr (fuel + 1) code pos =
      .ok (.comment (slice code p2 (commentEnd code p2)) (skipWs code pos)
          (commentFin code p2),
        commentFin code p2) := by
  simp only [parseExpr, h]
  simp [Kind.beginStr, backquote, commentBegin]

theorem parseChildren_of_div {fuel : Nat} {code : Str} {pos : Nat}
    {k : Kind} {s : Nat} {acc : List TExpr}
    (h : parseExpr fuel code pos = .div) :
    parseChildren (fuel + 1) code pos k s acc = .div := by
  simp only [parseChildren, h]

theorem parseChildren_of_end {fuel : Nat} {code : Str} {pos p' : Nat}
    {k : Kind} {s : Nat} {acc : List TExpr} {elem : TExpr}
    (h : parseExpr fuel code pos = .ok (elem, p'))
    (hend : isEnd elem = true) :
    parseChildren (fuel + 1) code pos k s acc = .ok (.list k acc s p', p') := by
  simp only [parseChildren, h, hend, if_true]

theorem parseChildren_of_elem {fuel : Nat} {code : Str} {pos p' : Nat}
    {k : Kind} {s : Nat} {acc : List TExpr} {elem : TExpr}
    (h : parseExpr fuel code pos = .ok (elem, p'))
    (hne : isEnd elem = false) :
    parseChildren (fuel + 1) code pos k s acc =
      parseChildren fuel code p' k s (acc ++ [elem]) := by
  simp only [parseChildren, h, hne, Bool.false_eq_true, if_false]

theorem parseAll_of_sentinel {fuel : Nat} {code : Str} {pos p' : Nat}
    {e : TExpr} (h : parseExpr fuel code pos = .ok (e, p'))
    (hs : isSentinel e = true) :
    parseAll (fuel + 1) code pos = .ok [] := by
  simp only [parseAll, h, hs, if_true]

theorem parseAll_of_form {fuel : Nat} {code : Str} {pos p' : Nat}
    {e : TExpr} (h : parseExpr fuel code pos = .ok (e, p'))
    (hs : isSentinel e = false) :
    parseAll (fuel + 1) code pos =
      (match parseAll fuel code p' with
        | .ok rest => .ok (e :: rest)
        | .err m p => .err m p
        | .div => .div) := by
  simp only [parseAll, h, hs, Bool.false_eq_true, if_false]

/-! ### End-of-input behaviour -/

theorem skipWs_of_eof {code : Str} {pos : Nat} (h : code.length ≤ pos) :
    skipWs code pos = pos := scanEnd_stop (Or.inl h)

/-- At end of input the next "token" is the empty atom (the sentinel). -/
theorem parseExpr_of_eof {fuel : Nat} {code : Str} {pos : Nat}
    (h : code.length ≤ skipWs code pos) :
    parseExpr (fuel + 1) code pos =
      .ok (.atom [] (skipWs code pos) (skipWs code pos), skipWs code pos) := by
  exact parseExpr_of_atom (takeToken_of_eof h)
    (by decide) (by decide) (by decide) (by decide) (by decide)

/-- The child loop at end of input never terminates: it keeps appending
empty atoms, so every fuel is exhausted. -/
theorem parseChildren_of_eof_div :
    ∀ (fuel : Nat) (code : Str) (pos : Nat) (k : Kind) (s : Nat)
      (acc : List TExpr), code.length ≤ skipWs code pos →
      parseChildren fuel code pos k s acc = .div := by
  intro fuel
  induction fuel using Nat.strong_induction_on with
  | _ fuel ih =>
    intro code pos k s acc h
    match fuel with
    | 0 => rfl
    | 1 => exact @parseChildren_of_div 0 _ _ _ _ _ rfl
    | m + 2 =>
      rw [parseChildren_of_elem (parseExpr_of_eof h) (by rfl)]
      exact ih (m + 1) (by omega) code (skipWs code pos) k s _
        (by rw [skipWs_of_eof h]; exact h)

/-! ### Divergence on the unterminated input `(a (b c` -/

/-- The child loop of the inner list, after having consumed `b` and `c`
(cursor at end of input): spins forever. -/
theorem c2_pos7 : ∀ (fuel : Nat) (k : Kind) (s : Nat) (acc : List TExpr),
    parseChildren fuel ("(a (b c").data 7 k s acc = .div := by
  intro fuel k s acc
  exact parseChildren_of_eof_div fuel _ 7 k s acc (by decide)

theorem c2_pos5 : ∀ (fuel : Nat) (k : Kind) (s : Nat) (acc : List TExpr),
    parseChildren fuel ("(a (b c").data 5 k s acc = .div := by
  intro fuel k s acc
  match fuel with
  | 0 => rfl
  | 1 => exact @parseChildren_of_div 0 _ _ _ _ _ rfl
  | m + 2 =>
    rw [parseChildren_of_elem
      (@parseExpr_of_atom m (("(a (b c").data) 5 7 ['c'] (by decide)
        (by decide) (by decide) (by decide) (by decide) (by decide))
      (by rfl)]
    exact c2_pos7 (m + 1) k s _

theorem c2_pos4 : ∀ (fuel : Nat) (k : Kind) (s : Nat) (acc : List TExpr),
    parseChildren fuel ("(a (b c").data 4 k s acc = .div := by
  intro fuel k s acc
  match fuel with
  | 0 => rfl
  | 1 => exact @parseChildren_of_div 0 _ _ _ _ _ rfl
  | m + 2 =>
    rw [parseChildren_of_elem
      (@parseExpr_of_atom m (("(a (b c").data) 4 5 ['b'] (by decide)
        (by decide) (by decide) (by decide) (by decide) (by decide))
      (by rfl)]
    exact c2_pos5 (m + 1) k s _

theorem c2_pos2 : ∀ (fuel : Nat) (k : Kind) (s : Nat) (acc : List TExpr),
    parseChildren fuel ("(a (b c").data 2 k s acc = .div := by
  intro fuel k s acc
  match fuel with
  | 0 => rfl
  | 1 => exact @parseChildren_of_div 0 _ _ _ _ _ rfl
  | m + 2 =>
    have hexp : parseExpr (m + 1) ("(a (b c").data 2 = .div := by
      rw [@parseExpr_of_list m (("(a (b c").data) 2 4 Kind.plain (by decide)]
      exact c2_pos4 m .plain _ []
    exact parseChildren_of_div hexp

theorem c2_pos1 : ∀ (fuel : Nat) (k : Kind) (s : Nat) (acc : List TExpr),
    parseChildren fuel ("(a (b c").data 1 k s acc = .div := by
  intro fuel k s acc
  match fuel with
  | 0 => rfl
  | 1 => exact @parseChildren_of_div 0 _ _ _ _ _ rfl
  | m + 2 =>
    rw [parseChildren_of_elem
      (@parseExpr_of_atom m (("(a (b c").data) 1 2 ['a'] (by decide)
        (by decide) (by decide) (by decide) (by decide) (by decide))
      (by rfl)]
    exact c2_pos2 (m + 1) k s _

theorem c2_top : ∀ fuel : Nat, parseExpr fuel ("(a (b c").data 0 = .div := by
  intro fuel
  match fuel with
  | 0 => rfl
  | m + 1 =>
    rw [@parseExpr_of_list m (("(a (b c").data) 0 1 Kind.plain (by decide)]
    exact c2_pos1 m .plain _ []

/-- C2.  The spec says parsing the unterminated input `(a (b c` raises a
`ParseError` referencing end of input.  The code does not: the child loop
of `parse_expr` only exits when the parsed element equals `")"` (the
`elem is None` disjunct never fires and the `raise ValueError` after the
loop is unreachable), and at end of input `parse_expr` returns an empty
atom that is neither, so the loop appends empty atoms forever.  In the
fuelled model this means every fuel is exhausted (`.div`), i.e. the
Python program diverges instead of raising. -/
theorem claim2_unterminated_list_diverges :
    ∀ fuel : Nat, parseExpr fuel ("(a (b c").data 0 = .div ∧
      parseAll fuel ("(a (b c").data 0 = .div ∧
      (∀ opts : FormatOptions, format fuel opts (("(a (b c").data) = .div) := by
  intro fuel
  refine ⟨c2_top fuel, ?_, ?_⟩
  · match fuel with
    | 0 => rfl
    | m + 1 => simp only [parseAll, c2_top m]
  · intro opts
    unfold format fmtCore
    match fuel with
    | 0 => rfl
    | m + 1 => simp only [parseAll, c2_top m]

/-- C5 counterexample.  The spec says a stray `)` at top level
"terminates the current top-level parse with the same error kind"; in
fact the parser returns it as an ordinary atom and the formatter
renders it verbatim — no error is raised. -/
theorem claim5_counterexample :
    parseAll 3 ((")").data) 0 = .ok [.atom [')'] 0 1] ∧
      fmtCore 3 {} ((")").data) = .ok [')'] := by
  exact ⟨by rfl, by rfl⟩

/-- C5 amended: a standalone `)` token that does not close an open list
(e.g. at top level) is returned by `parse_expr` as an ordinary atom with
text `")"`, spanning exactly that character; it is not a parse error. -/
theorem claim5_stray_paren_is_atom {code : Str} {pos : Nat} (fuel : Nat)
    (hlen : skipWs code pos < code.length)
    (hc : charAt code (skipWs code pos) = ')') :
    parseExpr (fuel + 1) code pos =
      .ok (.atom [')'] (skipWs code pos) (skipWs code pos + 1),
        skipWs code pos + 1) := by
  exact parseExpr_of_atom (takeToken_rparen hlen hc)
    (by decide) (by decide) (by decide) (by decide) (by decide)

/-- Witness for C5: the amended statement applied to the input `)`. -/
theorem claim5_stray_paren_is_atom_witness :
    parseExpr 1 ((")").data) 0 = .ok (.atom [')'] 0 1, 1) := by
  have h := @claim5_stray_paren_is_atom ((")").data) 0 0
    (by decide) (by decide)
  simpa using h

/-- C7 counterexample.  The spec's concrete example claims
`(a ; note\nb)` formats to `(a ; note\n b)` (one space before `b`); the
renderer actually emits the indent unit (two spaces) once, giving
`(a ; note\n  b)`. -/
theorem claim7_counterexample :
    fmtCore 20 {} (("(a ; note\nb)").data) =
        .ok (("(a ; note\n  b)").data) ∧
      fmtCore 20 {} (("(a ; note\nb)").data) ≠
        .ok (("(a ; note\n b)").data) := by
  exact ⟨by decide, by decide⟩

/-- C7 amended: with the default two-space indent unit, formatting
`(a ; note\nb)` yields `(a ; note\n  b)` — the comment forces `b` onto
its own line, indented by one full indent unit (depth 1). -/
theorem claim7_comment_forces_break :
    fmtCore 20 {} (("(a ; note\nb)").data) =
      .ok (("(a ; note\n  b)").data) := by
  decide

/-- C9.  On an input with no top-level form (empty or whitespace-only),
`fmt`'s unguarded `next(exprs2)` fires `StopIteration` inside the
generator, surfacing as a runtime error (modelled as `.err`): the empty
source is not in `format`'s effective domain. -/
theorem claim9_empty_input_error (code : Str) (opts : FormatOptions)
    (fuel : Nat) (hws : ∀ c ∈ code, isSpace c = true) (hf : 2 ≤ fuel) :
    fmtCore fuel opts code = .err ('S' :: 't' :: 'o' :: 'p' :: []) 0 := by
  obtain ⟨g, rfl⟩ : ∃ g, fuel = g + 2 := ⟨fuel - 2, by omega⟩
  have hskip : skipWs code 0 = code.length := by
    apply scanEnd_eq_of_run (by omega)
    · intro i _ hi
      refine ⟨hi, ?_⟩
      have : isSpace (charAt code i) = true := by
        rw [charAt_eq_getElem hi]
        exact hws _ (List.getElem_mem hi)
      simp [this]
    · exact Or.inl (Nat.le_refl _)
  have hall : parseAll (g + 2) code 0 = .ok [] :=
    parseAll_of_sentinel (parseExpr_of_eof (by omega)) (by rfl)
  unfold fmtCore
  rw [hall]

/-- Witness for C9: the empty source (and fuel 2). -/
theorem claim9_empty_input_error_witness :
    fmtCore 2 {} [] = .err ('S' :: 't' :: 'o' :: 'p' :: []) 0 :=
  claim9_empty_input_error [] {} 2 (by intro c hc; cases hc) (by omega)

/-- C3 counterexample.  In `(x ;c\nb)` the siblings `;c` (comment) and
`b` have no newline between their spans (`slice` between them is empty),
yet the sibling loop emits no space at all between them: the fragments
it yields for the tail `[b]` are just `b`'s own render, because the
previous fragment (the comment's trailing indent) is whitespace.  The
claimed "exactly one space" join does not happen. -/
theorem claim3_counterexample :
    parseAll 20 (("(x ;c\nb)").data) 0 =
        .ok [.list .plain
          [.atom ['x'] 1 2, .comment ['c'] 3 6, .atom ['b'] 6 7] 0 8] ∧
      hasNl (slice (("(x ;c\nb)").data) 6 6) = false ∧
      fmtSibs [' ', ' '] (("(x ;c\nb)").data) (.comment ['c'] 3 6)
          [.atom ['b'] 6 7] 0 (indRep [' ', ' '] 1) = [['b']] ∧
      fmtCore 20 {} (("(x ;c\nb)").data) = .ok (("(x ;c\n  b)").data) := by
  exact ⟨by rfl, by rfl, by rfl, by rfl⟩

/-- C4 counterexample.  In `(a ;c\n\nb)` the slice between the comment's
span and `b` contains a newline, and the immediately preceding rendered
fragment is the comment's trailing indent (whitespace) — yet the sibling
loop still emits the line terminator and the depth-1 indent (the
suppression exists only in the no-newline branch), producing the doubled
blank line `(a ;c\n  \n  b)`. -/
theorem claim4_counterexample :
    parseAll 20 (("(a ;c\n\nb)").data) 0 =
        .ok [.list .plain
          [.atom ['a'] 1 2, .comment ['c'] 3 6, .atom ['b'] 7 8] 0 9] ∧
      hasNl (slice (("(a ;c\n\nb)").data) 6 7) = true ∧
      strIsSpace (indRep [' ', ' '] 1) = true ∧
      fmtSibs [' ', ' '] (("(a ;c\n\nb)").data) (.comment ['c'] 3 6)
          [.atom ['b'] 7 8] 0 (indRep [' ', ' '] 1) =
        [['\n'], [' ', ' '], ['b']] ∧
      fmtCore 20 {} (("(a ;c\n\nb)").data) =
        .ok (("(a ;c\n  \n  b)").data) := by
  exact ⟨by rfl, by rfl, by rfl, by rfl, by rfl⟩

/-! ### Last-fragment characterization of the renderer -/

theorem getLastD_append_singleton {α : Type} :
    ∀ (xs : List α) (z w : α), (xs ++ [z]).getLastD w = z := by
  intro xs
  induction xs with
  | nil => intro z w; rfl
  | cons x xs ih =>
    intro z w
    rw [List.cons_append, List.getLastD_cons]
    exact ih z x

theorem lastFrag_atom (ind code : Str) (t : Str) (s e d : Nat) :
    lastFrag (fmtFrags ind code (.atom t s e) d) = t := rfl

theorem lastFrag_comment (ind code : Str) (t : Str) (s e d : Nat) :
    lastFrag (fmtFrags ind code (.comment t s e) d) = indRep ind d := rfl

theorem lastFrag_list (ind code : Str) (k : Kind) (cs : List TExpr)
    (s e d : Nat) :
    lastFrag (fmtFrags ind code (.list k cs s e) d) = [')'] := by
  cases cs with
  | nil => rfl
  | cons c0 rest =>
    show lastFrag (Kind.beginStr k ::
      ((fmtFrags ind code c0 (d + 1) ++ fmtSibs ind code c0 rest d
        (lastFrag (fmtFrags ind code c0 (d + 1)))) ++ [endStr])) = [')']
    unfold lastFrag
    rw [List.getLastD_cons, getLastD_append_singleton]
    rfl

theorem strIsSpace_indRep {ind : Str} (d : Nat) (hne : ind ≠ [])
    (hsp : ∀ c ∈ ind, isSpace c = true) :
    strIsSpace (indRep ind (d + 1)) = true := by
  unfold strIsSpace indRep
  rw [List.replicate_succ, List.flatten_cons, Bool.and_eq_true]
  refine ⟨?_, ?_⟩
  · cases ind with
    | nil => exact absurd rfl hne
    | cons c cs => rfl
  · rw [List.all_eq_true]
    intro c hc
    rcases List.mem_append.1 hc with h | h
    · exact hsp c h
    · rw [List.mem_flatten] at h
      obtain ⟨l, hl, hcl⟩ := h
      rw [List.eq_of_mem_replicate hl] at hcl
      exact hsp c hcl

/-- C3 amended: for adjacent siblings whose inter-span slice has no
line terminator, the sibling loop emits exactly one space unless the
previous child's final rendered fragment is whitespace — which is the
case exactly when the previous child is a comment (its render ends with
its forced indent, nonempty whitespace at child depth) or a
whitespace-text atom (impossible for parsed atoms); after a list
(ending `)`), or an ordinary atom, the single space is emitted. -/
theorem claim3_sibling_join (ind code : Str) (prev e : TExpr)
    (rest : List TExpr) (d : Nat)
    (hind : ind ≠ [] ∧ ∀ c ∈ ind, isSpace c = true)
    (hnl : hasNl (slice code (endP prev) (startP e)) = false) :
    fmtSibs ind code prev (e :: rest) d
        (lastFrag (fmtFrags ind code prev (d + 1))) =
      (match prev with
        | .comment _ _ _ => []
        | .atom t _ _ => if strIsSpace t = true then [] else [[' ']]
        | .list _ _ _ _ => [[' ']]) ++
      (fmtFrags ind code e (d + 1) ++
        fmtSibs ind code e rest d (lastFrag (fmtFrags ind code e (d + 1)))) := by
  cases prev with
  | atom t s e2 =>
    rw [lastFrag_atom]
    simp only [fmtSibs, hnl, Bool.false_eq_true, if_false]
  | comment t s e2 =>
    rw [lastFrag_comment]
    simp only [fmtSibs, hnl, Bool.false_eq_true, if_false]
    rw [if_pos (strIsSpace_indRep d hind.1 hind.2)]
  | list k cs s e2 =>
    rw [lastFrag_list]
    simp only [fmtSibs, hnl, Bool.false_eq_true, if_false]
    rw [if_neg (by decide)]

/-- Witness for C3: a plain-atom pair (`a b` inside a list) gets exactly
one space; the slice between their spans (positions 2–3 of `(a b)`)
holds a single blank. -/
theorem claim3_sibling_join_witness :
    fmtSibs [' ', ' '] (("(a b)").data) (.atom ['a'] 1 2)
        [.atom ['b'] 3 4] 0 (lastFrag (fmtFrags [' ', ' '] (("(a b)").data)
          (.atom ['a'] 1 2) 1)) =
      [[' ']] ++ (fmtFrags [' ', ' '] (("(a b)").data) (.atom ['b'] 3 4) 1 ++
        fmtSibs [' ', ' '] (("(a b)").data) (.atom ['b'] 3 4) [] 0
          (lastFrag (fmtFrags [' ', ' '] (("(a b)").data)
            (.atom ['b'] 3 4) 1))) := by
  have h := claim3_sibling_join [' ', ' '] (("(a b)").data)
    (.atom ['a'] 1 2) (.atom ['b'] 3 4) [] 0
    ⟨by decide, by decide⟩ (by rfl)
  simpa using h

/-- C4 amended: when the inter-span slice contains a line terminator,
the sibling loop emits the line terminator and the depth+1 indent
unconditionally — the result does not depend on the previous fragment
`last` at all (the whitespace suppression lives only in the no-newline
branch), so a doubled blank line/indent can appear after a comment. -/
theorem claim4_break_always_emitted (ind code : Str) (prev e : TExpr)
    (rest : List TExpr) (d : Nat) (last : Str)
    (hnl : hasNl (slice code (endP prev) (startP e)) = true) :
    fmtSibs ind code prev (e :: rest) d last =
      [nlStr, indRep ind (d + 1)] ++
        (fmtFrags ind code e (d + 1) ++
          fmtSibs ind code e rest d
            (lastFrag (fmtFrags ind code e (d + 1)))) ∧
    (∀ last' : Str, fmtSibs ind code prev (e :: rest) d last =
      fmtSibs ind code prev (e :: rest) d last') := by
  constructor
  · simp only [fmtSibs, hnl, if_true]
  · intro last'
    simp only [fmtSibs, hnl, if_true]

/-! ### C10: quote characters not followed by `(` lex into atoms -/

theorem matchTok_false_of_second {code : Str} {pos : Nat} {a b : Char}
    {cs : Str} (h : charAt code (pos + 1) ≠ b) :
    matchTok code pos (a :: b :: cs) = false := by
  rcases hb : matchTok code pos (a :: b :: cs) with _ | _
  · rfl
  · rw [matchTok_iff, matchAt_cons_iff, matchAt_cons_iff] at hb
    exact absurd hb.2.2.2.1 h

theorem delimAt_eq_false {code : Str} {pos : Nat}
    (h1 : charAt code pos ≠ '(') (h2 : charAt code pos ≠ ')')
    (h3 : charAt code pos ≠ ';') (h4 : charAt code pos ≠ '\n')
    (h5 : charAt code (pos + 1) ≠ '(') : delimAt code pos = false :=
  delimAt_false_iff.2 ⟨matchTok_false_of_head h1,
    matchTok_false_of_second h5, matchTok_false_of_second h5,
    matchTok_false_of_second h5, matchTok_false_of_head h2,
    matchTok_false_of_head h3, matchTok_false_of_head h4⟩

theorem atomEnd_ge_succ {code : Str} {pos : Nat} (hlen : pos < code.length)
    (hstop : atomStop code pos = false) : pos + 1 ≤ atomEnd code pos := by
  unfold atomEnd
  rw [scanEnd_step hlen hstop]
  exact scanEnd_ge _ _ _

/-- C10.  A quote, quasiquote, or unquote character that is not
immediately followed by `(` does not start a delimiter: the lexer's
fallback consumes it as the first character of an opaque atom, the
parser wraps that text in an atom node, and the renderer emits the atom
text (prefix included) verbatim as a single fragment. -/
theorem claim10_quote_lexes_as_atom (code ind : Str) (pos fuel d : Nat)
    (hq : charAt code (skipWs code pos) = '\'' ∨
          charAt code (skipWs code pos) = backquote ∨
          charAt code (skipWs code pos) = ',')
    (hlen : skipWs code pos < code.length)
    (hnp : charAt code (skipWs code pos + 1) ≠ '(') :
    ∃ t e, parseExpr (fuel + 1) code pos =
        .ok (.atom t (skipWs code pos) e, e) ∧
      t ≠ [] ∧ t.head? = some (charAt code (skipWs code pos)) ∧
      fmtFrags ind code (.atom t (skipWs code pos) e) d = [t] := by
  have hq1 : charAt code (skipWs code pos) ≠ '(' := by
    rcases hq with h | h | h <;> rw [h] <;> decide
  have hq2 : charAt code (skipWs code pos) ≠ ')' := by
    rcases hq with h | h | h <;> rw [h] <;> decide
  have hq3 : charAt code (skipWs code pos) ≠ ';' := by
    rcases hq with h | h | h <;> rw [h] <;> decide
  have hq4 : charAt code (skipWs code pos) ≠ '\n' := by
    rcases hq with h | h | h <;> rw [h] <;> decide
  have hdelim : delimAt code (skipWs code pos) = false :=
    delimAt_eq_false hq1 hq2 hq3 hq4 hnp
  have htok := takeToken_of_atom hdelim
  have hqsp : isSpace (charAt code (skipWs code pos)) = false := by
    rcases hq with h | h | h <;> rw [h] <;> decide
  have hstop : atomStop code (skipWs code pos) = false := by
    unfold atomStop
    rw [hqsp, hdelim]
    rfl
  have he : skipWs code pos + 1 ≤ atomEnd code (skipWs code pos) :=
    atomEnd_ge_succ hlen hstop
  have hslice : slice code (skipWs code pos) (atomEnd code (skipWs code pos)) =
      charAt code (skipWs code pos) ::
        slice code (skipWs code pos + 1) (atomEnd code (skipWs code pos)) :=
    slice_cons_of_lt hlen (by omega)
  have htail : ∀ r : Str,
      slice code (skipWs code pos + 1) (atomEnd code (skipWs code pos)) ≠
        '(' :: r := by
    intro r hr
    have hl := length_slice code (skipWs code pos + 1)
      (atomEnd code (skipWs code pos))
    rw [hr] at hl
    simp only [List.length_cons] at hl
    have hlen2 : skipWs code pos + 1 < code.length := by omega
    have hlt2 : skipWs code pos + 1 < atomEnd code (skipWs code pos) := by
      omega
    rw [slice_cons_of_lt hlen2 hlt2] at hr
    exact hnp (List.head_eq_of_cons_eq hr)
  have hne1 : slice code (skipWs code pos) (atomEnd code (skipWs code pos)) ≠
      Kind.beginStr .plain := by
    rw [hslice, beginStr_plain]
    intro hc
    exact hq1 (List.head_eq_of_cons_eq hc)
  have hne2 : slice code (skipWs code pos) (atomEnd code (skipWs code pos)) ≠
      Kind.beginStr .quoted := by
    rw [hslice, beginStr_quoted]
    intro hc
    exact htail [] (List.tail_eq_of_cons_eq hc)
  have hne3 : slice code (skipWs code pos) (atomEnd code (skipWs code pos)) ≠
      Kind.beginStr .quasi := by
    rw [hslice, beginStr_quasi]
    intro hc
    exact htail [] (List.tail_eq_of_cons_eq hc)
  have hne4 : slice code (skipWs code pos) (atomEnd code (skipWs code pos)) ≠
      Kind.beginStr .unquoted := by
    rw [hslice, beginStr_unquoted]
    intro hc
    exact htail [] (List.tail_eq_of_cons_eq hc)
  have hne5 : slice code (skipWs code pos) (atomEnd code (skipWs code pos)) ≠
      commentBegin := by
    rw [hslice]
    intro hc
    exact hq3 (List.head_eq_of_cons_eq hc)
  refine ⟨_, _, parseExpr_of_atom htok hne1 hne2 hne3 hne4 hne5, ?_, ?_, rfl⟩
  · rw [hslice]
    exact List.cons_ne_nil _ _
  · rw [hslice]
    rfl

/-- Witness for C10: the input `'x` (quote not followed by `(`); the
parsed atom is `'x` and it renders verbatim. -/
theorem claim10_quote_lexes_as_atom_witness :
    ∃ t e, parseExpr 1 (("'x").data) 0 = .ok (.atom t (skipWs (("'x").data) 0) e, e) ∧
      t ≠ [] ∧ t.head? = some (charAt (("'x").data) (skipWs (("'x").data) 0)) ∧
      fmtFrags [' ', ' '] (("'x").data) (.atom t (skipWs (("'x").data) 0) e) 0 = [t] :=
  claim10_quote_lexes_as_atom (("'x").data) [' ', ' '] 0 0 0
    (Or.inl (by decide)) (by decide) (by decide)

/-! ### C6: blank-line preservation between top-level forms -/

theorem fmtTops_split (ind code : Str) (a b : TExpr) (post : List TExpr) :
    ∀ (front : List TExpr) (e : TExpr) (rest : List TExpr),
      e :: rest = front ++ a :: b :: post →
      ∃ P, fmtTops ind code e rest =
        P ++ List.replicate (countNl (slice code (endP a) (startP b))) '\n' ++
          fmtTops ind code b post := by
  intro front
  induction front with
  | nil =>
    intro e rest h
    simp only [List.nil_append] at h
    have he : e = a := List.head_eq_of_cons_eq h
    have hrest : rest = b :: post := List.tail_eq_of_cons_eq h
    refine ⟨fmtStr ind code e, ?_⟩
    rw [hrest, he]
    have hu : fmtTops ind code a (b :: post) =
        fmtStr ind code a ++
          List.replicate (countNl (slice code (endP a) (startP b))) '\n' ++
            fmtTops ind code b post := rfl
    rw [hu]
  | cons x front' ih =>
    intro e rest h
    rw [List.cons_append] at h
    have hrest : rest = front' ++ a :: b :: post := List.tail_eq_of_cons_eq h
    have hne : front' ++ a :: b :: post ≠ [] := by
      intro hc
      rcases List.append_eq_nil.1 hc with ⟨_, h2⟩
      exact List.cons_ne_nil _ _ h2
    obtain ⟨y, rest2, hy⟩ := List.exists_cons_of_ne_nil hne
    obtain ⟨P', hP'⟩ := ih y rest2 hy.symm
    refine ⟨fmtStr ind code e ++
      List.replicate (countNl (slice code (endP e) (startP y))) '\n' ++ P', ?_⟩
    rw [hrest, hy]
    have hu : fmtTops ind code e (y :: rest2) =
        fmtStr ind code e ++
          List.replicate (countNl (slice code (endP e) (startP y))) '\n' ++
            fmtTops ind code y rest2 := rfl
    rw [hu, hP']
    simp [List.append_assoc]

/-- C6.  For two consecutive top-level forms `a`, `b` of a successful
parse, the rendered output separates `a`'s render from `b`'s by exactly
`k` line terminators, where `k` is the number of newline characters in
the raw slice between `a`'s end offset and `b`'s start offset (zero
newlines means no separator at all). -/
theorem claim6_blank_line_count (code : Str) (opts : FormatOptions)
    (fuel : Nat) (fs front post : List TExpr) (a b : TExpr) (r : Str)
    (hp : parseAll fuel code 0 = .ok fs)
    (hsplit : fs = front ++ a :: b :: post)
    (hr : fmtCore fuel opts code = .ok r) :
    ∃ P, r = P ++
      List.replicate (countNl (slice code (endP a) (startP b))) '\n' ++
        fmtTops opts.indent_seq code b post := by
  unfold fmtCore at hr
  rw [hp] at hr
  match fs, hsplit with
  | [], hsplit =>
    exact absurd hsplit.symm (by simp)
  | e :: rest, hsplit =>
    have hres : r = fmtTops opts.indent_seq code e rest := by
      cases hr
      rfl
    obtain ⟨P, hP⟩ := fmtTops_split opts.indent_seq code a b post front e rest
      hsplit
    exact ⟨P, by rw [hres, hP]⟩

/-- Witness for C6: `(a)\n\n\n(b)` — three newlines in the gap, and the
rendered output contains exactly three newline separators. -/
theorem claim6_blank_line_count_witness :
    ∃ P, ("(a)\n\n\n(b)").data = P ++
      List.replicate (countNl (slice (("(a)\n\n\n(b)").data) 3 6)) '\n' ++
        fmtTops [' ', ' '] (("(a)\n\n\n(b)").data)
          (.list .plain [.atom ['b'] 7 8] 6 9) [] :=
  claim6_blank_line_count (("(a)\n\n\n(b)").data) {} 20
    [.list .plain [.atom ['a'] 1 2] 0 3, .list .plain [.atom ['b'] 7 8] 6 9]
    [] [] (.list .plain [.atom ['a'] 1 2] 0 3)
    (.list .plain [.atom ['b'] 7 8] 6 9) (("(a)\n\n\n(b)").data)
    (by rfl) (by rfl) (by rfl)

/-! ### C8: span invariants of successful parses -/

theorem skipWs_ge (code : Str) (pos : Nat) : pos ≤ skipWs code pos :=
  scanEnd_ge code _ pos

theorem skipWs_is_stop (code : Str) (pos : Nat) :
    code.length ≤ skipWs code pos ∨
      isSpace (charAt code (skipWs code pos)) = false := by
  rcases scanEnd_is_stop code (fun p => !isSpace (charAt code p)) pos with
    h | h
  · exact Or.inl h
  · right
    simpa using h

theorem takeToken_snd_eq (code : Str) (pos : Nat) :
    (takeToken code pos).2 = pos + (takeToken code pos).1.length := by
  unfold takeToken
  repeat' split
  all_goals try rfl
  show atomEnd code pos = pos + (slice code pos (atomEnd code pos)).length
  rcases le_or_lt pos code.length with hle | hlt
  · have h1 : pos ≤ atomEnd code pos := scanEnd_ge code (atomStop code) pos
    have h2 : atomEnd code pos ≤ code.length :=
      scanEnd_le code (atomStop code) pos hle
    rw [length_slice, Nat.min_def]
    split <;> omega
  · have he : atomEnd code pos = pos := scanEnd_stop (Or.inl (by omega))
    rw [he, slice_eq_nil_of_len_le (by omega)]
    rfl

theorem takeToken_snd_ge (code : Str) (pos : Nat) :
    pos ≤ (takeToken code pos).2 := by
  rw [takeToken_snd_eq]
  omega

theorem takeToken_fst_ne_nil_of_delim {code : Str} {pos : Nat}
    (hd : delimAt code pos = true) : (takeToken code pos).1 ≠ [] := by
  unfold takeToken
  by_cases c1 : matchTok code pos (Kind.beginStr .plain) = true
  · simp only [c1, if_true]
    decide
  by_cases c2 : matchTok code pos (Kind.beginStr .quoted) = true
  · simp only [c1, c2, Bool.false_eq_true, if_false, if_true]
    decide
  by_cases c3 : matchTok code pos (Kind.beginStr .quasi) = true
  · simp only [c1, c2, c3, Bool.false_eq_true, if_false, if_true]
    decide
  by_cases c4 : matchTok code pos (Kind.beginStr .unquoted) = true
  · simp only [c1, c2, c3, c4, Bool.false_eq_true, if_false, if_true]
    decide
  by_cases c5 : matchTok code pos endStr = true
  · simp only [c1, c2, c3, c4, c5, Bool.false_eq_true, if_false, if_true]
    decide
  by_cases c6 : matchTok code pos commentBegin = true
  · simp only [c1, c2, c3, c4, c5, c6, Bool.false_eq_true, if_false, if_true]
    decide
  by_cases c7 : matchTok code pos nlStr = true
  · simp only [c1, c2, c3, c4, c5, c6, c7, Bool.false_eq_true, if_false,
      if_true]
    decide
  · exact absurd (delimAt_false_iff.2
      ⟨by simpa using c1, by simpa using c2, by simpa using c3,
       by simpa using c4, by simpa using c5, by simpa using c6,
       by simpa using c7⟩) (by simp [hd])

/-- If the next token (after whitespace) is empty, the cursor is at end
of input. -/
theorem takeToken_empty_inv {code : Str} {pos p2 : Nat}
    (hstop : code.length ≤ pos ∨ isSpace (charAt code pos) = false)
    (h : takeToken code pos = ([], p2)) :
    p2 = pos ∧ code.length ≤ pos := by
  rcases le_or_lt code.length pos with hle | hlt
  · refine ⟨?_, hle⟩
    rw [takeToken_of_eof hle] at h
    exact (Prod.mk.injEq _ _ _ _ ▸ h).2.symm
  · exfalso
    by_cases hd : delimAt code pos = true
    · exact takeToken_fst_ne_nil_of_delim hd (congrArg Prod.fst h)
    · have hd' : delimAt code pos = false := by simpa using hd
      rw [takeToken_of_atom hd'] at h
      have hsp : isSpace (charAt code pos) = false := by
        rcases hstop with h1 | h1
        · omega
        · exact h1
      have hstop2 : atomStop code pos = false := by
        unfold atomStop
        rw [hsp, hd']
        rfl
      have hge := atomEnd_ge_succ hlt hstop2
      have hcons := slice_cons_of_lt hlt (show pos < atomEnd code pos by omega)
      have hnil := congrArg Prod.fst h
      simp only at hnil
      rw [hcons] at hnil
      exact List.cons_ne_nil _ _ hnil

theorem commentFin_ge (code : Str) (p2 : Nat) :
    commentEnd code p2 ≤ commentFin code p2 := by
  unfold commentFin
  cases htk : take code (commentEnd code p2) nlStr with
  | none => exact Nat.le_refl _
  | some p =>
    unfold take at htk
    split at htk
    · cases htk
      exact Nat.le_add_right _ _
    · cases htk

theorem spanWFList_append_singleton {acc : List TExpr} {c : TExpr}
    (h1 : spanWFList acc = true) (h2 : spanWF c = true) :
    spanWFList (acc ++ [c]) = true := by
  induction acc with
  | nil => simp [spanWFList, h2]
  | cons a rest ih =>
    rw [spanWFList, Bool.and_eq_true] at h1
    rw [List.cons_append, spanWFList, Bool.and_eq_true]
    exact ⟨h1.1, ih h1.2⟩

theorem spansOrdered_append_singleton :
    ∀ {acc : List TExpr} {c : TExpr}, spansOrdered acc = true →
      (∀ x ∈ acc, endP x ≤ startP c ∧ startP x < startP c) →
      spansOrdered (acc ++ [c]) = true := by
  intro acc
  induction acc with
  | nil => intro c _ _; rfl
  | cons a rest ih =>
    intro c h hlast
    cases rest with
    | nil =>
      obtain ⟨h1, h2⟩ := hlast a (by simp)
      have hdef : spansOrdered ([a] ++ [c]) =
          ((decide (endP a ≤ startP c) && decide (startP a < startP c)) &&
            spansOrdered [c]) := rfl
      rw [hdef]
      simp [h1, h2, spansOrdered]
    | cons b rest2 =>
      have hdef : spansOrdered (a :: b :: rest2) =
          ((decide (endP a ≤ startP b) && decide (startP a < startP b)) &&
            spansOrdered (b :: rest2)) := rfl
      rw [hdef, Bool.and_eq_true] at h
      have hr := ih h.2 (fun x hx => hlast x (List.mem_cons_of_mem _ hx))
      have hdef2 : spansOrdered ((a :: b :: rest2) ++ [c]) =
          ((decide (endP a ≤ startP b) && decide (startP a < startP b)) &&
            spansOrdered ((b :: rest2) ++ [c])) := rfl
      rw [hdef2, hr, h.1]
      rfl

/-- Main parser invariant, proved by strong induction on the fuel:
a successful `parseExpr` yields a node whose span starts at the
whitespace-skipped cursor and ends at the returned position, and which
is either the end-of-input sentinel (empty span at end of input) or has
well-formed spans; a successful `parseChildren` extends well-formed
ordered children into a well-formed list node. -/
theorem parse_invariant : ∀ fuel : Nat,
    (∀ code pos t p', parseExpr fuel code pos = .ok (t, p') →
      startP t = skipWs code pos ∧ endP t = p' ∧
        (isSentinel t = true ∧ startP t = p' ∧ code.length ≤ p' ∨
          spanWF t = true ∧ startP t < p')) ∧
    (∀ code pos k s acc t p',
      parseChildren fuel code pos k s acc = .ok (t, p') →
      spanWFList acc = true → spansOrdered acc = true →
      (∀ c ∈ acc, s < startP c ∧ endP c ≤ pos ∧ startP c < endP c) →
      s < pos →
      spanWF t = true ∧ startP t = s ∧ endP t = p' ∧ pos ≤ p') := by
  intro fuel
  induction fuel using Nat.strong_induction_on with
  | _ fuel ih =>
    match fuel with
    | 0 =>
      constructor
      · intro _ _ _ _ h
        exact PResult.noConfusion h
      · intro _ _ _ _ _ _ _ h
        exact PResult.noConfusion h
    | n + 1 =>
      constructor
      · -- parseExpr
        intro code pos t p' h
        rcases htk : takeToken code (skipWs code pos) with ⟨tk, p2⟩
        have hp2 : p2 = skipWs code pos + tk.length := by
          have h0 := takeToken_snd_eq code (skipWs code pos)
          rw [htk] at h0
          exact h0
        by_cases h1 : tk = Kind.beginStr .plain
        · rw [h1] at htk
          rw [parseExpr_of_list htk] at h
          have hlen1 : p2 = skipWs code pos + 1 := by
            rw [hp2, h1]
            rfl
          have hc := (ih n (by omega)).2 code p2 .plain (skipWs code pos) []
            t p' h rfl rfl (by intro c hc; cases hc) (by omega)
          refine ⟨hc.2.1, hc.2.2.1, Or.inr ⟨hc.1, ?_⟩⟩
          rw [hc.2.1]
          have hple := hc.2.2.2
          omega
        · by_cases h2 : tk = Kind.beginStr .quoted
          · rw [h2] at htk
            rw [parseExpr_of_list htk] at h
            have hlen1 : p2 = skipWs code pos + 2 := by
              rw [hp2, h2]
              rfl
            have hc := (ih n (by omega)).2 code p2 .quoted (skipWs code pos) []
              t p' h rfl rfl (by intro c hc; cases hc) (by omega)
            refine ⟨hc.2.1, hc.2.2.1, Or.inr ⟨hc.1, ?_⟩⟩
            rw [hc.2.1]
            have hple := hc.2.2.2
            omega
          · by_cases h3 : tk = Kind.beginStr .quasi
            · rw [h3] at htk
              rw [parseExpr_of_list htk] at h
              have hlen1 : p2 = skipWs code pos + 2 := by
                rw [hp2, h3]
                rfl
              have hc := (ih n (by omega)).2 code p2 .quasi (skipWs code pos) []
                t p' h rfl rfl (by intro c hc; cases hc) (by omega)
              refine ⟨hc.2.1, hc.2.2.1, Or.inr ⟨hc.1, ?_⟩⟩
              rw [hc.2.1]
              have hple := hc.2.2.2
              omega
            · by_cases h4 : tk = Kind.beginStr .unquoted
              · rw [h4] at htk
                rw [parseExpr_of_list htk] at h
                have hlen1 : p2 = skipWs code pos + 2 := by
                  rw [hp2, h4]
                  rfl
                have hc := (ih n (by omega)).2 code p2 .unquoted (skipWs code pos) []
                  t p' h rfl rfl (by intro c hc; cases hc) (by omega)
                refine ⟨hc.2.1, hc.2.2.1, Or.inr ⟨hc.1, ?_⟩⟩
                rw [hc.2.1]
                have hple := hc.2.2.2
                omega
              · by_cases h5 : tk = commentBegin
                · rw [h5] at htk
                  rw [parseExpr_of_comment htk] at h
                  cases h
                  have hce : p2 ≤ commentEnd code p2 := scanEnd_ge _ _ _
                  have hcf := commentFin_ge code p2
                  have hp2s : p2 = skipWs code pos + 1 := by
                    rw [hp2, h5]
                    rfl
                  have hlt : skipWs code pos < commentFin code p2 := by omega
                  refine ⟨rfl, rfl, Or.inr ⟨?_, hlt⟩⟩
                  simp only [spanWF, decide_eq_true_eq]
                  exact hlt
                · rw [parseExpr_of_atom htk h1 h2 h3 h4 h5] at h
                  injection h with hinj
                  injection hinj with hexpr hpos
                  subst hexpr
                  by_cases hnil : tk = []
                  · subst hnil
                    have hee := takeToken_empty_inv (skipWs_is_stop code pos)
                      htk
                    refine ⟨rfl, hpos, Or.inl ⟨rfl, ?_, ?_⟩⟩
                    · simp only [startP]
                      omega
                    · simp only [startP] at *
                      omega
                  · have hlp : 0 < tk.length := List.length_pos.2 hnil
                    refine ⟨rfl, hpos, Or.inr ⟨?_, ?_⟩⟩
                    · simp only [spanWF, decide_eq_true_eq]
                      omega
                    · simp only [startP]
                      omega
      · -- parseChildren
        intro code pos k s acc t p' h hwfl hord hmem hs
        cases hpe : parseExpr n code pos with
        | div =>
          rw [parseChildren_of_div hpe] at h
          exact PResult.noConfusion h
        | err m p =>
          simp only [parseChildren, hpe] at h
          exact PResult.noConfusion h
        | ok v =>
          obtain ⟨elem, pe⟩ := v
          have hexp := (ih n (by omega)).1 code pos elem pe hpe
          obtain ⟨hstart, hend, hdisj⟩ := hexp
          have hposle : pos ≤ startP elem := by
            rw [hstart]
            exact skipWs_ge code pos
          by_cases hendq : isEnd elem = true
          · rw [parseChildren_of_end hpe hendq] at h
            injection h with hinj
            injection hinj with hexpr hpos
            subst hexpr
            have hlt : startP elem < pe := by
              rcases hdisj with ⟨hsent, _, _⟩ | ⟨_, hlt⟩
              · exfalso
                cases elem with
                | atom t2 a b =>
                  have hb1 : t2 = [] := by simpa [isSentinel] using hsent
                  have hb2 : t2 = [')'] := by simpa [isEnd] using hendq
                  rw [hb1] at hb2
                  exact List.noConfusion hb2
                | comment t2 a b => simp [isEnd] at hendq
                | list k2 cs a b => simp [isEnd] at hendq
              · exact hlt
            refine ⟨?_, rfl, hpos, by omega⟩
            simp only [spanWF, Bool.and_eq_true, decide_eq_true_eq,
              List.all_eq_true]
            refine ⟨⟨⟨by omega, hwfl⟩, hord⟩, ?_⟩
            intro c hc
            obtain ⟨hc1, hc2, hc3⟩ := hmem c hc
            exact ⟨hc1, by omega⟩
          · rw [parseChildren_of_elem hpe (by simpa using hendq)] at h
            rcases hdisj with ⟨hsent, heqp, hlen⟩ | ⟨hwf, hlt⟩
            · exfalso
              have hdiv := parseChildren_of_eof_div n code pe k s
                (acc ++ [elem]) (by rw [skipWs_of_eof (by omega)]; omega)
              rw [hdiv] at h
              cases h
            · have hrec := (ih n (by omega)).2 code pe k s (acc ++ [elem])
                t p' h
                (spanWFList_append_singleton hwfl hwf)
                (spansOrdered_append_singleton hord (by
                  intro x hx
                  obtain ⟨_, hx2, hx3⟩ := hmem x hx
                  constructor <;> omega))
                (by
                  intro c hc
                  rcases List.mem_append.1 hc with hcl | hcr
                  · obtain ⟨hc1, hc2, hc3⟩ := hmem c hcl
                    exact ⟨hc1, by omega, hc3⟩
                  · rw [List.mem_singleton] at hcr
                    subst hcr
                    exact ⟨by omega, by omega, by omega⟩)
                (by omega)
              obtain ⟨hr1, hr2, hr3, hr4⟩ := hrec
              exact ⟨hr1, hr2, hr3, by omega⟩

/-! ### Fuel monotonicity -/

theorem ne_div_of_eq_err {α : Type} {m : Str} {p : Nat} {x : PResult α}
    (h : x = .err m p) : x ≠ .div := by
  rw [h]
  exact fun hc => PResult.noConfusion hc

theorem ne_div_of_eq_ok {α : Type} {v : α} {x : PResult α}
    (h : x = .ok v) : x ≠ .div := by
  rw [h]
  exact fun hc => PResult.noConfusion hc

theorem parse_mono_step : ∀ fuel : Nat,
    (∀ code pos, parseExpr fuel code pos ≠ .div →
      parseExpr (fuel + 1) code pos = parseExpr fuel code pos) ∧
    (∀ code pos k s acc, parseChildren fuel code pos k s acc ≠ .div →
      parseChildren (fuel + 1) code pos k s acc =
        parseChildren fuel code pos k s acc) := by
  intro fuel
  induction fuel using Nat.strong_induction_on with
  | _ fuel ih =>
    match fuel with
    | 0 =>
      constructor
      · intro code pos h
        exact absurd rfl h
      · intro code pos k s acc h
        exact absurd rfl h
    | n + 1 =>
      constructor
      · intro code pos h
        rcases htk : takeToken code (skipWs code pos) with ⟨tk, p2⟩
        by_cases h1 : tk = Kind.beginStr .plain
        · rw [h1] at htk
          rw [parseExpr_of_list htk] at h ⊢
          rw [parseExpr_of_list htk]
          exact (ih n (by omega)).2 code p2 .plain (skipWs code pos) [] h
        · by_cases h2 : tk = Kind.beginStr .quoted
          · rw [h2] at htk
            rw [parseExpr_of_list htk] at h ⊢
            rw [parseExpr_of_list htk]
            exact (ih n (by omega)).2 code p2 .quoted (skipWs code pos) [] h
          · by_cases h3 : tk = Kind.beginStr .quasi
            · rw [h3] at htk
              rw [parseExpr_of_list htk] at h ⊢
              rw [parseExpr_of_list htk]
              exact (ih n (by omega)).2 code p2 .quasi (skipWs code pos) [] h
            · by_cases h4 : tk = Kind.beginStr .unquoted
              · rw [h4] at htk
                rw [parseExpr_of_list htk] at h ⊢
                rw [parseExpr_of_list htk]
                exact (ih n (by omega)).2 code p2 .unquoted (skipWs code pos)
                  [] h
              · by_cases h5 : tk = commentBegin
                · rw [h5] at htk
                  rw [parseExpr_of_comment htk, parseExpr_of_comment htk]
                · rw [parseExpr_of_atom htk h1 h2 h3 h4 h5,
                    parseExpr_of_atom htk h1 h2 h3 h4 h5]
      · intro code pos k s acc h
        cases hpe : parseExpr n code pos with
        | div =>
          exact absurd (parseChildren_of_div hpe) h
        | err m p =>
          have he1 : parseExpr (n + 1) code pos = .err m p := by
            rw [(ih n (by omega)).1 code pos (ne_div_of_eq_err hpe)]
            exact hpe
          show parseChildren (n + 1 + 1) code pos k s acc = _
          simp only [parseChildren, hpe, he1]
        | ok v =>
          obtain ⟨elem, pe⟩ := v
          have he1 : parseExpr (n + 1) code pos = .ok (elem, pe) := by
            rw [(ih n (by omega)).1 code pos (ne_div_of_eq_ok hpe)]
            exact hpe
          by_cases hend : isEnd elem = true
          · rw [parseChildren_of_end he1 hend, parseChildren_of_end hpe hend]
          · rw [parseChildren_of_elem hpe (by simpa using hend)] at h
            rw [parseChildren_of_elem he1 (by simpa using hend),
              parseChildren_of_elem hpe (by simpa using hend)]
            exact (ih n (by omega)).2 code pe k s (acc ++ [elem]) h

theorem parseExpr_mono_le {f f' : Nat} {code : Str} {pos : Nat}
    (hle : f ≤ f') (h : parseExpr f code pos ≠ .div) :
    parseExpr f' code pos = parseExpr f code pos := by
  induction f', hle using Nat.le_induction with
  | base => rfl
  | succ m hm ihm =>
    rw [(parse_mono_step m).1 code pos (by rw [ihm]; exact h)]
    exact ihm

theorem parseAll_mono_step : ∀ (fuel : Nat) (code : Str) (pos : Nat),
    parseAll fuel code pos ≠ .div →
    parseAll (fuel + 1) code pos = parseAll fuel code pos := by
  intro fuel
  induction fuel with
  | zero =>
    intro code pos h
    exact absurd rfl h
  | succ n ihn =>
    intro code pos h
    cases hpe : parseExpr n code pos with
    | div =>
      exfalso
      apply h
      simp only [parseAll, hpe]
    | err m p =>
      have he1 : parseExpr (n + 1) code pos = .err m p := by
        rw [(parse_mono_step n).1 code pos (ne_div_of_eq_err hpe)]
        exact hpe
      show parseAll (n + 1 + 1) code pos = _
      simp only [parseAll, hpe, he1]
    | ok v =>
      obtain ⟨e, p'⟩ := v
      have he1 : parseExpr (n + 1) code pos = .ok (e, p') := by
        rw [(parse_mono_step n).1 code pos (ne_div_of_eq_ok hpe)]
        exact hpe
      by_cases hsent : isSentinel e = true
      · rw [parseAll_of_sentinel he1 hsent, parseAll_of_sentinel hpe hsent]
      · rw [parseAll_of_form hpe (by simpa using hsent)] at h
        rw [parseAll_of_form he1 (by simpa using hsent),
          parseAll_of_form hpe (by simpa using hsent)]
        have hrec : parseAll n code p' ≠ .div := by
          intro hc
          rw [hc] at h
          exact h rfl
        rw [ihn code p' hrec]

theorem parseAll_mono_le {f f' : Nat} {code : Str} {pos : Nat}
    (hle : f ≤ f') (h : parseAll f code pos ≠ .div) :
    parseAll f' code pos = parseAll f code pos := by
  induction f', hle using Nat.le_induction with
  | base => rfl
  | succ m hm ihm =>
    rw [parseAll_mono_step m code pos (by rw [ihm]; exact h)]
    exact ihm

/-! ### Layout well-formedness of parser output -/

theorem matchTok_single_iff {code : Str} {pos : Nat} {c : Char}
    (hlen : pos < code.length) :
    matchTok code pos [c] = true ↔ charAt code pos = c := by
  constructor
  · intro h
    exact (matchTok_head h).2
  · intro h
    exact matchTok_single hlen h

theorem charAt_ne_of_delimAt_false {code : Str} {pos : Nat}
    (hd : delimAt code pos = false) (hlen : pos < code.length) :
    charAt code pos ≠ '(' ∧ charAt code pos ≠ ')' ∧
      charAt code pos ≠ ';' ∧ charAt code pos ≠ '\n' := by
  obtain ⟨h1, _, _, _, h5, h6, h7⟩ := delimAt_false_iff.1 hd
  refine ⟨?_, ?_, ?_, ?_⟩ <;> intro hc
  · rw [← matchTok_single_iff hlen] at hc
    rw [hc] at h1
    cases h1
  · rw [← matchTok_single_iff hlen] at hc
    rw [hc] at h5
    cases h5
  · rw [← matchTok_single_iff hlen] at hc
    rw [hc] at h6
    cases h6
  · rw [← matchTok_single_iff hlen] at hc
    rw [hc] at h7
    cases h7

theorem slice_all {code : Str} {a b : Nat} {P : Char → Bool}
    (h : ∀ i, a ≤ i → i < b → i < code.length → P (charAt code i) = true) :
    (slice code a b).all P = true := by
  have H : ∀ n aa, b - aa = n →
      (∀ i, aa ≤ i → i < b → i < code.length → P (charAt code i) = true) →
      (slice code aa b).all P = true := by
    intro n
    induction n with
    | zero =>
      intro aa hn _
      rw [slice_eq_nil_of_le (by omega)]
      rfl
    | succ m ihm =>
      intro aa hn hh
      rcases le_or_lt code.length aa with hlen | hlen
      · rw [slice_eq_nil_of_len_le hlen]
        rfl
      · rw [slice_cons_of_lt hlen (by omega), List.all_cons,
          Bool.and_eq_true]
        exact ⟨hh aa (Nat.le_refl _) (by omega) hlen,
          ihm (aa + 1) (by omega) (fun i h1 h2 h3 => hh i (by omega) h2 h3)⟩
  exact H (b - a) a rfl h

/-- The characters of a lexed atom run are all clean. -/
theorem atom_run_clean {code : Str} {pos : Nat} :
    (slice code pos (atomEnd code pos)).all cleanAtomChar = true := by
  apply slice_all
  intro i h1 h2 h3
  have hrun := @scanEnd_run code (atomStop code) pos
    i h1 h2
  have hstop : atomStop code i = false := hrun.2
  unfold atomStop at hstop
  rw [Bool.or_eq_false_iff] at hstop
  obtain ⟨hsp, hdl⟩ := hstop
  obtain ⟨d1, d2, d3, d4⟩ := charAt_ne_of_delimAt_false hdl h3
  unfold cleanAtomChar
  simp [hsp, d1, d2, d3, d4]

/-- The characters of a comment body contain no newline. -/
theorem comment_run_clean {code : Str} {pos : Nat} :
    (slice code pos (commentEnd code pos)).all
      (fun c => !(c = '\n')) = true := by
  apply slice_all
  intro i h1 h2 _
  have hrun := @scanEnd_run
    code (fun p => charAt code p = '\n') pos i h1 h2
  simpa using hrun.2

theorem takeToken_cases (code : Str) (pos : Nat) :
    (delimAt code pos = false ∧
      takeToken code pos =
        (slice code pos (atomEnd code pos), atomEnd code pos)) ∨
    (matchTok code pos (takeToken code pos).1 = true ∧
      (takeToken code pos).1 ∈ DELIMETERS) := by
  by_cases hd : delimAt code pos = true
  · right
    by_cases c1 : matchTok code pos (Kind.beginStr .plain) = true
    · have hfst : (takeToken code pos).1 = Kind.beginStr .plain := by
        unfold takeToken
        simp only [c1, if_true]
      rw [hfst]
      exact ⟨c1, by simp [DELIMETERS]⟩
    by_cases c2 : matchTok code pos (Kind.beginStr .quoted) = true
    · have hfst : (takeToken code pos).1 = Kind.beginStr .quoted := by
        unfold takeToken
        simp only [c1, c2, Bool.false_eq_true, if_false, if_true]
      rw [hfst]
      exact ⟨c2, by simp [DELIMETERS]⟩
    by_cases c3 : matchTok code pos (Kind.beginStr .quasi) = true
    · have hfst : (takeToken code pos).1 = Kind.beginStr .quasi := by
        unfold takeToken
        simp only [c1, c2, c3, Bool.false_eq_true, if_false, if_true]
      rw [hfst]
      exact ⟨c3, by simp [DELIMETERS]⟩
    by_cases c4 : matchTok code pos (Kind.beginStr .unquoted) = true
    · have hfst : (takeToken code pos).1 = Kind.beginStr .unquoted := by
        unfold takeToken
        simp only [c1, c2, c3, c4, Bool.false_eq_true, if_false, if_true]
      rw [hfst]
      exact ⟨c4, by simp [DELIMETERS]⟩
    by_cases c5 : matchTok code pos endStr = true
    · have hfst : (takeToken code pos).1 = endStr := by
        unfold takeToken
        simp only [c1, c2, c3, c4, c5, Bool.false_eq_true, if_false, if_true]
      rw [hfst]
      exact ⟨c5, by simp [DELIMETERS]⟩
    by_cases c6 : matchTok code pos commentBegin = true
    · have hfst : (takeToken code pos).1 = commentBegin := by
        unfold takeToken
        simp only [c1, c2, c3, c4, c5, c6, Bool.false_eq_true, if_false,
          if_true]
      rw [hfst]
      exact ⟨c6, by simp [DELIMETERS]⟩
    by_cases c7 : matchTok code pos nlStr = true
    · have hfst : (takeToken code pos).1 = nlStr := by
        unfold takeToken
        simp only [c1, c2, c3, c4, c5, c6, c7, Bool.false_eq_true, if_false,
          if_true]
      rw [hfst]
      exact ⟨c7, by simp [DELIMETERS]⟩
    · exact absurd (delimAt_false_iff.2
        ⟨by simpa using c1, by simpa using c2, by simpa using c3,
         by simpa using c4, by simpa using c5, by simpa using c6,
         by simpa using c7⟩) (by simp [hd])
  · left
    exact ⟨by simpa using hd, takeToken_of_atom (by simpa using hd)⟩

theorem headFlagFalse_layoutSibs (code : Str) (cs : List TExpr) :
    headFlagFalse (layoutSibs code cs) = true := by
  cases cs <;> rfl

theorem lwfSibs_layoutTail {code : Str} :
    ∀ (cs : List TExpr) (prev : TExpr),
      lwfSibs (layoutTail code prev cs) =
        cs.all (fun c => lwf (layoutOf code c)) := by
  intro cs
  induction cs with
  | nil => intro prev; rfl
  | cons c rest ih =>
    intro prev
    show (lwf (layoutOf code c) && lwfSibs (layoutTail code c rest)) = _
    rw [ih c, List.all_cons]

theorem lwfSibs_layoutSibs {code : Str} (cs : List TExpr) :
    lwfSibs (layoutSibs code cs) =
      cs.all (fun c => lwf (layoutOf code c)) := by
  cases cs with
  | nil => rfl
  | cons c rest =>
    show (lwf (layoutOf code c) && lwfSibs (layoutTail code c rest)) = _
    rw [lwfSibs_layoutTail rest c, List.all_cons]

/-- A successful child loop always returns a list node (with the given
kind and start). -/
theorem parseChildren_ok_list : ∀ {fuel : Nat} {code : Str}
    {pos : Nat} {k : Kind} {s : Nat} {acc : List TExpr} {t : TExpr}
    {p' : Nat}, parseChildren fuel code pos k s acc = .ok (t, p') →
    ∃ cs, t = .list k cs s p' := by
  intro fuel
  induction fuel with
  | zero =>
    intro _ _ _ _ _ _ _ h
    exact PResult.noConfusion h
  | succ n ihn =>
    intro code pos k s acc t p' h
    cases hpe : parseExpr n code pos with
    | div =>
      rw [parseChildren_of_div hpe] at h
      exact PResult.noConfusion h
    | err m p =>
      simp only [parseChildren, hpe] at h
      exact PResult.noConfusion h
    | ok v =>
      obtain ⟨elem, pe⟩ := v
      by_cases hendq : isEnd elem = true
      · rw [parseChildren_of_end hpe hendq] at h
        injection h with hinj
        injection hinj with hexpr hpos
        subst hpos
        exact ⟨acc, hexpr.symm⟩
      · rw [parseChildren_of_elem hpe (by simpa using hendq)] at h
        exact ihn h

/-- A successful parse that returns the sentinel (empty atom) did so at
end of input, consuming nothing beyond the whitespace. -/
theorem parseExpr_sentinel_inv : ∀ {fuel : Nat} {code : Str} {pos : Nat}
    {t : TExpr} {p' : Nat}, parseExpr fuel code pos = .ok (t, p') →
    isSentinel t = true → p' = skipWs code pos ∧ code.length ≤ p' := by
  intro fuel code pos t p' h hs
  match fuel with
  | 0 => exact PResult.noConfusion h
  | n + 1 =>
    rcases htk : takeToken code (skipWs code pos) with ⟨tk, p2⟩
    by_cases h1 : tk = Kind.beginStr .plain
    · rw [h1] at htk
      rw [parseExpr_of_list htk] at h
      obtain ⟨cs, rfl⟩ := parseChildren_ok_list h
      simp [isSentinel] at hs
    · by_cases h2 : tk = Kind.beginStr .quoted
      · rw [h2] at htk
        rw [parseExpr_of_list htk] at h
        obtain ⟨cs, rfl⟩ := parseChildren_ok_list h
        simp [isSentinel] at hs
      · by_cases h3 : tk = Kind.beginStr .quasi
        · rw [h3] at htk
          rw [parseExpr_of_list htk] at h
          obtain ⟨cs, rfl⟩ := parseChildren_ok_list h
          simp [isSentinel] at hs
        · by_cases h4 : tk = Kind.beginStr .unquoted
          · rw [h4] at htk
            rw [parseExpr_of_list htk] at h
            obtain ⟨cs, rfl⟩ := parseChildren_ok_list h
            simp [isSentinel] at hs
          · by_cases h5 : tk = commentBegin
            · rw [h5] at htk
              rw [parseExpr_of_comment htk] at h
              injection h with hinj
              injection hinj with hexpr hpos
              subst hexpr
              simp [isSentinel] at hs
            · rw [parseExpr_of_atom htk h1 h2 h3 h4 h5] at h
              injection h with hinj
              injection hinj with hexpr hpos
              subst hexpr
              have htnil : tk = [] := by simpa [isSentinel] using hs
              subst htnil
              have hee := takeToken_empty_inv (skipWs_is_stop code pos) htk
              constructor <;> omega

/-- Well-formedness of parser-produced layouts: every successfully
parsed expression is the sentinel, the stray `)` atom, or has a
well-formed layout; and the children collected by the list loop all
have well-formed layouts. -/
theorem parse_wf : ∀ fuel : Nat,
    (∀ code pos t p', parseExpr fuel code pos = .ok (t, p') →
      isSentinel t = true ∨ layoutOf code t = .atom [')'] ∨
        lwf (layoutOf code t) = true) ∧
    (∀ code pos k s acc t p',
      parseChildren fuel code pos k s acc = .ok (t, p') →
      (∀ c ∈ acc, lwf (layoutOf code c) = true) →
      lwf (layoutOf code t) = true) := by
  intro fuel
  induction fuel using Nat.strong_induction_on with
  | _ fuel ih =>
    match fuel with
    | 0 =>
      constructor
      · intro _ _ _ _ h
        exact PResult.noConfusion h
      · intro _ _ _ _ _ _ _ h
        exact PResult.noConfusion h
    | n + 1 =>
      constructor
      · intro code pos t p' h
        rcases htk : takeToken code (skipWs code pos) with ⟨tk, p2⟩
        by_cases h1 : tk = Kind.beginStr .plain
        · rw [h1] at htk
          rw [parseExpr_of_list htk] at h
          exact Or.inr (Or.inr
            ((ih n (by omega)).2 code p2 .plain (skipWs code pos) [] t p' h
              (fun c hc => absurd hc (List.not_mem_nil c))))
        · by_cases h2 : tk = Kind.beginStr .quoted
          · rw [h2] at htk
            rw [parseExpr_of_list htk] at h
            exact Or.inr (Or.inr
              ((ih n (by omega)).2 code p2 .quoted (skipWs code pos) [] t p'
                h (fun c hc => absurd hc (List.not_mem_nil c))))
          · by_cases h3 : tk = Kind.beginStr .quasi
            · rw [h3] at htk
              rw [parseExpr_of_list htk] at h
              exact Or.inr (Or.inr
                ((ih n (by omega)).2 code p2 .quasi (skipWs code pos) [] t
                  p' h (fun c hc => absurd hc (List.not_mem_nil c))))
            · by_cases h4 : tk = Kind.beginStr .unquoted
              · rw [h4] at htk
                rw [parseExpr_of_list htk] at h
                exact Or.inr (Or.inr
                  ((ih n (by omega)).2 code p2 .unquoted (skipWs code pos)
                    [] t p' h (fun c hc => absurd hc (List.not_mem_nil c))))
              · by_cases h5 : tk = commentBegin
                · rw [h5] at htk
                  rw [parseExpr_of_comment htk] at h
                  injection h with hinj
                  injection hinj with hexpr hpos
                  subst hexpr
                  refine Or.inr (Or.inr ?_)
                  show lwf (.comment (slice code p2 (commentEnd code p2))) =
                    true
                  unfold lwf
                  exact comment_run_clean
                · rw [parseExpr_of_atom htk h1 h2 h3 h4 h5] at h
                  injection h with hinj
                  injection hinj with hexpr hpos
                  subst hexpr
                  rcases takeToken_cases code (skipWs code pos) with
                    ⟨hd, heq⟩ | ⟨hmt, hmem⟩
                  · rw [htk] at heq
                    injection heq with heq1 heq2
                    by_cases hnil : tk = []
                    · subst hnil
                      exact Or.inl rfl
                    · refine Or.inr (Or.inr ?_)
                      show lwf (.atom tk) = true
                      unfold lwf
                      rw [Bool.and_eq_true]
                      refine ⟨by simpa using hnil, ?_⟩
                      rw [heq1]
                      exact atom_run_clean
                  · rw [htk] at hmt hmem
                    simp only at hmt hmem
                    simp only [DELIMETERS, List.mem_cons,
                      List.not_mem_nil, or_false] at hmem
                    rcases hmem with hm | hm | hm | hm | hm | hm | hm
                    · exact absurd hm h1
                    · exact absurd hm h2
                    · exact absurd hm h3
                    · exact absurd hm h4
                    · exact Or.inr (Or.inl (by rw [hm]; rfl))
                    · exact absurd hm h5
                    · exfalso
                      rw [hm] at hmt
                      obtain ⟨hlt, hch⟩ := matchTok_head hmt
                      rcases skipWs_is_stop code pos with hx | hx
                      · omega
                      · rw [hch] at hx
                        cases hx
      · intro code pos k s acc t p' h hacc
        cases hpe : parseExpr n code pos with
        | div =>
          rw [parseChildren_of_div hpe] at h
          exact PResult.noConfusion h
        | err m p =>
          simp only [parseChildren, hpe] at h
          exact PResult.noConfusion h
        | ok v =>
          obtain ⟨elem, pe⟩ := v
          have hexp := (ih n (by omega)).1 code pos elem pe hpe
          by_cases hendq : isEnd elem = true
          · rw [parseChildren_of_end hpe hendq] at h
            injection h with hinj
            injection hinj with hexpr hpos
            subst hexpr
            show lwf (.list k (layoutSibs code acc)) = true
            unfold lwf
            rw [Bool.and_eq_true]
            refine ⟨headFlagFalse_layoutSibs code acc, ?_⟩
            rw [lwfSibs_layoutSibs, List.all_eq_true]
            exact hacc
          · rw [parseChildren_of_elem hpe (by simpa using hendq)] at h
            by_cases hsent : isSentinel elem = true
            · exfalso
              obtain ⟨heqp, hlen⟩ := parseExpr_sentinel_inv hpe hsent
              have hdiv := parseChildren_of_eof_div n code pe k s
                (acc ++ [elem]) (by rw [skipWs_of_eof (by omega)]; omega)
              rw [hdiv] at h
              exact PResult.noConfusion h
            · have helem : lwf (layoutOf code elem) = true := by
                rcases hexp with hx | hx | hx
                · exact absurd hx hsent
                · exfalso
                  cases elem with
                  | atom t2 a b =>
                    have hb1 : t2 = [')'] := by
                      have hb0 : LExpr.atom t2 = LExpr.atom [')'] := hx
                      injection hb0
                    rw [hb1] at hendq
                    simp [isEnd] at hendq
                  | comment t2 a b => exact LExpr.noConfusion hx
                  | list k2 cs a b => exact LExpr.noConfusion hx
                · exact hx
              exact (ih n (by omega)).2 code pe k s (acc ++ [elem]) t p' h
                (by
                  intro c hc
                  rcases List.mem_append.1 hc with hcl | hcr
                  · exact hacc c hcl
                  · rw [List.mem_singleton] at hcr
                    rw [hcr]
                    exact helem)

/-! ### The renderer factors through layouts -/

theorem strIsSpace_false_of_clean {t : Str} (hne : t.isEmpty = false)
    (hcl : t.all cleanAtomChar = true) : strIsSpace t = false := by
  cases t with
  | nil => cases hne
  | cons c cs =>
    rw [List.all_cons, Bool.and_eq_true] at hcl
    have hc : isSpace c = false := by
      have h0 := hcl.1
      unfold cleanAtomChar at h0
      simp only [Bool.and_eq_true, Bool.not_eq_true'] at h0
      exact h0.1.1.1.1
    unfold strIsSpace
    simp [hc]

/-- The suppression test `last.isspace()` over the previous child's
final fragment holds exactly when that child is a comment. -/
theorem lastFrag_isSpace_iff_comment {ind code : Str} (hne : ind ≠ [])
    (hsp : ∀ c ∈ ind, isSpace c = true) (prev : TExpr) (d : Nat)
    (hprev : lwf (layoutOf code prev) = true) :
    strIsSpace (lastFrag (fmtFrags ind code prev (d + 1))) =
      isCommentL (layoutOf code prev) := by
  cases prev with
  | atom t s e =>
    rw [lastFrag_atom]
    have hwf : (!t.isEmpty && t.all cleanAtomChar) = true := hprev
    rw [Bool.and_eq_true, Bool.not_eq_true'] at hwf
    rw [strIsSpace_false_of_clean hwf.1 hwf.2]
    rfl
  | comment t s e =>
    rw [lastFrag_comment, strIsSpace_indRep d hne hsp]
    rfl
  | list k cs s e =>
    rw [lastFrag_list]
    rfl

mutual

/-- On well-formed layouts the source-reading renderer `_fmt_expr`
agrees with the pure layout renderer. -/
theorem fmtFrags_eq_renderL (ind code : Str) (hne : ind ≠ [])
    (hsp : ∀ c ∈ ind, isSpace c = true) :
    ∀ (t : TExpr) (d : Nat), lwf (layoutOf code t) = true →
      fmtFrags ind code t d = renderL ind (layoutOf code t) d
  | .atom t s e, d, _ => rfl
  | .comment t s e, d, _ => rfl
  | .list k cs s e, d, hwf => by
    cases cs with
    | nil => rfl
    | cons c0 rest =>
      have hch : ∀ c ∈ c0 :: rest, lwf (layoutOf code c) = true := by
        have h0 : lwfSibs (layoutSibs code (c0 :: rest)) = true := by
          have h1 : (headFlagFalse (layoutSibs code (c0 :: rest)) &&
              lwfSibs (layoutSibs code (c0 :: rest))) = true := hwf
          rw [Bool.and_eq_true] at h1
          exact h1.2
        rw [lwfSibs_layoutSibs, List.all_eq_true] at h0
        exact h0
      show Kind.beginStr k ::
        ((fmtFrags ind code c0 (d + 1) ++
          fmtSibs ind code c0 rest d
            (lastFrag (fmtFrags ind code c0 (d + 1)))) ++ [endStr]) = _
      rw [fmtSibs_eq_renderLSibs ind code hne hsp c0 rest d
        (hch c0 (by simp)) (fun c hc => hch c (by simp [hc]))]
      rw [fmtFrags_eq_renderL ind code hne hsp c0 (d + 1) (hch c0 (by simp))]
      rfl

/-- Sibling-loop version of `fmtFrags_eq_renderL`. -/
theorem fmtSibs_eq_renderLSibs (ind code : Str) (hne : ind ≠ [])
    (hsp : ∀ c ∈ ind, isSpace c = true) :
    ∀ (prev : TExpr) (rest : List TExpr) (d : Nat),
      lwf (layoutOf code prev) = true →
      (∀ c ∈ rest, lwf (layoutOf code c) = true) →
      fmtSibs ind code prev rest d
          (lastFrag (fmtFrags ind code prev (d + 1))) =
        renderLSibs ind (layoutOf code prev) (layoutTail code prev rest) d
  | prev, [], d, _, _ => rfl
  | prev, e :: rest, d, hprev, hrest => by
    show (if hasNl (slice code (endP prev) (startP e)) then
        [nlStr, indRep ind (d + 1)]
      else if strIsSpace (lastFrag (fmtFrags ind code prev (d + 1))) then []
      else [[' ']]) ++
      (fmtFrags ind code e (d + 1) ++
        fmtSibs ind code e rest d
          (lastFrag (fmtFrags ind code e (d + 1)))) = _
    rw [lastFrag_isSpace_iff_comment hne hsp prev d hprev]
    rw [fmtSibs_eq_renderLSibs ind code hne hsp e rest d
      (hrest e (by simp)) (fun c hc => hrest c (by simp [hc]))]
    rw [fmtFrags_eq_renderL ind code hne hsp e (d + 1) (hrest e (by simp))]
    rfl

end

theorem spanWFList_mem {l : List TExpr} (h : spanWFList l = true) :
    ∀ t ∈ l, spanWF t = true := by
  induction l with
  | nil => intro t ht; cases ht
  | cons a rest ih =>
    rw [spanWFList, Bool.and_eq_true] at h
    intro t ht
    rcases List.mem_cons.1 ht with rfl | hm
    · exact h.1
    · exact ih h.2 t hm

theorem spansOrdered_cons {e : TExpr} {rest : List TExpr}
    (h : spansOrdered rest = true)
    (hhead : ∀ x ∈ rest, endP e ≤ startP x ∧ startP e < startP x) :
    spansOrdered (e :: rest) = true := by
  cases rest with
  | nil => rfl
  | cons b r =>
    obtain ⟨h1, h2⟩ := hhead b (by simp)
    have hdef : spansOrdered (e :: b :: r) =
        ((decide (endP e ≤ startP b) && decide (startP e < startP b)) &&
          spansOrdered (b :: r)) := rfl
    rw [hdef, h]
    simp [h1, h2]

/-- Span invariants for the top-level form stream produced by `parse`. -/
theorem parseAll_invariant : ∀ (fuel : Nat) (code : Str) (pos : Nat)
    (fs : List TExpr), parseAll fuel code pos = .ok fs →
    spanWFList fs = true ∧ spansOrdered fs = true ∧
      (∀ t ∈ fs, pos ≤ startP t ∧ startP t < endP t) := by
  intro fuel
  induction fuel with
  | zero =>
    intro code pos fs h
    exact PResult.noConfusion h
  | succ n ih =>
    intro code pos fs h
    cases hpe : parseExpr n code pos with
    | div =>
      simp only [parseAll, hpe] at h
      exact PResult.noConfusion h
    | err m p =>
      simp only [parseAll, hpe] at h
      exact PResult.noConfusion h
    | ok v =>
      obtain ⟨e, p'⟩ := v
      have hexp := (parse_invariant n).1 code pos e p' hpe
      obtain ⟨hstart, hend, hdisj⟩ := hexp
      by_cases hsent : isSentinel e = true
      · rw [parseAll_of_sentinel hpe hsent] at h
        injection h with hfs
        subst hfs
        exact ⟨rfl, rfl, by intro t ht; cases ht⟩
      · rw [parseAll_of_form hpe (by simpa using hsent)] at h
        cases hrec : parseAll n code p' with
        | div => rw [hrec] at h; exact PResult.noConfusion h
        | err m p => rw [hrec] at h; exact PResult.noConfusion h
        | ok rest =>
          rw [hrec] at h
          injection h with hfs
          subst hfs
          obtain ⟨hr1, hr2, hr3⟩ := ih code p' rest hrec
          have hewf : spanWF e = true ∧ startP e < p' := by
            rcases hdisj with ⟨hs, _, _⟩ | hr
            · exact absurd hs hsent
            · exact hr
          refine ⟨?_, ?_, ?_⟩
          · rw [spanWFList, Bool.and_eq_true]
            exact ⟨hewf.1, hr1⟩
          · refine spansOrdered_cons hr2 ?_
            intro x hx
            obtain ⟨hx1, hx2⟩ := hr3 x hx
            constructor <;> omega
          · intro t ht
            rcases List.mem_cons.1 ht with rfl | hm
            · refine ⟨by rw [hstart]; exact skipWs_ge code pos, by omega⟩
            · obtain ⟨hx1, hx2⟩ := hr3 t hm
              have := skipWs_ge code pos
              constructor <;> omega

/-- C8.  Every tree produced by a successful parse has well-formed
spans: sibling spans (both top-level and within every list node) are
non-overlapping and strictly increasing in start offset, and a list's
span strictly contains the spans of all its children (`spanWF`
packages exactly these conditions, recursively). -/
theorem claim8_span_invariants (code : Str) (fuel : Nat) (fs : List TExpr)
    (h : parseAll fuel code 0 = .ok fs) :
    (∀ t ∈ fs, spanWF t = true) ∧ spansOrdered fs = true := by
  obtain ⟨h1, h2, _⟩ := parseAll_invariant fuel code 0 fs h
  exact ⟨spanWFList_mem h1, h2⟩

/-- Witness for C8: the input `(a (b c) d)` — nested list with three
children. -/
theorem claim8_span_invariants_witness :
    (∀ t ∈ [TExpr.list .plain
        [.atom ['a'] 1 2,
         .list .plain [.atom ['b'] 4 5, .atom ['c'] 6 7] 3 8,
         .atom ['d'] 9 10] 0 11], spanWF t = true) ∧
      spansOrdered [TExpr.list .plain
        [.atom ['a'] 1 2,
         .list .plain [.atom ['b'] 4 5, .atom ['c'] 6 7] 3 8,
         .atom ['d'] 9 10] 0 11] = true :=
  claim8_span_invariants (("(a (b c) d)").data) 20
    [TExpr.list .plain
      [.atom ['a'] 1 2,
       .list .plain [.atom ['b'] 4 5, .atom ['c'] 6 7] 3 8,
       .atom ['d'] 9 10] 0 11] (by rfl)

/-- Witness for C4: the comment/`b` pair of `(a ;c\n\nb)`, where `last`
is the comment's trailing indent (whitespace) and the break is emitted
anyway. -/
theorem claim4_break_always_emitted_witness :
    fmtSibs [' ', ' '] (("(a ;c\n\nb)").data) (.comment ['c'] 3 6)
        [.atom ['b'] 7 8] 0 (indRep [' ', ' '] 1) =
      [nlStr, indRep [' ', ' '] 1] ++
        (fmtFrags [' ', ' '] (("(a ;c\n\nb)").data) (.atom ['b'] 7 8) 1 ++
          fmtSibs [' ', ' '] (("(a ;c\n\nb)").data) (.atom ['b'] 7 8) [] 0
            (lastFrag (fmtFrags [' ', ' '] (("(a ;c\n\nb)").data)
              (.atom ['b'] 7 8) 1))) := by
  exact (claim4_break_always_emitted [' ', ' '] (("(a ;c\n\nb)").data)
    (.comment ['c'] 3 6) (.atom ['b'] 7 8) [] 0 (indRep [' ', ' '] 1)
    (by rfl)).1

/-! ### Lexical facts about re-scanning rendered text -/

theorem matchAt_charAt {code : Str} {t : Str} :
    ∀ {p : Nat}, MatchAt code p t →
      ∀ i, i < t.length → charAt code (p + i) = t.getD i (Char.ofNat 0) := by
  induction t with
  | nil =>
    intro p _ i hi
    simp at hi
  | cons c cs ih =>
    intro p h i hi
    rw [matchAt_cons_iff] at h
    obtain ⟨hlt, hc, hrest⟩ := h
    cases i with
    | zero => simpa using hc
    | succ j =>
      have := ih hrest j (by simpa using hi)
      have harith : p + (j + 1) = (p + 1) + j := by omega
      rw [harith, this]
      rfl

theorem matchAt_all {code : Str} {p : Nat} {t : Str} {P : Char → Bool}
    (h : MatchAt code p t) (hall : t.all P = true) :
    ∀ i, p ≤ i → i < p + t.length → P (charAt code i) = true := by
  intro i h1 h2
  have hlt : i - p < t.length := by omega
  have := matchAt_charAt h (i - p) hlt
  have harith : p + (i - p) = i := by omega
  rw [harith] at this
  rw [this, List.getD_eq_getElem t _ hlt]
  rw [List.all_eq_true] at hall
  exact hall _ (List.getElem_mem hlt)

theorem matchAt_lt_length {code : Str} {p : Nat} {t : Str}
    (h : MatchAt code p t) : ∀ i, p ≤ i → i < p + t.length →
      i < code.length := by
  intro i h1 h2
  cases t with
  | nil => simp at h2; omega
  | cons c cs =>
    have := MatchAt.le_length h
    omega

theorem getLastD_cons_cons {α : Type} (a b : α) (l : List α) (d : α) :
    (a :: b :: l).getLastD d = (b :: l).getLastD d := rfl

theorem matchAt_last {code : Str} {t : Str} :
    ∀ {p : Nat}, MatchAt code p t → t ≠ [] →
      charAt code (p + t.length - 1) = t.getLastD (Char.ofNat 0) := by
  induction t with
  | nil => intro p _ hne; exact absurd rfl hne
  | cons c cs ih =>
    intro p h _
    rw [matchAt_cons_iff] at h
    obtain ⟨hlt, hc, hrest⟩ := h
    cases cs with
    | nil => simpa using hc
    | cons c2 cs2 =>
      have := ih hrest (List.cons_ne_nil _ _)
      have harith : p + (c :: c2 :: cs2).length - 1 =
          (p + 1) + (c2 :: cs2).length - 1 := by
        simp only [List.length_cons]
        omega
      rw [harith, this, getLastD_cons_cons]

/-- Refined form of `delimAt_eq_false`: the two-character delimiters
also fail when the current character is not from the quote family,
whatever follows. -/
theorem delimAt_eq_false2 {code : Str} {pos : Nat}
    (h1 : charAt code pos ≠ '(') (h2 : charAt code pos ≠ ')')
    (h3 : charAt code pos ≠ ';') (h4 : charAt code pos ≠ '\n')
    (h5 : isQuote (charAt code pos) = false ∨ charAt code (pos + 1) ≠ '(') :
    delimAt code pos = false := by
  rcases h5 with h5 | h5
  · simp only [isQuote, Bool.or_eq_false_iff, decide_eq_false_iff_not] at h5
    obtain ⟨⟨hq1, hq2⟩, hq3⟩ := h5
    exact delimAt_false_iff.2 ⟨matchTok_false_of_head h1,
      matchTok_false_of_head hq1, matchTok_false_of_head hq2,
      matchTok_false_of_head hq3, matchTok_false_of_head h2,
      matchTok_false_of_head h3, matchTok_false_of_head h4⟩
  · exact delimAt_eq_false h1 h2 h3 h4 h5

/-- Inside a clean atom occurrence (with a safe final window) the token
scan never stops. -/
theorem clean_no_stop {code : Str} {p : Nat} {t : Str}
    (hm : MatchAt code p t) (hcl : t.all cleanAtomChar = true)
    (hq : isQuote (t.getLastD (Char.ofNat 0)) = false ∨
      charAt code (p + t.length) ≠ '(') :
    ∀ i, p ≤ i → i < p + t.length →
      i < code.length ∧ atomStop code i = false := by
  intro i h1 h2
  refine ⟨matchAt_lt_length hm i h1 h2, ?_⟩
  have hcli : cleanAtomChar (charAt code i) = true := matchAt_all hm hcl i h1 h2
  simp only [cleanAtomChar, Bool.and_eq_true, Bool.not_eq_true',
    decide_eq_false_iff_not] at hcli
  obtain ⟨⟨⟨⟨hsp, hc1⟩, hc2⟩, hc3⟩, hc4⟩ := hcli
  unfold atomStop
  rw [hsp, Bool.false_or]
  apply delimAt_eq_false2 hc1 hc2 hc3 hc4
  rcases le_or_lt (p + t.length) (i + 1) with hi | hi
  · have hieq : i + 1 = p + t.length := by omega
    have hlast : i = p + t.length - 1 := by omega
    rcases hq with hq | hq
    · left
      have := matchAt_last hm (by intro hnil; rw [hnil] at h2; simp at h2; omega)
      rw [hlast, this]
      exact hq
    · right
      rw [hieq]
      exact hq
  · right
    have hcl2 : cleanAtomChar (charAt code (i + 1)) = true :=
      matchAt_all hm hcl (i + 1) (by omega) hi
    simp only [cleanAtomChar, Bool.and_eq_true, Bool.not_eq_true',
      decide_eq_false_iff_not] at hcl2
    exact hcl2.1.1.1.2

/-- The fallback scan over a clean atom occurrence stops exactly at the
far boundary. -/
theorem atomEnd_of_clean {code : Str} {p : Nat} {t : Str}
    (hm : MatchAt code p t) (hcl : t.all cleanAtomChar = true)
    (hq : isQuote (t.getLastD (Char.ofNat 0)) = false ∨
      charAt code (p + t.length) ≠ '(')
    (hstop : code.length ≤ p + t.length ∨
      atomStop code (p + t.length) = true) :
    atomEnd code p = p + t.length :=
  scanEnd_eq_of_run (by omega) (clean_no_stop hm hcl hq) hstop

/-- `take_token` over a clean atom occurrence returns exactly its text. -/
theorem takeToken_clean_atom {code : Str} {p : Nat} {t : Str}
    (hm : MatchAt code p t) (hne : t ≠ []) (hcl : t.all cleanAtomChar = true)
    (hq : isQuote (t.getLastD (Char.ofNat 0)) = false ∨
      charAt code (p + t.length) ≠ '(')
    (hstop : code.length ≤ p + t.length ∨
      atomStop code (p + t.length) = true) :
    takeToken code p = (t, p + t.length) := by
  have hrun := clean_no_stop hm hcl hq p (Nat.le_refl _)
    (by cases t with
      | nil => exact absurd rfl hne
      | cons c cs => simp only [List.length_cons]; omega)
  have hd : delimAt code p = false := by
    have := hrun.2
    unfold atomStop at this
    rw [Bool.or_eq_false_iff] at this
    exact this.2
  rw [takeToken_of_atom hd, atomEnd_of_clean hm hcl hq hstop]
  rw [show slice code p (p + t.length) = t from hm]

/-- `take_whitespace` over a whitespace occurrence followed by a
non-space boundary stops exactly at the boundary. -/
theorem skipWs_over_ws {code W : Str} {p : Nat}
    (hm : MatchAt code p W) (hws : W.all isSpace = true)
    (hstop : code.length ≤ p + W.length ∨
      isSpace (charAt code (p + W.length)) = false) :
    skipWs code p = p + W.length := by
  apply scanEnd_eq_of_run (by omega)
  · intro i h1 h2
    refine ⟨matchAt_lt_length hm i h1 h2, ?_⟩
    have := matchAt_all hm hws i h1 h2
    rw [this]
    rfl
  · rcases hstop with h | h
    · exact Or.inl h
    · right
      rw [h]
      rfl

/-! ### Shape of the flattened render -/

theorem indRep_zero (ind : Str) : indRep ind 0 = [] := rfl

theorem indRep_succ (ind : Str) (n : Nat) :
    indRep ind (n + 1) = ind ++ indRep ind n := rfl

theorem indRep_all {ind : Str} {P : Char → Bool} (h : ind.all P = true) :
    ∀ n : Nat, (indRep ind n).all P = true := by
  intro n
  induction n with
  | zero => rfl
  | succ m ih =>
    rw [indRep_succ, List.all_append, ih, h]
    rfl

theorem hasNl_append (a b : Str) : hasNl (a ++ b) = (hasNl a || hasNl b) := by
  simp [hasNl]

theorem hasNl_eq_false_of_all {s : Str}
    (h : s.all (fun c => !(c = '\n')) = true) : hasNl s = false := by
  rw [List.all_eq_true] at h
  simp only [hasNl]
  simp only [List.contains_eq_any_beq, List.any_eq_false, beq_iff_eq]
  intro c hm
  have := h c hm
  simp only [Bool.not_eq_true', decide_eq_false_iff_not] at this
  intro hc
  exact this hc.symm

theorem hasNl_indRep {ind : Str} (h : hasNl ind = false) (n : Nat) :
    hasNl (indRep ind n) = false := by
  induction n with
  | zero => rfl
  | succ m ih =>
    rw [indRep_succ, hasNl_append, h, ih]
    rfl

theorem flatL_atom (ind t : Str) (d : Nat) : flatL ind (.atom t) d = t := by
  simp [flatL, renderL]

theorem flatL_comment (ind t : Str) (d : Nat) :
    flatL ind (.comment t) d = ';' :: (t ++ '\n' :: indRep ind d) := by
  simp [flatL, renderL, commentBegin, nlStr]

theorem flatten_renderLSibs (ind : Str) :
    ∀ (rest : List (Bool × LExpr)) (prev : LExpr) (d : Nat),
      (renderLSibs ind prev rest d).flatten = sibsFlat ind prev rest d := by
  intro rest
  induction rest with
  | nil => intro prev d; rfl
  | cons be rest ih =>
    intro prev d
    obtain ⟨b, e⟩ := be
    show ((if b then [nlStr, indRep ind (d + 1)]
        else if isCommentL prev then [] else [[' ']]) ++
      (renderL ind e (d + 1) ++ renderLSibs ind e rest d)).flatten = _
    rw [List.flatten_append, List.flatten_append, ih]
    show _ = sepL ind b prev d ++ flatL ind e (d + 1) ++ sibsFlat ind e rest d
    unfold sepL
    cases b with
    | true => simp [nlStr, flatL]
    | false =>
      cases hcp : isCommentL prev with
      | true => simp [hcp, flatL]
      | false => simp [hcp, flatL]

theorem flatL_list (ind : Str) (k : Kind) (cs : List (Bool × LExpr)) (d : Nat) :
    flatL ind (.list k cs) d = Kind.beginStr k ++ bodyFlat ind cs d ++ [')'] := by
  cases cs with
  | nil => simp [flatL, renderL, bodyFlat, endStr]
  | cons be rest =>
    obtain ⟨b, c0⟩ := be
    show (Kind.beginStr k ::
        ((renderL ind c0 (d + 1) ++ renderLSibs ind c0 rest d) ++ [endStr])).flatten = _
    rw [List.flatten_cons, List.flatten_append, List.flatten_append,
      flatten_renderLSibs]
    simp [bodyFlat, flatL, endStr]

/-- The render of a well-formed layout starts with a non-space
character. -/
theorem flatL_head {ind : Str} {l : LExpr} {d : Nat} (hwf : lwf l = true) :
    ∃ c r0, flatL ind l d = c :: r0 ∧ isSpace c = false := by
  cases l with
  | atom t =>
    have hwf2 : (!t.isEmpty && t.all cleanAtomChar) = true := hwf
    rw [Bool.and_eq_true, Bool.not_eq_true'] at hwf2
    cases t with
    | nil => simp [List.isEmpty] at hwf2
    | cons c cs =>
      refine ⟨c, cs, flatL_atom ind (c :: cs) d, ?_⟩
      have := hwf2.2
      rw [List.all_cons, Bool.and_eq_true] at this
      have hc := this.1
      simp only [cleanAtomChar, Bool.and_eq_true, Bool.not_eq_true'] at hc
      exact hc.1.1.1.1
  | comment t =>
    exact ⟨';', t ++ '\n' :: indRep ind d, flatL_comment ind t d, by decide⟩
  | list k cs =>
    rw [flatL_list]
    cases k with
    | plain => exact ⟨'(', _, rfl, by decide⟩
    | quoted => exact ⟨'\'', _, rfl, by decide⟩
    | quasi => exact ⟨backquote, _, rfl, by decide⟩
    | unquoted => exact ⟨',', _, rfl, by decide⟩

/-! ### Decomposition of renders into consumed part and residue -/

theorem flatL_eq_cons_res (ind : Str) (l : LExpr) (d : Nat) :
    flatL ind l d = consStr ind l d ++ resL ind l d := by
  cases l with
  | atom t => simp [flatL_atom, consStr, resL]
  | comment t => simp [flatL_comment, consStr, resL]
  | list k cs => simp [consStr, resL]

theorem consL_atom (ind t : Str) (d : Nat) :
    consL ind (.atom t) d = t.length := rfl

theorem consL_comment (ind t : Str) (d : Nat) :
    consL ind (.comment t) d = t.length + 2 := by
  simp only [consL, consStr, List.length_cons, List.length_append,
    List.length_cons, List.length_nil]

theorem consL_list (ind : Str) (k : Kind) (cs : List (Bool × LExpr)) (d : Nat) :
    consL ind (.list k cs) d = (flatL ind (.list k cs) d).length := rfl

/-- A parsed node with a well-formed layout is neither the `")"` atom
nor the sentinel. -/
theorem parsed_not_end {code : Str} {t' : TExpr} {l : LExpr}
    (hl : layoutOf code t' = l) (hwf : lwf l = true) :
    isEnd t' = false ∧ isSentinel t' = false := by
  cases t' with
  | atom t s e =>
    have hlt : l = .atom t := by rw [← hl]; rfl
    rw [hlt] at hwf
    have hwf2 : (!t.isEmpty && t.all cleanAtomChar) = true := hwf
    rw [Bool.and_eq_true, Bool.not_eq_true'] at hwf2
    constructor
    · show decide (t = [')']) = false
      rw [decide_eq_false_iff_not]
      intro hc
      rw [hc] at hwf2
      exact absurd hwf2.2 (by decide)
    · show decide (t = []) = false
      rw [decide_eq_false_iff_not]
      intro hc
      rw [hc] at hwf2
      exact absurd hwf2.1 (by decide)
  | comment t s e => exact ⟨rfl, rfl⟩
  | list k cs s e => exact ⟨rfl, rfl⟩

/-- A clean atom text equals none of the delimiter tokens. -/
theorem clean_ne_delims {t : Str} (hcl : t.all cleanAtomChar = true) :
    t ≠ Kind.beginStr .plain ∧ t ≠ Kind.beginStr .quoted ∧
      t ≠ Kind.beginStr .quasi ∧ t ≠ Kind.beginStr .unquoted ∧
      t ≠ commentBegin := by
  refine ⟨?_, ?_, ?_, ?_, ?_⟩ <;>
    (intro hc; rw [hc] at hcl; exact absurd hcl (by decide))

theorem delimAt_of_rparen {code : Str} {q : Nat} (hlt : q < code.length)
    (hc : charAt code q = ')') : delimAt code q = true := by
  unfold delimAt DELIMETERS
  simp only [List.any_cons, endStr, matchTok_single hlt hc, Bool.or_true,
    Bool.true_or]

/-- A position holding a space, a newline, or a closing bracket stops
the fallback token scan and cannot open a list. -/
theorem atom_boundary {code : Str} {q : Nat} {c : Char} {r0 : Str}
    (hm : MatchAt code q (c :: r0)) (hc : isSpace c = true ∨ c = ')') :
    (code.length ≤ q ∨ atomStop code q = true) ∧ charAt code q ≠ '(' := by
  obtain ⟨hlt, hcq, _⟩ := matchAt_cons_iff.1 hm
  constructor
  · right
    unfold atomStop
    rcases hc with hc | hc
    · rw [hcq, hc]
      rfl
    · rw [delimAt_of_rparen hlt (by rw [hcq, hc]), Bool.or_true]
  · rw [hcq]
    rcases hc with hc | hc
    · intro h
      rw [h] at hc
      exact absurd hc (by decide)
    · rw [hc]
      decide

/-- The boundary just after a child inside a list: the upcoming text is
the remaining-sibling render followed by the closing bracket, whose
first character is a space, a newline, or `)` (the previous child being
a non-comment). -/
theorem next_boundary {ind code : Str} {q : Nat} {prev : LExpr}
    {rest : List (Bool × LExpr)} {d : Nat}
    (hprev : isCommentL prev = false)
    (hm : MatchAt code q (sibsFlat ind prev rest d ++ [')'])) :
    (code.length ≤ q ∨ atomStop code q = true) ∧ charAt code q ≠ '(' := by
  cases rest with
  | nil => exact atom_boundary hm (Or.inr rfl)
  | cons be rest' =>
    obtain ⟨b, e⟩ := be
    have hflat : sibsFlat ind prev ((b, e) :: rest') d ++ [')'] =
        sepL ind b prev d ++
          (flatL ind e (d + 1) ++ sibsFlat ind e rest' d ++ [')']) := by
      simp [sibsFlat]
    rw [hflat] at hm
    cases b with
    | true =>
      have hsep : sepL ind true prev d = '\n' :: indRep ind (d + 1) := rfl
      rw [hsep, List.cons_append] at hm
      exact atom_boundary (c := '\n') (by
        rw [matchAt_cons_iff] at hm ⊢
        exact ⟨hm.1, hm.2.1, matchAt_nil _ _⟩) (Or.inl (by decide))
    | false =>
      have hsep : sepL ind false prev d = [' '] := by
        unfold sepL
        rw [hprev]
        rfl
      rw [hsep] at hm
      exact atom_boundary (c := ' ') (by
        rw [List.cons_append] at hm
        rw [matchAt_cons_iff] at hm ⊢
        exact ⟨hm.1, hm.2.1, matchAt_nil _ _⟩) (Or.inl (by decide))

/-! ### Whitespace shape of separators and residues -/

theorem resL_all_space {ind : Str} (hsp : ∀ c ∈ ind, isSpace c = true)
    (l : LExpr) (d : Nat) : (resL ind l d).all isSpace = true := by
  cases l with
  | atom t => rfl
  | comment t => exact indRep_all (List.all_eq_true.2 hsp) d
  | list k cs => rfl

theorem sepL_all_space {ind : Str} (hsp : ∀ c ∈ ind, isSpace c = true)
    (b : Bool) (prev : LExpr) (d : Nat) :
    (sepL ind b prev d).all isSpace = true := by
  unfold sepL
  cases b with
  | true =>
    simp only [if_true]
    rw [List.all_cons, indRep_all (List.all_eq_true.2 hsp) (d + 1)]
    rfl
  | false =>
    cases hcp : isCommentL prev with
    | true => simp [hcp]
    | false =>
      show List.all [' '] isSpace = true
      decide

theorem hasNl_resL {ind : Str} (hnl : hasNl ind = false) (l : LExpr) (d : Nat) :
    hasNl (resL ind l d) = false := by
  cases l with
  | atom t => rfl
  | comment t => exact hasNl_indRep hnl d
  | list k cs => rfl

theorem hasNl_sepL (ind : Str) (b : Bool)
    (prev : LExpr) (d : Nat) : hasNl (sepL ind b prev d) = b := by
  unfold sepL
  cases b with
  | true =>
    simp only [if_true]
    show ('\n' :: indRep ind (d + 1)).contains '\n' = true
    simp
  | false =>
    cases hcp : isCommentL prev with
    | true => simp [hcp]; rfl
    | false => simp [hcp]; rfl

theorem skipWs_at_nonspace {code : Str} {p : Nat}
    (h : isSpace (charAt code p) = false) : skipWs code p = p :=
  scanEnd_stop (Or.inr (by rw [h]; rfl))

/-! ### Comment scanning over rendered text -/

theorem commentEnd_of_match {code t : Str} {p : Nat}
    (hm : MatchAt code p t) (hcl : t.all (fun c => !(c = '\n')) = true)
    (hlt : p + t.length < code.length)
    (hstopc : charAt code (p + t.length) = '\n') :
    commentEnd code p = p + t.length := by
  apply scanEnd_eq_of_run (by omega)
  · intro i h1 h2
    refine ⟨by omega, ?_⟩
    have := matchAt_all hm hcl i h1 h2
    simp only [Bool.not_eq_true', decide_eq_false_iff_not] at this
    simpa using this
  · right
    simpa using hstopc

theorem take_nl_of_match {code : Str} {q : Nat} (hlt : q < code.length)
    (hc : charAt code q = '\n') : take code q nlStr = some (q + 1) := by
  unfold take
  rw [show matchTok code q nlStr = true from matchTok_single hlt hc]
  rfl

/-! ### Re-parsing a rendered expression recovers its layout -/

mutual

/-- Parsing the render of a well-formed layout (with a safe boundary
for atoms) succeeds, consumes exactly the render's consumed part, and
produces a node with that very layout. -/
theorem parseL (ind code : Str) (hne : ind ≠ [])
    (hsp : ∀ c ∈ ind, isSpace c = true) (hnl : hasNl ind = false) :
    ∀ (l : LExpr) (d p0 p fuel : Nat), lwf l = true → fuelL l ≤ fuel →
      skipWs code p0 = p → MatchAt code p (flatL ind l d) →
      (∀ t0, l = .atom t0 →
        (code.length ≤ p + t0.length ∨ atomStop code (p + t0.length) = true) ∧
        (isQuote (t0.getLastD (Char.ofNat 0)) = false ∨
          charAt code (p + t0.length) ≠ '(')) →
      ∃ t', parseExpr fuel code p0 = .ok (t', p + consL ind l d) ∧
        layoutOf code t' = l ∧ startP t' = p ∧ endP t' = p + consL ind l d
  | .atom t0 => by
    intro d p0 p fuel hwf hfuel hskip hm hbnd
    obtain ⟨g, rfl⟩ : ∃ g, fuel = g + 1 :=
      ⟨fuel - 1, by have : fuelL (.atom t0) = 1 := rfl; omega⟩
    rw [flatL_atom] at hm
    have hwf2 : (!t0.isEmpty && t0.all cleanAtomChar) = true := hwf
    rw [Bool.and_eq_true, Bool.not_eq_true'] at hwf2
    have hne0 : t0 ≠ [] := by
      intro hc
      rw [hc] at hwf2
      exact absurd hwf2.1 (by decide)
    obtain ⟨hstop, hq⟩ := hbnd t0 rfl
    have htk : takeToken code p = (t0, p + t0.length) :=
      takeToken_clean_atom hm hne0 hwf2.2 hq hstop
    obtain ⟨hd1, hd2, hd3, hd4, hd5⟩ := clean_ne_delims hwf2.2
    have htkA : takeToken code (skipWs code p0) = (t0, p + t0.length) := by
      rw [hskip]
      exact htk
    have hpe := @parseExpr_of_atom g _ _ _ _ htkA hd1 hd2 hd3 hd4 hd5
    rw [hskip] at hpe
    exact ⟨.atom t0 p (p + t0.length), hpe, rfl, rfl, rfl⟩
  | .comment t0 => by
    intro d p0 p fuel hwf hfuel hskip hm _hbnd
    obtain ⟨g, rfl⟩ : ∃ g, fuel = g + 1 :=
      ⟨fuel - 1, by have : fuelL (.comment t0) = 1 := rfl; omega⟩
    rw [flatL_comment] at hm
    rw [matchAt_cons_iff] at hm
    obtain ⟨hplt, hpc, hm2⟩ := hm
    rw [matchAt_append_iff] at hm2
    obtain ⟨hmt, hm3⟩ := hm2
    rw [matchAt_cons_iff] at hm3
    obtain ⟨hnlt, hnlc, _⟩ := hm3
    have hcl : t0.all (fun c => !(c = '\n')) = true := hwf
    have hce : commentEnd code (p + 1) = p + 1 + t0.length :=
      commentEnd_of_match hmt hcl hnlt hnlc
    have htk : takeToken code p = ([';'], p + 1) := takeToken_semicolon hplt hpc
    have hcf : commentFin code (p + 1) = p + 1 + t0.length + 1 := by
      unfold commentFin
      rw [hce, take_nl_of_match hnlt hnlc]
    have htkA : takeToken code (skipWs code p0) = (commentBegin, p + 1) := by
      rw [hskip]
      exact htk
    have hpe := @parseExpr_of_comment g _ _ _ htkA
    rw [hskip, hce, hcf] at hpe
    rw [show slice code (p + 1) (p + 1 + t0.length) = t0 from hmt] at hpe
    have harith : p + 1 + t0.length + 1 = p + consL ind (.comment t0) d := by
      rw [consL_comment]
      omega
    rw [harith] at hpe
    exact ⟨.comment t0 p (p + consL ind (.comment t0) d), hpe, rfl, rfl, rfl⟩
  | .list k cs => by
    intro d p0 p fuel hwf hfuel hskip hm _hbnd
    have hfl : fuelL (.list k cs) = 1 + fuelSibs cs := rfl
    obtain ⟨g, rfl⟩ : ∃ g, fuel = g + 1 := ⟨fuel - 1, by omega⟩
    have hgfs : fuelSibs cs ≤ g := by omega
    rw [flatL_list, List.append_assoc] at hm
    rw [matchAt_append_iff] at hm
    obtain ⟨hm1, hmRest⟩ := hm
    have htk : takeToken code p =
        (Kind.beginStr k, p + (Kind.beginStr k).length) := by
      cases k with
      | plain =>
        have hm1' : MatchAt code p ['('] := hm1
        rw [matchAt_cons_iff] at hm1'
        exact takeToken_lparen hm1'.1 hm1'.2.1
      | quoted =>
        have hm1' : MatchAt code p ['\'', '('] := hm1
        rw [matchAt_cons_iff] at hm1'
        obtain ⟨hlt1, hc1, hm1''⟩ := hm1'
        rw [matchAt_cons_iff] at hm1''
        exact takeToken_quoted hm1''.1 hc1 hm1''.2.1
      | quasi =>
        have hm1' : MatchAt code p [backquote, '('] := hm1
        rw [matchAt_cons_iff] at hm1'
        obtain ⟨hlt1, hc1, hm1''⟩ := hm1'
        rw [matchAt_cons_iff] at hm1''
        exact takeToken_quasi hm1''.1 hc1 hm1''.2.1
      | unquoted =>
        have hm1' : MatchAt code p [',', '('] := hm1
        rw [matchAt_cons_iff] at hm1'
        obtain ⟨hlt1, hc1, hm1''⟩ := hm1'
        rw [matchAt_cons_iff] at hm1''
        exact takeToken_unquoted hm1''.1 hc1 hm1''.2.1
    have htkB : takeToken code (skipWs code p0) =
        (Kind.beginStr k, p + (Kind.beginStr k).length) := by
      rw [hskip]
      exact htk
    have hstep := @parseExpr_of_list g _ _ _ _ htkB
    rw [hskip] at hstep
    cases cs with
    | nil =>
      obtain ⟨g2, rfl⟩ : ∃ g2, g = g2 + 2 :=
        ⟨g - 2, by have : fuelSibs ([] : List (Bool × LExpr)) = 2 := rfl; omega⟩
      have hmrp : MatchAt code (p + (Kind.beginStr k).length) [')'] := by
        have hb : bodyFlat ind ([] : List (Bool × LExpr)) d ++ [')'] = [')'] := rfl
        rw [hb] at hmRest
        exact hmRest
      rw [matchAt_cons_iff] at hmrp
      obtain ⟨hrlt, hrc, _⟩ := hmrp
      have hsw : skipWs code (p + (Kind.beginStr k).length) =
          p + (Kind.beginStr k).length :=
        skipWs_at_nonspace (by rw [hrc]; decide)
      have htk2 : takeToken code (p + (Kind.beginStr k).length) =
          ([')'], p + (Kind.beginStr k).length + 1) :=
        takeToken_rparen hrlt hrc
      have htkA : takeToken code (skipWs code (p + (Kind.beginStr k).length)) =
          ([')'], p + (Kind.beginStr k).length + 1) := by
        rw [hsw]
        exact htk2
      have hpe2 := @parseExpr_of_atom g2 _ _ _ _ htkA
        (by decide) (by decide) (by decide) (by decide) (by decide)
      rw [hsw] at hpe2
      have hendE : isEnd (TExpr.atom [')'] (p + (Kind.beginStr k).length)
          (p + (Kind.beginStr k).length + 1)) = true := rfl
      have hpc := @parseChildren_of_end _ _ _ _ k p ([] : List TExpr) _
        hpe2 hendE
      have hlen : p + (Kind.beginStr k).length + 1 =
          p + consL ind (.list k []) d := by
        rw [consL_list, flatL_list]
        simp [bodyFlat]
        omega
      rw [hlen] at hpc
      have h22 : g2 + 1 + 1 = g2 + 2 := rfl
      rw [h22] at hpc
      refine ⟨.list k [] p (p + consL ind (.list k []) d), ?_, rfl, rfl, rfl⟩
      rw [hstep, hpc]
    | cons bc0 rest =>
      obtain ⟨b0, c0⟩ := bc0
      have hwfl : (headFlagFalse ((b0, c0) :: rest) &&
          lwfSibs ((b0, c0) :: rest)) = true := hwf
      rw [Bool.and_eq_true] at hwfl
      have hb0 : b0 = false := by
        have hh : (!b0) = true := hwfl.1
        simp only [Bool.not_eq_true'] at hh
        exact hh
      subst hb0
      have hsibs : (lwf c0 && lwfSibs rest) = true := hwfl.2
      rw [Bool.and_eq_true] at hsibs
      obtain ⟨g1, rfl⟩ : ∃ g1, g = g1 + 1 :=
        ⟨g - 1, by
          have : fuelSibs ((false, c0) :: rest) =
            1 + fuelL c0 + fuelSibs rest := rfl
          omega⟩
      have hg1 : fuelL c0 ≤ g1 ∧ fuelSibs rest ≤ g1 := by
        have : fuelSibs ((false, c0) :: rest) =
          1 + fuelL c0 + fuelSibs rest := rfl
        omega
      have hbody : bodyFlat ind ((false, c0) :: rest) d ++ [')'] =
          flatL ind c0 (d + 1) ++ (sibsFlat ind c0 rest d ++ [')']) := by
        simp [bodyFlat]
      rw [hbody, matchAt_append_iff] at hmRest
      obtain ⟨hmc0, hmX⟩ := hmRest
      obtain ⟨ch0, r0, hflc0, hch0ns⟩ := @flatL_head ind _ (d + 1) hsibs.1
      have hsw : skipWs code (p + (Kind.beginStr k).length) =
          p + (Kind.beginStr k).length := by
        apply skipWs_at_nonspace
        have hmc0' := hmc0
        rw [hflc0, matchAt_cons_iff] at hmc0'
        rw [hmc0'.2.1]
        exact hch0ns
      have hbnd0 : ∀ t0, c0 = .atom t0 →
          (code.length ≤ p + (Kind.beginStr k).length + t0.length ∨
            atomStop code (p + (Kind.beginStr k).length + t0.length) = true) ∧
          (isQuote (t0.getLastD (Char.ofNat 0)) = false ∨
            charAt code (p + (Kind.beginStr k).length + t0.length) ≠ '(') := by
        intro t0 ht0
        subst ht0
        rw [flatL_atom] at hmX
        obtain ⟨hstop, hnp⟩ := @next_boundary ind code _ (LExpr.atom t0) _ _
          rfl hmX
        exact ⟨hstop, Or.inr hnp⟩
      obtain ⟨t0', hpe0, hlay0, hs0, he0⟩ := parseL ind code hne hsp hnl c0
        (d + 1) (p + (Kind.beginStr k).length) (p + (Kind.beginStr k).length)
        g1 hsibs.1 hg1.1 hsw hmc0 hbnd0
      have hend0 : isEnd t0' = false := (parsed_not_end hlay0 hsibs.1).1
      have hpc0 := @parseChildren_of_elem _ _ _ _ k p ([] : List TExpr) _
        hpe0 hend0
      have hmres : MatchAt code
          (p + (Kind.beginStr k).length + consL ind c0 (d + 1))
          (resL ind c0 (d + 1)) := by
        have hmc0' := hmc0
        rw [flatL_eq_cons_res, matchAt_append_iff] at hmc0'
        exact hmc0'.2
      have hflen : (flatL ind c0 (d + 1)).length =
          consL ind c0 (d + 1) + (resL ind c0 (d + 1)).length := by
        rw [show consL ind c0 (d + 1) = (consStr ind c0 (d + 1)).length from rfl]
        rw [flatL_eq_cons_res, List.length_append]
      have hmX' : MatchAt code
          (p + (Kind.beginStr k).length + consL ind c0 (d + 1) +
            (resL ind c0 (d + 1)).length)
          (sibsFlat ind c0 rest d ++ [')']) := by
        have harith : p + (Kind.beginStr k).length + consL ind c0 (d + 1) +
            (resL ind c0 (d + 1)).length =
            p + (Kind.beginStr k).length + (flatL ind c0 (d + 1)).length := by
          omega
        rw [harith]
        exact hmX
      have hmS : MatchAt code
          (p + (Kind.beginStr k).length + consL ind c0 (d + 1))
          (resL ind c0 (d + 1) ++ (sibsFlat ind c0 rest d ++ [')'])) := by
        rw [matchAt_append_iff]
        exact ⟨hmres, hmX'⟩
      obtain ⟨ch', e', hpc, hlt', he'⟩ := parseSibsL ind code hne hsp hnl rest
        c0 t0' d (p + (Kind.beginStr k).length + consL ind c0 (d + 1)) k p
        [t0'] g1 hlay0 hsibs.2 he0 hmS hg1.2
      have hacc : [t0'] ++ ch' = t0' :: ch' := rfl
      rw [hacc] at hpc
      have hconsl : consL ind (.list k ((false, c0) :: rest)) d =
          (Kind.beginStr k).length + ((flatL ind c0 (d + 1)).length +
            (sibsFlat ind c0 rest d).length) + 1 := by
        rw [consL_list, flatL_list]
        simp [bodyFlat]
        omega
      have he2 : e' = p + consL ind (.list k ((false, c0) :: rest)) d := by
        rw [hconsl]
        omega
      rw [he2] at hpc
      have hnil : ([] : List TExpr) ++ [t0'] = [t0'] := rfl
      refine ⟨.list k (t0' :: ch')
        p (p + consL ind (.list k ((false, c0) :: rest)) d), ?_, ?_, rfl, rfl⟩
      · rw [hstep, hpc0, hnil, hpc]
      · show LExpr.list k (layoutSibs code (t0' :: ch')) = _
        have hls : layoutSibs code (t0' :: ch') =
            (false, layoutOf code t0') :: layoutTail code t0' ch' := rfl
        rw [hls, hlay0, hlt']

/-- The child loop over the render of the remaining siblings (after a
child whose residue is still pending) collects exactly those siblings
and closes the list at the final bracket. -/
theorem parseSibsL (ind code : Str) (hne : ind ≠ [])
    (hsp : ∀ c ∈ ind, isSpace c = true) (hnl : hasNl ind = false) :
    ∀ (rest : List (Bool × LExpr)) (prev : LExpr) (prevT : TExpr)
        (d q : Nat) (k : Kind) (s : Nat) (acc : List TExpr) (fuel : Nat),
      layoutOf code prevT = prev → lwfSibs rest = true →
      endP prevT = q →
      MatchAt code q (resL ind prev (d + 1) ++
        (sibsFlat ind prev rest d ++ [')'])) →
      fuelSibs rest ≤ fuel →
      ∃ ch' e', parseChildren fuel code q k s acc =
          .ok (.list k (acc ++ ch') s e', e') ∧
        layoutTail code prevT ch' = rest ∧
        e' = q + (resL ind prev (d + 1)).length +
          (sibsFlat ind prev rest d).length + 1
  | [] => by
    intro prev prevT d q k s acc fuel _hlay _hlsibs _hend hm hfuel
    obtain ⟨g, rfl⟩ : ∃ g, fuel = g + 2 :=
      ⟨fuel - 2, by
        have : fuelSibs ([] : List (Bool × LExpr)) = 2 := rfl
        omega⟩
    have hm2 : MatchAt code q (resL ind prev (d + 1) ++ [')']) := by
      have hb : sibsFlat ind prev [] d ++ [')'] = [')'] := rfl
      rw [hb] at hm
      exact hm
    rw [matchAt_append_iff] at hm2
    obtain ⟨hmres, hmrp⟩ := hm2
    rw [matchAt_cons_iff] at hmrp
    obtain ⟨hrplt, hrpc, _⟩ := hmrp
    have hsw : skipWs code q = q + (resL ind prev (d + 1)).length :=
      skipWs_over_ws hmres (resL_all_space hsp prev (d + 1))
        (Or.inr (by rw [hrpc]; decide))
    have htk : takeToken code (q + (resL ind prev (d + 1)).length) =
        ([')'], q + (resL ind prev (d + 1)).length + 1) :=
      takeToken_rparen hrplt hrpc
    have htkA : takeToken code (skipWs code q) =
        ([')'], q + (resL ind prev (d + 1)).length + 1) := by
      rw [hsw]
      exact htk
    have hpe := @parseExpr_of_atom g _ _ _ _ htkA
      (by decide) (by decide) (by decide) (by decide) (by decide)
    rw [hsw] at hpe
    have hendE : isEnd (TExpr.atom [')'] (q + (resL ind prev (d + 1)).length)
        (q + (resL ind prev (d + 1)).length + 1)) = true := rfl
    have hpc := @parseChildren_of_end _ _ _ _ k s acc _ hpe hendE
    have h22 : g + 1 + 1 = g + 2 := rfl
    rw [h22] at hpc
    refine ⟨[], q + (resL ind prev (d + 1)).length + 1, ?_, rfl, ?_⟩
    · rw [List.append_nil]
      exact hpc
    · have hb : sibsFlat ind prev [] d = [] := rfl
      rw [hb]
      simp
  | (b1, c1) :: rest' => by
    intro prev prevT d q k s acc fuel hlay hlsibs hend hm hfuel
    have hfs : fuelSibs ((b1, c1) :: rest') =
        1 + fuelL c1 + fuelSibs rest' := rfl
    obtain ⟨g, rfl⟩ : ∃ g, fuel = g + 1 := ⟨fuel - 1, by omega⟩
    have hg1 : fuelL c1 ≤ g ∧ fuelSibs rest' ≤ g := by omega
    have hls : (lwf c1 && lwfSibs rest') = true := hlsibs
    rw [Bool.and_eq_true] at hls
    have hmeq : resL ind prev (d + 1) ++
        (sibsFlat ind prev ((b1, c1) :: rest') d ++ [')']) =
        (resL ind prev (d + 1) ++ sepL ind b1 prev d) ++
          (flatL ind c1 (d + 1) ++ (sibsFlat ind c1 rest' d ++ [')'])) := by
      have hsf : sibsFlat ind prev ((b1, c1) :: rest') d =
          sepL ind b1 prev d ++ flatL ind c1 (d + 1) ++
            sibsFlat ind c1 rest' d := rfl
      rw [hsf]
      simp [List.append_assoc]
    rw [hmeq, matchAt_append_iff] at hm
    obtain ⟨hmW, hm2⟩ := hm
    rw [matchAt_append_iff] at hm2
    obtain ⟨hmc1, hmX⟩ := hm2
    obtain ⟨ch1, r1, hflc1, hch1ns⟩ := @flatL_head ind _ (d + 1) hls.1
    have hWsp : ((resL ind prev (d + 1) ++ sepL ind b1 prev d).all isSpace)
        = true := by
      rw [List.all_append, resL_all_space hsp prev (d + 1),
        sepL_all_space hsp b1 prev d]
      rfl
    have hsw : skipWs code q =
        q + (resL ind prev (d + 1) ++ sepL ind b1 prev d).length := by
      apply skipWs_over_ws hmW hWsp
      right
      have hmc1' := hmc1
      rw [hflc1, matchAt_cons_iff] at hmc1'
      rw [hmc1'.2.1]
      exact hch1ns
    have hbnd1 : ∀ t0, c1 = .atom t0 →
        (code.length ≤ q + (resL ind prev (d + 1) ++ sepL ind b1 prev d).length
            + t0.length ∨
          atomStop code (q + (resL ind prev (d + 1) ++
            sepL ind b1 prev d).length + t0.length) = true) ∧
        (isQuote (t0.getLastD (Char.ofNat 0)) = false ∨
          charAt code (q + (resL ind prev (d + 1) ++
            sepL ind b1 prev d).length + t0.length) ≠ '(') := by
      intro t0 ht0
      subst ht0
      rw [flatL_atom] at hmX
      obtain ⟨hstop, hnp⟩ := @next_boundary ind code _ (LExpr.atom t0) _ _
        rfl hmX
      exact ⟨hstop, Or.inr hnp⟩
    obtain ⟨t1', hpe1, hlay1, hs1, he1⟩ := parseL ind code hne hsp hnl c1
      (d + 1) q (q + (resL ind prev (d + 1) ++ sepL ind b1 prev d).length) g
      hls.1 hg1.1 hsw hmc1 hbnd1
    have hend1 : isEnd t1' = false := (parsed_not_end hlay1 hls.1).1
    have hpc1 := @parseChildren_of_elem _ _ _ _ k s acc _ hpe1 hend1
    have hmres1 : MatchAt code
        (q + (resL ind prev (d + 1) ++ sepL ind b1 prev d).length +
          consL ind c1 (d + 1)) (resL ind c1 (d + 1)) := by
      have hmc1' := hmc1
      rw [flatL_eq_cons_res, matchAt_append_iff] at hmc1'
      exact hmc1'.2
    have hflen : (flatL ind c1 (d + 1)).length =
        consL ind c1 (d + 1) + (resL ind c1 (d + 1)).length := by
      rw [show consL ind c1 (d + 1) = (consStr ind c1 (d + 1)).length from rfl]
      rw [flatL_eq_cons_res, List.length_append]
    have hmX' : MatchAt code
        (q + (resL ind prev (d + 1) ++ sepL ind b1 prev d).length +
          consL ind c1 (d + 1) + (resL ind c1 (d + 1)).length)
        (sibsFlat ind c1 rest' d ++ [')']) := by
      have harith : q + (resL ind prev (d + 1) ++ sepL ind b1 prev d).length +
          consL ind c1 (d + 1) + (resL ind c1 (d + 1)).length =
          q + (resL ind prev (d + 1) ++ sepL ind b1 prev d).length +
            (flatL ind c1 (d + 1)).length := by
        omega
      rw [harith]
      exact hmX
    have hmS : MatchAt code
        (q + (resL ind prev (d + 1) ++ sepL ind b1 prev d).length +
          consL ind c1 (d + 1))
        (resL ind c1 (d + 1) ++ (sibsFlat ind c1 rest' d ++ [')'])) := by
      rw [matchAt_append_iff]
      exact ⟨hmres1, hmX'⟩
    obtain ⟨ch'', e'', hpc2, hlt2, he2⟩ := parseSibsL ind code hne hsp hnl
      rest' c1 t1' d
      (q + (resL ind prev (d + 1) ++ sepL ind b1 prev d).length +
        consL ind c1 (d + 1)) k s (acc ++ [t1']) g hlay1 hls.2 he1 hmS hg1.2
    have hacc : (acc ++ [t1']) ++ ch'' = acc ++ (t1' :: ch'') := by
      rw [List.append_assoc]
      rfl
    rw [hacc] at hpc2
    refine ⟨t1' :: ch'', e'', ?_, ?_, ?_⟩
    · rw [hpc1, hpc2]
    · show (hasNl (slice code (endP prevT) (startP t1')),
          layoutOf code t1') :: layoutTail code t1' ch'' = _
      rw [hend, hs1]
      rw [show slice code q
          (q + (resL ind prev (d + 1) ++ sepL ind b1 prev d).length) =
          resL ind prev (d + 1) ++ sepL ind b1 prev d from hmW]
      rw [hasNl_append, hasNl_resL hnl, hasNl_sepL, Bool.false_or]
      rw [hlay1, hlt2]
    · have hsf : (sibsFlat ind prev ((b1, c1) :: rest') d).length =
          (sepL ind b1 prev d).length + (flatL ind c1 (d + 1)).length +
            (sibsFlat ind c1 rest' d).length := by
        have hsfe : sibsFlat ind prev ((b1, c1) :: rest') d =
            sepL ind b1 prev d ++ flatL ind c1 (d + 1) ++
              sibsFlat ind c1 rest' d := rfl
        rw [hsfe]
        simp [List.length_append]
        omega
      rw [he2, hsf]
      have hW : (resL ind prev (d + 1) ++ sepL ind b1 prev d).length =
          (resL ind prev (d + 1)).length + (sepL ind b1 prev d).length := by
        rw [List.length_append]
      omega

end

/-! ### Top-level render and re-parse: supporting lemmas -/

theorem replicate_nl_space (k : Nat) :
    (List.replicate k '\n').all isSpace = true := by
  rw [List.all_eq_true]
  intro c hc
  rw [List.eq_of_mem_replicate hc]
  rfl

theorem countNl_replicate (k : Nat) :
    countNl (List.replicate k '\n') = k := by
  unfold countNl
  exact List.count_replicate_self _ _

theorem delimAt_of_tok {code : Str} {q : Nat} {t : Str}
    (hmem : t ∈ DELIMETERS) (hm : matchTok code q t = true) :
    delimAt code q = true :=
  List.any_eq_true.2 ⟨t, hmem, hm⟩

theorem isQuote_ne_lparen {c : Char} (h : isQuote c = true) : c ≠ '(' := by
  simp only [isQuote, Bool.or_eq_true, decide_eq_true_eq] at h
  rcases h with (h | h) | h <;> (subst h; decide)

theorem quote_kind {qc : Char} (hq : isQuote qc = true) :
    ∃ kq : Kind, Kind.beginStr kq = [qc, '('] := by
  simp only [isQuote, Bool.or_eq_true, decide_eq_true_eq] at hq
  rcases hq with (h | h) | h
  · subst h
    exact ⟨.quoted, rfl⟩
  · subst h
    exact ⟨.quasi, rfl⟩
  · subst h
    exact ⟨.unquoted, rfl⟩

theorem flatL_quote_list (ind : Str) {qc : Char} {kq : Kind}
    (hk : Kind.beginStr kq = [qc, '(']) (cs : List (Bool × LExpr)) (d : Nat) :
    flatL ind (.list kq cs) d = qc :: flatL ind (.list .plain cs) d := by
  rw [flatL_list, flatL_list, hk, beginStr_plain]
  rfl

theorem lwf_atom_append {A A2 : Str} (h1 : lwf (.atom A) = true)
    (h2 : lwf (.atom A2) = true) : lwf (.atom (A ++ A2)) = true := by
  have h1' : (!A.isEmpty && A.all cleanAtomChar) = true := h1
  have h2' : (!A2.isEmpty && A2.all cleanAtomChar) = true := h2
  rw [Bool.and_eq_true, Bool.not_eq_true'] at h1' h2'
  show (!(A ++ A2).isEmpty && (A ++ A2).all cleanAtomChar) = true
  rw [Bool.and_eq_true, Bool.not_eq_true']
  constructor
  · cases A with
    | nil => exact absurd h1'.1 (by decide)
    | cons a t => rfl
  · rw [List.all_append, h1'.2, h2'.2]
    rfl

theorem lwf_atom_dropLast {A : Str} (h : lwf (.atom A) = true)
    (hne : A.dropLast ≠ []) : lwf (.atom A.dropLast) = true := by
  have h' : (!A.isEmpty && A.all cleanAtomChar) = true := h
  rw [Bool.and_eq_true, Bool.not_eq_true'] at h'
  show (!A.dropLast.isEmpty && A.dropLast.all cleanAtomChar) = true
  rw [Bool.and_eq_true, Bool.not_eq_true']
  constructor
  · cases hd : A.dropLast with
    | nil => exact absurd hd hne
    | cons a t => rfl
  · rw [List.all_eq_true] at h' ⊢
    intro x hx
    exact h'.2 x (List.dropLast_subset A hx)

theorem eq_dropLast_append_getLastD {α : Type} {l : List α} (h : l ≠ [])
    (d : α) : l = l.dropLast ++ [l.getLastD d] := by
  induction l with
  | nil => exact absurd rfl h
  | cons a t ih =>
    cases t with
    | nil => rfl
    | cons b t2 =>
      have := ih (List.cons_ne_nil _ _)
      rw [List.dropLast_cons₂, List.cons_append,
        show (a :: b :: t2).getLastD d = (b :: t2).getLastD d from rfl]
      exact congrArg (a :: ·) this

/-- `fmt_expr` output text equals the flattened layout render, for any
top-level well-formed layout (including the stray `)` atom). -/
theorem fmtStr_eq_flatL {ind code : Str} (hne : ind ≠ [])
    (hsp : ∀ c ∈ ind, isSpace c = true) {e : TExpr}
    (hwf : topWF (layoutOf code e) = true) :
    fmtStr ind code e = flatL ind (layoutOf code e) 0 := by
  have h := hwf
  unfold topWF at h
  rw [Bool.or_eq_true] at h
  rcases h with h | h
  · unfold fmtStr flatL
    rw [fmtFrags_eq_renderL ind code hne hsp e 0 h]
  · cases hl : layoutOf code e with
    | atom t =>
      rw [hl] at h
      have ht : t = [')'] := by simpa using h
      subst ht
      cases e with
      | atom t2 s en =>
        have ht2 : t2 = [')'] := by
          have := hl
          unfold layoutOf at this
          injection this
        subst ht2
        rfl
      | comment t2 s en => exact absurd hl (by unfold layoutOf; intro hc; cases hc)
      | list k cs s en => exact absurd hl (by unfold layoutOf; intro hc; cases hc)
    | comment t =>
      rw [hl] at h
      simp at h
    | list k cs =>
      rw [hl] at h
      simp at h

theorem fmtTops_eq_glued (ind code : Str) :
    ∀ (rest : List TExpr) (e : TExpr),
      fmtTops ind code e rest =
        fmtStr ind code e ++ glued ind code (endP e) rest := by
  intro rest
  induction rest with
  | nil =>
    intro e
    show fmtStr ind code e = _
    rw [show glued ind code (endP e) [] = [] from rfl, List.append_nil]
  | cons f rest ih =>
    intro e
    have hdef : fmtTops ind code e (f :: rest) =
        fmtStr ind code e ++
          List.replicate (countNl (slice code (endP e) (startP f))) '\n' ++
          fmtTops ind code f rest := rfl
    have hdef2 : glued ind code (endP e) (f :: rest) =
        List.replicate (countNl (slice code (endP e) (startP f))) '\n' ++
          fmtStr ind code f ++ glued ind code (endP f) rest := rfl
    rw [hdef, hdef2, ih f]
    simp [List.append_assoc]

/-- The rendered text of the whole top-level stream, in terms of the
layouts and gap counts. -/
theorem fmtTops_eq_flatTops {ind code : Str} (hne : ind ≠ [])
    (hsp : ∀ c ∈ ind, isSpace c = true) :
    ∀ (rest : List TExpr) (e : TExpr),
      topWF (layoutOf code e) = true →
      (∀ f ∈ rest, topWF (layoutOf code f) = true) →
      fmtTops ind code e rest =
        flatL ind (layoutOf code e) 0 ++
          flatTops ind (topsTail code e rest) := by
  intro rest
  induction rest with
  | nil =>
    intro e he _
    show fmtStr ind code e = _
    rw [fmtStr_eq_flatL hne hsp he,
      show topsTail code e [] = [] from rfl,
      show flatTops ind [] = [] from rfl, List.append_nil]
  | cons f rest ih =>
    intro e he hf
    have hdef : fmtTops ind code e (f :: rest) =
        fmtStr ind code e ++
          List.replicate (countNl (slice code (endP e) (startP f))) '\n' ++
          fmtTops ind code f rest := rfl
    rw [hdef, ih f (hf f (by simp)) (fun x hx => hf x (by simp [hx])),
      fmtStr_eq_flatL hne hsp he]
    have hdef2 : topsTail code e (f :: rest) =
        (countNl (slice code (endP e) (startP f)), layoutOf code f) ::
          topsTail code f rest := rfl
    rw [hdef2]
    have hdef3 : flatTops ind
        ((countNl (slice code (endP e) (startP f)), layoutOf code f) ::
          topsTail code f rest) =
        List.replicate (countNl (slice code (endP e) (startP f))) '\n' ++
          flatL ind (layoutOf code f) 0 ++
          flatTops ind (topsTail code f rest) := rfl
    rw [hdef3]
    simp [List.append_assoc]

/-- Every top-level form produced by `parse` has a top-level
well-formed layout. -/
theorem parseAll_wf : ∀ (fuel : Nat) (code : Str) (pos : Nat)
    (fs : List TExpr), parseAll fuel code pos = .ok fs →
    ∀ e ∈ fs, topWF (layoutOf code e) = true := by
  intro fuel
  induction fuel with
  | zero =>
    intro code pos fs h
    exact PResult.noConfusion h
  | succ n ihn =>
    intro code pos fs h
    cases hpe : parseExpr n code pos with
    | div =>
      simp only [parseAll, hpe] at h
      exact PResult.noConfusion h
    | err m p =>
      simp only [parseAll, hpe] at h
      exact PResult.noConfusion h
    | ok v =>
      obtain ⟨e, p'⟩ := v
      by_cases hsent : isSentinel e = true
      · rw [parseAll_of_sentinel hpe hsent] at h
        injection h with h2
        subst h2
        intro x hx
        cases hx
      · rw [parseAll_of_form hpe (by simpa using hsent)] at h
        cases hrec : parseAll n code p' with
        | ok rest =>
          rw [hrec] at h
          injection h with h2
          subst h2
          intro x hx
          rcases List.mem_cons.1 hx with rfl | hm
          · rcases (parse_wf n).1 code pos x p' hpe with hx2 | hx2 | hx2
            · exact absurd hx2 hsent
            · rw [hx2]
              decide
            · unfold topWF
              rw [hx2]
              rfl
          · exact ihn code p' rest hrec x hm
        | err m2 p2 =>
          rw [hrec] at h
          exact PResult.noConfusion h
        | div =>
          rw [hrec] at h
          exact PResult.noConfusion h

/-- Re-parsing an empty top-level stream: the leftover `"\n"` is
skipped and the sentinel ends the stream. -/
theorem topParse_nil (ind code : Str) :
    ∀ (p fuel : Nat), 2 ≤ fuel →
      MatchAt code p (flatTops ind [] ++ ['\n']) →
      code.length = p + (flatTops ind []).length + 1 →
      parseAll fuel code p = .ok [] := by
  intro p fuel hfuel hm hlen
  obtain ⟨g, rfl⟩ : ∃ g, fuel = g + 2 := ⟨fuel - 2, by omega⟩
  have hm2 : MatchAt code p ['\n'] := hm
  have hlen2 : code.length = p + 1 := by
    have : (flatTops ind []).length = 0 := rfl
    omega
  have hsw : skipWs code p = p + 1 := by
    have := skipWs_over_ws hm2 (by decide) (Or.inl (by
      rw [show (['\n'] : Str).length = 1 from rfl]
      omega))
    rw [show (['\n'] : Str).length = 1 from rfl] at this
    exact this
  have hpe := @parseExpr_of_eof g code p (by rw [hsw]; omega)
  exact parseAll_of_sentinel hpe rfl

theorem fuelL_pos (l : LExpr) : 1 ≤ fuelL l := by
  cases l with
  | atom t => exact Nat.le_refl _
  | comment t => exact Nat.le_refl _
  | list k cs =>
    show 1 ≤ 1 + fuelSibs cs
    omega

theorem fuelTops_ge_two : ∀ tops : List (Nat × LExpr), 2 ≤ fuelTops tops
  | [] => Nat.le_refl _
  | (k, l) :: rest => by
    show 2 ≤ 1 + fuelL l + fuelTops rest
    have h1 := fuelL_pos l
    have h2 := fuelTops_ge_two rest
    omega

/-- One clean head step of the top-level re-parse: with a safe boundary
for a lexed head atom, the head form parses back to its layout, and the
continuation hypothesis finishes the stream. -/
theorem topParse_head (ind code : Str) (hne : ind ≠ [])
    (hsp : ∀ c ∈ ind, isSpace c = true) (hnl : hasNl ind = false)
    (k0 : Nat) (l : LExpr) (rest : List (Nat × LExpr)) (p g : Nat)
    (hwfl : topWF l = true)
    (hfuel : fuelTops ((k0, l) :: rest) ≤ g + 1)
    (hm : MatchAt code p (flatTops ind ((k0, l) :: rest) ++ ['\n']))
    (hcl : code.length = p + (flatTops ind ((k0, l) :: rest)).length + 1)
    (hbnd : lwf l = true → ∀ t0, l = .atom t0 →
      (code.length ≤ p + k0 + t0.length ∨
        atomStop code (p + k0 + t0.length) = true) ∧
      (isQuote (t0.getLastD (Char.ofNat 0)) = false ∨
        charAt code (p + k0 + t0.length) ≠ '('))
    (hcont : ∀ fuel2, fuelTops rest ≤ fuel2 →
      MatchAt code (p + k0 + (flatL ind l 0).length)
        (flatTops ind rest ++ ['\n']) →
      code.length = p + k0 + (flatL ind l 0).length +
        (flatTops ind rest).length + 1 →
      ∃ es, parseAll fuel2 code (p + k0 + (flatL ind l 0).length) = .ok es ∧
        glued ind code (p + k0 + (flatL ind l 0).length) es =
          flatTops ind rest) :
    ∃ es, parseAll (g + 1) code p = .ok es ∧
      glued ind code p es = flatTops ind ((k0, l) :: rest) ∧ es ≠ [] := by
  have hft : fuelTops ((k0, l) :: rest) = 1 + fuelL l + fuelTops rest := rfl
  have hftr := fuelTops_ge_two rest
  have hmeq : flatTops ind ((k0, l) :: rest) ++ ['\n'] =
      List.replicate k0 '\n' ++
        (flatL ind l 0 ++ (flatTops ind rest ++ ['\n'])) := by
    show (List.replicate k0 '\n' ++ flatL ind l 0 ++ flatTops ind rest) ++
      ['\n'] = _
    simp [List.append_assoc]
  rw [hmeq, matchAt_append_iff] at hm
  obtain ⟨hmW, hm2⟩ := hm
  rw [List.length_replicate, matchAt_append_iff] at hm2
  obtain ⟨hmL, hmR⟩ := hm2
  have hlenT : (flatTops ind ((k0, l) :: rest)).length =
      k0 + (flatL ind l 0).length + (flatTops ind rest).length := by
    show (List.replicate k0 '\n' ++ flatL ind l 0 ++
      flatTops ind rest).length = _
    simp [List.length_append, List.length_replicate]
    omega
  have hcl2 : code.length = p + k0 + (flatL ind l 0).length +
      (flatTops ind rest).length + 1 := by omega
  have hres0 : resL ind l 0 = [] := by cases l <;> rfl
  have hcons0 : consL ind l 0 = (flatL ind l 0).length := by
    have h1 := flatL_eq_cons_res ind l 0
    rw [hres0, List.append_nil] at h1
    rw [show consL ind l 0 = (consStr ind l 0).length from rfl, h1]
  have hslW : slice code p (p + k0) = List.replicate k0 '\n' := by
    have h2 : slice code p (p + (List.replicate k0 '\n').length) =
        List.replicate k0 '\n' := hmW
    rw [List.length_replicate] at h2
    exact h2
  have htop : lwf l = true ∨ l = .atom [')'] := by
    have h := hwfl
    unfold topWF at h
    rw [Bool.or_eq_true] at h
    rcases h with h | h
    · exact Or.inl h
    · right
      cases l with
      | atom t =>
        have ht : t = [')'] := by simpa using h
        rw [ht]
      | comment t => simp at h
      | list k cs => simp at h
  rcases htop with hlwf | hrp
  · obtain ⟨ch0, r0, hfl0, hns0⟩ := @flatL_head ind _ 0 hlwf
    have hsw : skipWs code p = p + k0 := by
      have hstep := skipWs_over_ws hmW (replicate_nl_space k0) (Or.inr (by
        rw [List.length_replicate]
        have hmL' := hmL
        rw [hfl0, matchAt_cons_iff] at hmL'
        rw [hmL'.2.1]
        exact hns0))
      rw [List.length_replicate] at hstep
      exact hstep
    obtain ⟨e', hpe, hlay, hst, hen⟩ := parseL ind code hne hsp hnl l 0 p
      (p + k0) g hlwf (by have := fuelL_pos l; omega) hsw hmL (hbnd hlwf)
    rw [hcons0] at hpe hen
    have hsent : isSentinel e' = false := (parsed_not_end hlay hlwf).2
    obtain ⟨es'', hpa2, hglue2⟩ := hcont g (by omega) hmR hcl2
    have hpa := parseAll_of_form hpe hsent
    rw [hpa2] at hpa
    refine ⟨e' :: es'', hpa, ?_, by simp⟩
    have hgdef : glued ind code p (e' :: es'') =
        List.replicate (countNl (slice code p (startP e'))) '\n' ++
          fmtStr ind code e' ++ glued ind code (endP e') es'' := rfl
    rw [hgdef, hst, hen, hslW, countNl_replicate]
    rw [fmtStr_eq_flatL hne hsp (by rw [hlay]; exact hwfl), hlay, hglue2]
    show _ = List.replicate k0 '\n' ++ flatL ind l 0 ++ flatTops ind rest
    simp [List.append_assoc]
  · subst hrp
    have hl1 : (flatL ind (.atom [')']) 0).length = 1 := by
      rw [flatL_atom]
      rfl
    have hmL' := hmL
    rw [flatL_atom] at hmL'
    rw [matchAt_cons_iff] at hmL'
    obtain ⟨hlt, hc, _⟩ := hmL'
    have hsw : skipWs code p = p + k0 := by
      have hstep := skipWs_over_ws hmW (replicate_nl_space k0) (Or.inr (by
        rw [List.length_replicate, hc]
        decide))
      rw [List.length_replicate] at hstep
      exact hstep
    obtain ⟨g2, rfl⟩ : ∃ g2, g = g2 + 1 := ⟨g - 1, by omega⟩
    have htk : takeToken code (p + k0) = ([')'], p + k0 + 1) :=
      takeToken_rparen hlt hc
    have htkA : takeToken code (skipWs code p) = ([')'], p + k0 + 1) := by
      rw [hsw]
      exact htk
    have hpe := @parseExpr_of_atom g2 _ _ _ _ htkA
      (by decide) (by decide) (by decide) (by decide) (by decide)
    rw [hsw] at hpe
    have hpos : p + k0 + 1 = p + k0 + (flatL ind (.atom [')']) 0).length := by
      rw [hl1]
    rw [hpos] at hpe
    have hsent : isSentinel (TExpr.atom [')'] (p + k0)
        (p + k0 + (flatL ind (.atom [')']) 0).length)) = false := rfl
    obtain ⟨es'', hpa2, hglue2⟩ := hcont (g2 + 1) (by omega) hmR hcl2
    have hpa := parseAll_of_form hpe hsent
    rw [hpa2] at hpa
    refine ⟨TExpr.atom [')'] (p + k0)
      (p + k0 + (flatL ind (.atom [')']) 0).length) :: es'', hpa, ?_, by simp⟩
    have hgdef : glued ind code p (TExpr.atom [')'] (p + k0)
        (p + k0 + (flatL ind (.atom [')']) 0).length) :: es'') =
        List.replicate (countNl (slice code p (p + k0))) '\n' ++
          fmtStr ind code (TExpr.atom [')'] (p + k0)
            (p + k0 + (flatL ind (.atom [')']) 0).length)) ++
          glued ind code (p + k0 + (flatL ind (.atom [')']) 0).length)
            es'' := rfl
    rw [hgdef, hslW, countNl_replicate, hglue2]
    have hfstr : fmtStr ind code (TExpr.atom [')'] (p + k0)
        (p + k0 + (flatL ind (.atom [')']) 0).length)) =
        flatL ind (.atom [')']) 0 := rfl
    rw [hfstr]
    show _ = List.replicate k0 '\n' ++ flatL ind (.atom [')']) 0 ++
      flatTops ind rest
    simp [List.append_assoc]

/-! ### Boundary shapes at the top level -/

theorem comment_boundary {ind code : Str} {q : Nat} {t1 : Str} {X : Str}
    (hm : MatchAt code q (flatL ind (.comment t1) 0 ++ X)) :
    (code.length ≤ q ∨ atomStop code q = true) ∧ charAt code q ≠ '(' := by
  rw [flatL_comment, List.cons_append, matchAt_cons_iff] at hm
  obtain ⟨hlt, hc, _⟩ := hm
  constructor
  · right
    unfold atomStop
    rw [delimAt_of_tok (by decide : ([';'] : Str) ∈ DELIMETERS)
      (matchTok_single hlt hc), Bool.or_true]
  · rw [hc]
    decide

theorem plain_list_boundary {ind code : Str} {q : Nat}
    {cs1 : List (Bool × LExpr)} {X : Str}
    (hm : MatchAt code q (flatL ind (.list .plain cs1) 0 ++ X)) :
    (code.length ≤ q ∨ atomStop code q = true) ∧ charAt code q = '(' := by
  rw [flatL_list, beginStr_plain] at hm
  have hm2 : MatchAt code q ('(' :: (bodyFlat ind cs1 0 ++ [')'] ++ X)) := by
    have heq : (['('] ++ bodyFlat ind cs1 0 ++ [')']) ++ X =
        '(' :: (bodyFlat ind cs1 0 ++ [')'] ++ X) := by simp
    rw [heq] at hm
    exact hm
  rw [matchAt_cons_iff] at hm2
  obtain ⟨hlt, hc, _⟩ := hm2
  refine ⟨Or.inr ?_, hc⟩
  unfold atomStop
  rw [delimAt_of_tok (by decide : (['('] : Str) ∈ DELIMETERS)
    (matchTok_single hlt hc), Bool.or_true]

theorem quote_list_boundary {ind code : Str} {q : Nat} {kk : Kind} {qc : Char}
    {cs1 : List (Bool × LExpr)} {X : Str}
    (hk : Kind.beginStr kk = [qc, '(']) (hqcne : qc ≠ '(')
    (hm : MatchAt code q (flatL ind (.list kk cs1) 0 ++ X)) :
    (code.length ≤ q ∨ atomStop code q = true) ∧ charAt code q ≠ '(' := by
  rw [flatL_list, hk] at hm
  have hm2 : MatchAt code q
      (qc :: ('(' :: (bodyFlat ind cs1 0 ++ [')'] ++ X))) := by
    have heq : ([qc, '('] ++ bodyFlat ind cs1 0 ++ [')']) ++ X =
        qc :: ('(' :: (bodyFlat ind cs1 0 ++ [')'] ++ X)) := by simp
    rw [heq] at hm
    exact hm
  rw [matchAt_cons_iff] at hm2
  obtain ⟨h1lt, h1c, hm3⟩ := hm2
  rw [matchAt_cons_iff] at hm3
  obtain ⟨h2lt, h2c, _⟩ := hm3
  refine ⟨Or.inr ?_, by rw [h1c]; exact hqcne⟩
  unfold atomStop
  have hmem : [qc, '('] ∈ DELIMETERS := by
    rw [← hk]
    cases kk <;> decide
  rw [delimAt_of_tok hmem (matchTok_pair h2lt h1c h2c), Bool.or_true]

/-- Re-parsing a rendered top-level stream (followed by the driver's
final newline) yields forms whose glued render is exactly the stream's
render.  Adjacent atom renders separated by no newline re-lex as one
atom, and a quote-ending atom directly before a plain list re-lexes as
a shorter atom plus a quoted list; both rewrites preserve the rendered
text, which is all the statement tracks. -/
theorem topParse (ind code : Str) (hne : ind ≠ [])
    (hsp : ∀ c ∈ ind, isSpace c = true) (hnl : hasNl ind = false) :
    ∀ (n : Nat) (tops : List (Nat × LExpr)) (p fuel : Nat),
      tops.length ≤ n →
      (∀ kl ∈ tops, topWF kl.2 = true) →
      fuelTops tops ≤ fuel →
      MatchAt code p (flatTops ind tops ++ ['\n']) →
      code.length = p + (flatTops ind tops).length + 1 →
      ∃ es, parseAll fuel code p = .ok es ∧
        glued ind code p es = flatTops ind tops := by
  intro n
  induction n with
  | zero =>
    intro tops p fuel hl hwf hfuel hm hcl
    have htn : tops = [] := List.eq_nil_of_length_eq_zero (by omega)
    subst htn
    exact ⟨[], topParse_nil ind code p fuel (by
      have h2 : fuelTops ([] : List (Nat × LExpr)) = 2 := rfl
      omega) hm hcl, rfl⟩
  | succ m ih =>
    intro tops p fuel hl hwf hfuel hm hcl
    cases tops with
    | nil =>
      exact ⟨[], topParse_nil ind code p fuel (by
        have h2 : fuelTops ([] : List (Nat × LExpr)) = 2 := rfl
        omega) hm hcl, rfl⟩
    | cons kl rest =>
      obtain ⟨k0, l⟩ := kl
      obtain ⟨g, rfl⟩ : ∃ g, fuel = g + 1 := ⟨fuel - 1, by
        have := fuelTops_ge_two ((k0, l) :: rest)
        omega⟩
      have hwfl : topWF l = true := hwf (k0, l) (by simp)
      simp only [List.length_cons] at hl
      have hcont : ∀ fuel2, fuelTops rest ≤ fuel2 →
          MatchAt code (p + k0 + (flatL ind l 0).length)
            (flatTops ind rest ++ ['\n']) →
          code.length = p + k0 + (flatL ind l 0).length +
            (flatTops ind rest).length + 1 →
          ∃ es, parseAll fuel2 code (p + k0 + (flatL ind l 0).length) =
            .ok es ∧
            glued ind code (p + k0 + (flatL ind l 0).length) es =
              flatTops ind rest := by
        intro fuel2 h1 h2 h3
        exact ih rest _ fuel2 (by omega)
          (fun x hx => hwf x (by simp [hx])) h1 h2 h3
      by_cases hatom : ∃ A, l = .atom A ∧ lwf l = true
      · obtain ⟨A, rfl, hlwfA⟩ := hatom
        have hmeqA : flatTops ind ((k0, LExpr.atom A) :: rest) ++ ['\n'] =
            List.replicate k0 '\n' ++
              (A ++ (flatTops ind rest ++ ['\n'])) := by
          show (List.replicate k0 '\n' ++ flatL ind (.atom A) 0 ++
            flatTops ind rest) ++ ['\n'] = _
          rw [flatL_atom]
          simp [List.append_assoc]
        have hm2 := hm
        rw [hmeqA, matchAt_append_iff] at hm2
        obtain ⟨hmW, hm3⟩ := hm2
        rw [List.length_replicate, matchAt_append_iff] at hm3
        obtain ⟨hmA, hmR⟩ := hm3
        cases rest with
        | nil =>
          have hmR' : MatchAt code (p + k0 + A.length) ['\n'] := hmR
          obtain ⟨hstop, hnp⟩ := atom_boundary hmR' (Or.inl (by decide))
          obtain ⟨es, h1, h2, _⟩ := topParse_head ind code hne hsp hnl k0
            (.atom A) [] p g hwfl hfuel hm hcl
            (fun _ t0 ht0 => by
              injection ht0 with hA
              subst hA
              exact ⟨hstop, Or.inr hnp⟩) hcont
          exact ⟨es, h1, h2⟩
        | cons kl1 rest2 =>
          obtain ⟨k1, l1⟩ := kl1
          cases k1 with
          | succ m1 =>
            have hexp : flatTops ind ((m1 + 1, l1) :: rest2) ++ ['\n'] =
                '\n' :: (List.replicate m1 '\n' ++ flatL ind l1 0 ++
                  flatTops ind rest2 ++ ['\n']) := by
              show (List.replicate (m1 + 1) '\n' ++ flatL ind l1 0 ++
                flatTops ind rest2) ++ ['\n'] = _
              simp [List.replicate_succ, List.append_assoc]
            have hmR' := hmR
            rw [hexp] at hmR'
            obtain ⟨hstop, hnp⟩ := atom_boundary hmR' (Or.inl (by decide))
            obtain ⟨es, h1, h2, _⟩ := topParse_head ind code hne hsp hnl k0
              (.atom A) ((m1 + 1, l1) :: rest2) p g hwfl hfuel hm hcl
              (fun _ t0 ht0 => by
                injection ht0 with hA
                subst hA
                exact ⟨hstop, Or.inr hnp⟩) hcont
            exact ⟨es, h1, h2⟩
          | zero =>
            have hexp0 : flatTops ind ((0, l1) :: rest2) ++ ['\n'] =
                flatL ind l1 0 ++ (flatTops ind rest2 ++ ['\n']) := by
              show (List.replicate 0 '\n' ++ flatL ind l1 0 ++
                flatTops ind rest2) ++ ['\n'] = _
              simp [List.append_assoc]
            have hmR0 := hmR
            rw [hexp0] at hmR0
            cases l1 with
            | comment t1 =>
              obtain ⟨hstop, hnp⟩ := comment_boundary hmR0
              obtain ⟨es, h1, h2, _⟩ := topParse_head ind code hne hsp hnl k0
                (.atom A) ((0, .comment t1) :: rest2) p g hwfl hfuel hm hcl
                (fun _ t0 ht0 => by
                  injection ht0 with hA
                  subst hA
                  exact ⟨hstop, Or.inr hnp⟩) hcont
              exact ⟨es, h1, h2⟩
            | atom A2 =>
              have hwfA2 : topWF (LExpr.atom A2) = true :=
                hwf (0, LExpr.atom A2) (by simp)
              by_cases hA2 : lwf (LExpr.atom A2) = true
              · -- merge the two adjacent atoms
                have hfteq : flatTops ind
                    ((k0, LExpr.atom A) :: (0, LExpr.atom A2) :: rest2) =
                    flatTops ind ((k0, LExpr.atom (A ++ A2)) :: rest2) := by
                  show List.replicate k0 '\n' ++ flatL ind (.atom A) 0 ++
                      (List.replicate 0 '\n' ++ flatL ind (.atom A2) 0 ++
                        flatTops ind rest2) =
                    List.replicate k0 '\n' ++ flatL ind (.atom (A ++ A2)) 0 ++
                      flatTops ind rest2
                  rw [flatL_atom, flatL_atom, flatL_atom]
                  simp [List.append_assoc]
                have hm' := hm
                rw [hfteq] at hm'
                have hcl' := hcl
                rw [hfteq] at hcl'
                have hwf' : ∀ kl ∈ ((k0, LExpr.atom (A ++ A2)) :: rest2),
                    topWF kl.2 = true := by
                  intro kl hkl
                  rcases List.mem_cons.1 hkl with rfl | hkl2
                  · show topWF (.atom (A ++ A2)) = true
                    unfold topWF
                    rw [lwf_atom_append hlwfA hA2]
                    rfl
                  · exact hwf kl (by simp [hkl2])
                have hfuel' : fuelTops ((k0, LExpr.atom (A ++ A2)) :: rest2) ≤
                    g + 1 := by
                  have e1 : fuelTops ((k0, LExpr.atom A) ::
                      (0, LExpr.atom A2) :: rest2) =
                      1 + 1 + (1 + 1 + fuelTops rest2) := rfl
                  have e2 : fuelTops ((k0, LExpr.atom (A ++ A2)) :: rest2) =
                      1 + 1 + fuelTops rest2 := rfl
                  omega
                obtain ⟨es, h1, h2⟩ := ih
                  ((k0, LExpr.atom (A ++ A2)) :: rest2) p (g + 1)
                  (by simp only [List.length_cons] at hl ⊢; omega)
                  hwf' hfuel' hm' hcl'
                refine ⟨es, h1, ?_⟩
                rw [hfteq]
                exact h2
              · -- the `)` atom: clean boundary
                have hA2' : A2 = [')'] := by
                  have h := hwfA2
                  unfold topWF at h
                  rw [Bool.or_eq_true] at h
                  rcases h with h | h
                  · exact absurd h hA2
                  · simpa using h
                subst hA2'
                have hmR0' : MatchAt code (p + k0 + A.length)
                    (')' :: (flatTops ind rest2 ++ ['\n'])) := by
                  rw [flatL_atom] at hmR0
                  exact hmR0
                obtain ⟨hstop, hnp⟩ := atom_boundary hmR0' (Or.inr rfl)
                obtain ⟨es, h1, h2, _⟩ := topParse_head ind code hne hsp hnl
                  k0 (.atom A) ((0, .atom [')']) :: rest2) p g hwfl hfuel
                  hm hcl
                  (fun _ t0 ht0 => by
                    injection ht0 with hA
                    subst hA
                    exact ⟨hstop, Or.inr hnp⟩) hcont
                exact ⟨es, h1, h2⟩
            | list kk cs1 =>
              cases kk with
              | quoted =>
                obtain ⟨hstop, hnp⟩ :=
                  quote_list_boundary beginStr_quoted (by decide) hmR0
                obtain ⟨es, h1, h2, _⟩ := topParse_head ind code hne hsp hnl
                  k0 (.atom A) ((0, .list .quoted cs1) :: rest2) p g hwfl
                  hfuel hm hcl
                  (fun _ t0 ht0 => by
                    injection ht0 with hA
                    subst hA
                    exact ⟨hstop, Or.inr hnp⟩) hcont
                exact ⟨es, h1, h2⟩
              | quasi =>
                obtain ⟨hstop, hnp⟩ :=
                  quote_list_boundary beginStr_quasi (by decide) hmR0
                obtain ⟨es, h1, h2, _⟩ := topParse_head ind code hne hsp hnl
                  k0 (.atom A) ((0, .list .quasi cs1) :: rest2) p g hwfl
                  hfuel hm hcl
                  (fun _ t0 ht0 => by
                    injection ht0 with hA
                    subst hA
                    exact ⟨hstop, Or.inr hnp⟩) hcont
                exact ⟨es, h1, h2⟩
              | unquoted =>
                obtain ⟨hstop, hnp⟩ :=
                  quote_list_boundary beginStr_unquoted (by decide) hmR0
                obtain ⟨es, h1, h2, _⟩ := topParse_head ind code hne hsp hnl
                  k0 (.atom A) ((0, .list .unquoted cs1) :: rest2) p g hwfl
                  hfuel hm hcl
                  (fun _ t0 ht0 => by
                    injection ht0 with hA
                    subst hA
                    exact ⟨hstop, Or.inr hnp⟩) hcont
                exact ⟨es, h1, h2⟩
              | plain =>
                by_cases hqlast : isQuote (A.getLastD (Char.ofNat 0)) = true
                · -- requalification: the atom's trailing quote captures
                  -- the following plain list
                  obtain ⟨kq, hkq⟩ := quote_kind hqlast
                  have hAne : A ≠ [] := by
                    have h' : (!A.isEmpty && A.all cleanAtomChar) = true :=
                      hlwfA
                    rw [Bool.and_eq_true, Bool.not_eq_true'] at h'
                    intro hc
                    rw [hc] at h'
                    exact absurd h'.1 (by decide)
                  have hAdec : A = A.dropLast ++ [A.getLastD (Char.ofNat 0)] :=
                    eq_dropLast_append_getLastD hAne _
                  have hlwfq : lwf (LExpr.list kq cs1) =
                      lwf (LExpr.list .plain cs1) := rfl
                  have h0 := hwf (0, LExpr.list .plain cs1) (by simp)
                  have hlwfP : lwf (LExpr.list .plain cs1) = true := by
                    have h0' : (lwf (LExpr.list .plain cs1) ||
                        false) = true := h0
                    simpa using h0'
                  have hwfq : topWF (LExpr.list kq cs1) = true := by
                    unfold topWF
                    rw [hlwfq, hlwfP]
                    rfl
                  by_cases hA' : A.dropLast = []
                  · -- the whole atom is the quote character
                    have hAq : A = [A.getLastD (Char.ofNat 0)] := by
                      conv_lhs => rw [hAdec, hA']
                      rfl
                    have hfteq : flatTops ind ((k0, LExpr.atom A) ::
                        (0, LExpr.list .plain cs1) :: rest2) =
                        flatTops ind ((k0, LExpr.list kq cs1) :: rest2) := by
                      show List.replicate k0 '\n' ++ flatL ind (.atom A) 0 ++
                          (List.replicate 0 '\n' ++
                            flatL ind (.list .plain cs1) 0 ++
                            flatTops ind rest2) =
                        List.replicate k0 '\n' ++
                          flatL ind (.list kq cs1) 0 ++ flatTops ind rest2
                      rw [flatL_atom, hAq, flatL_quote_list ind hkq]
                      simp [List.append_assoc]
                    have hm' := hm
                    rw [hfteq] at hm'
                    have hcl' := hcl
                    rw [hfteq] at hcl'
                    have hwf' : ∀ kl ∈ ((k0, LExpr.list kq cs1) :: rest2),
                        topWF kl.2 = true := by
                      intro kl hkl
                      rcases List.mem_cons.1 hkl with rfl | hkl2
                      · exact hwfq
                      · exact hwf kl (by simp [hkl2])
                    have hfuel' : fuelTops ((k0, LExpr.list kq cs1) ::
                        rest2) ≤ g + 1 := by
                      have e1 : fuelTops ((k0, LExpr.atom A) ::
                          (0, LExpr.list .plain cs1) :: rest2) =
                          1 + 1 + (1 + (1 + fuelSibs cs1) +
                            fuelTops rest2) := rfl
                      have e2 : fuelTops ((k0, LExpr.list kq cs1) :: rest2) =
                          1 + (1 + fuelSibs cs1) + fuelTops rest2 := rfl
                      omega
                    obtain ⟨es, h1, h2⟩ := ih
                      ((k0, LExpr.list kq cs1) :: rest2) p (g + 1)
                      (by simp only [List.length_cons] at hl ⊢; omega)
                      hwf' hfuel' hm' hcl'
                    refine ⟨es, h1, ?_⟩
                    rw [hfteq]
                    exact h2
                  · -- the atom splits: its prefix re-lexes as an atom and
                    -- the quote joins the list
                    have hlwfA' : lwf (LExpr.atom A.dropLast) = true :=
                      lwf_atom_dropLast hlwfA hA'
                    have hlenA : A.length = A.dropLast.length + 1 := by
                      conv_lhs => rw [hAdec]
                      rw [List.length_append]
                      rfl
                    have hmA2 := hmA
                    rw [hAdec, matchAt_append_iff] at hmA2
                    obtain ⟨hmA', hmqc⟩ := hmA2
                    rw [matchAt_cons_iff] at hmqc
                    obtain ⟨hqlt, hqc, _⟩ := hmqc
                    obtain ⟨hstopP, hpcP⟩ := plain_list_boundary hmR0
                    have hlenT1 : (flatTops ind ((k0, LExpr.atom A) ::
                        (0, LExpr.list .plain cs1) :: rest2)).length =
                        k0 + A.length +
                          ((flatL ind (.list .plain cs1) 0).length +
                            (flatTops ind rest2).length) := by
                      show (List.replicate k0 '\n' ++
                        flatL ind (.atom A) 0 ++
                        (List.replicate 0 '\n' ++
                          flatL ind (.list .plain cs1) 0 ++
                          flatTops ind rest2)).length = _
                      rw [flatL_atom]
                      simp [List.length_append, List.length_replicate]
                      omega
                    -- boundary for the shortened atom
                    have hstopA' : atomStop code
                        (p + k0 + A.dropLast.length) = true := by
                      unfold atomStop
                      have hplt2 : p + k0 + A.dropLast.length + 1 <
                          code.length := by
                        have hclc := hcl
                        rw [hlenT1] at hclc
                        omega
                      have hpair : matchTok code (p + k0 + A.dropLast.length)
                          [A.getLastD (Char.ofNat 0), '('] = true := by
                        apply matchTok_pair hplt2 hqc
                        have harith : p + k0 + A.dropLast.length + 1 =
                            p + k0 + A.length := by omega
                        rw [harith]
                        exact hpcP
                      have hmem : [A.getLastD (Char.ofNat 0), '('] ∈
                          DELIMETERS := by
                        rw [← hkq]
                        cases kq <;> decide
                      rw [delimAt_of_tok hmem hpair, Bool.or_true]
                    -- skip the gap
                    have hsw : skipWs code p = p + k0 := by
                      have hA'' : ∃ a t, A.dropLast = a :: t := by
                        cases hd : A.dropLast with
                        | nil => exact absurd hd hA'
                        | cons a t => exact ⟨a, t, rfl⟩
                      obtain ⟨a, t, hat⟩ := hA''
                      have hmA'' := hmA'
                      rw [hat, matchAt_cons_iff] at hmA''
                      have hns : isSpace a = false := by
                        have h' : (!A.dropLast.isEmpty &&
                            A.dropLast.all cleanAtomChar) = true := hlwfA'
                        rw [Bool.and_eq_true] at h'
                        have h2 := h'.2
                        rw [hat, List.all_cons, Bool.and_eq_true] at h2
                        have h3 := h2.1
                        simp only [cleanAtomChar, Bool.and_eq_true,
                          Bool.not_eq_true'] at h3
                        exact h3.1.1.1.1
                      have hstep := skipWs_over_ws hmW (replicate_nl_space k0)
                        (Or.inr (by
                          rw [List.length_replicate, hmA''.2.1]
                          exact hns))
                      rw [List.length_replicate] at hstep
                      exact hstep
                    -- parse the shortened atom
                    have hg1 : 1 ≤ g := by
                      have e1 : fuelTops ((k0, LExpr.atom A) ::
                          (0, LExpr.list .plain cs1) :: rest2) =
                          1 + 1 + (1 + (1 + fuelSibs cs1) +
                            fuelTops rest2) := rfl
                      omega
                    obtain ⟨e', hpe, hlay, hst, hen⟩ := parseL ind code hne
                      hsp hnl (LExpr.atom A.dropLast) 0 p (p + k0) g hlwfA'
                      (by exact hg1) hsw (by rw [flatL_atom]; exact hmA')
                      (fun t0 ht0 => by
                        injection ht0 with hA0
                        subst hA0
                        refine ⟨Or.inr hstopA', Or.inr ?_⟩
                        rw [hqc]
                        exact isQuote_ne_lparen hqlast)
                    rw [consL_atom] at hpe hen
                    have hsent : isSentinel e' = false :=
                      (parsed_not_end hlay hlwfA').2
                    -- continue on the requalified stream
                    have hexp2 : flatTops ind ((0, LExpr.list kq cs1) ::
                        rest2) ++ ['\n'] =
                        [A.getLastD (Char.ofNat 0)] ++
                          (flatTops ind ((0, LExpr.list .plain cs1) ::
                            rest2) ++ ['\n']) := by
                      show (List.replicate 0 '\n' ++
                        flatL ind (.list kq cs1) 0 ++ flatTops ind rest2) ++
                        ['\n'] = _
                      rw [flatL_quote_list ind hkq]
                      simp [flatTops, List.append_assoc]
                    have hm2' : MatchAt code (p + k0 + A.dropLast.length)
                        (flatTops ind ((0, LExpr.list kq cs1) :: rest2) ++
                          ['\n']) := by
                      rw [hexp2, matchAt_append_iff]
                      constructor
                      · rw [matchAt_cons_iff]
                        exact ⟨hqlt, hqc, matchAt_nil _ _⟩
                      · have harith : p + k0 + A.dropLast.length +
                            ([A.getLastD (Char.ofNat 0)] : Str).length =
                            p + k0 + A.length := by
                          simp only [List.length_cons, List.length_nil]
                          omega
                        rw [harith]
                        exact hmR
                    have hlenT2 : (flatTops ind ((0, LExpr.list kq cs1) ::
                        rest2)).length =
                        1 + (flatL ind (.list .plain cs1) 0).length +
                          (flatTops ind rest2).length := by
                      show (List.replicate 0 '\n' ++
                        flatL ind (.list kq cs1) 0 ++
                        flatTops ind rest2).length = _
                      rw [flatL_quote_list ind hkq]
                      simp [List.length_append]
                      omega
                    have hcl2' : code.length = p + k0 + A.dropLast.length +
                        (flatTops ind ((0, LExpr.list kq cs1) ::
                          rest2)).length + 1 := by
                      have hclc := hcl
                      rw [hlenT1] at hclc
                      rw [hlenT2]
                      omega
                    have hfuel2 : fuelTops ((0, LExpr.list kq cs1) ::
                        rest2) ≤ g := by
                      have e1 : fuelTops ((k0, LExpr.atom A) ::
                          (0, LExpr.list .plain cs1) :: rest2) =
                          1 + 1 + (1 + (1 + fuelSibs cs1) +
                            fuelTops rest2) := rfl
                      have e2 : fuelTops ((0, LExpr.list kq cs1) :: rest2) =
                          1 + (1 + fuelSibs cs1) + fuelTops rest2 := rfl
                      omega
                    have hwf2 : ∀ kl ∈ ((0, LExpr.list kq cs1) :: rest2),
                        topWF kl.2 = true := by
                      intro kl hkl
                      rcases List.mem_cons.1 hkl with rfl | hkl2
                      · exact hwfq
                      · exact hwf kl (by simp [hkl2])
                    obtain ⟨es'', hpa2, hglue2⟩ := ih
                      ((0, LExpr.list kq cs1) :: rest2)
                      (p + k0 + A.dropLast.length) g
                      (by simp only [List.length_cons] at hl ⊢; omega)
                      hwf2 hfuel2 hm2' hcl2'
                    have hpa := parseAll_of_form hpe hsent
                    rw [hpa2] at hpa
                    refine ⟨e' :: es'', hpa, ?_⟩
                    have hgdef : glued ind code p (e' :: es'') =
                        List.replicate (countNl (slice code p (startP e')))
                          '\n' ++ fmtStr ind code e' ++
                          glued ind code (endP e') es'' := rfl
                    have hslW : slice code p (p + k0) =
                        List.replicate k0 '\n' := by
                      have h2 : slice code p
                          (p + (List.replicate k0 '\n').length) =
                          List.replicate k0 '\n' := hmW
                      rw [List.length_replicate] at h2
                      exact h2
                    rw [hgdef, hst, hen, hslW, countNl_replicate]
                    rw [fmtStr_eq_flatL hne hsp (by
                      rw [hlay]
                      unfold topWF
                      rw [hlwfA']
                      rfl), hlay, flatL_atom, hglue2]
                    show _ = List.replicate k0 '\n' ++
                      flatL ind (.atom A) 0 ++
                      (List.replicate 0 '\n' ++
                        flatL ind (.list .plain cs1) 0 ++ flatTops ind rest2)
                    rw [flatL_atom]
                    have hflat2 : flatTops ind ((0, LExpr.list kq cs1) ::
                        rest2) =
                        A.getLastD (Char.ofNat 0) ::
                          (flatL ind (.list .plain cs1) 0 ++
                            flatTops ind rest2) := by
                      show List.replicate 0 '\n' ++
                        flatL ind (.list kq cs1) 0 ++ flatTops ind rest2 = _
                      rw [flatL_quote_list ind hkq]
                      simp
                    rw [hflat2]
                    conv_rhs => rw [hAdec]
                    simp [List.append_assoc]
                · -- no trailing quote: clean `(` boundary
                  obtain ⟨hstop, hpc⟩ := plain_list_boundary hmR0
                  obtain ⟨es, h1, h2, _⟩ := topParse_head ind code hne hsp
                    hnl k0 (.atom A) ((0, .list .plain cs1) :: rest2) p g
                    hwfl hfuel hm hcl
                    (fun _ t0 ht0 => by
                      injection ht0 with hA
                      subst hA
                      exact ⟨hstop, Or.inl (by simpa using hqlast)⟩) hcont
                  exact ⟨es, h1, h2⟩
      · obtain ⟨es, h1, h2, _⟩ := topParse_head ind code hne hsp hnl k0 l
          rest p g hwfl hfuel hm hcl
          (fun hlwf t0 ht0 => absurd ⟨t0, ht0, hlwf⟩ hatom) hcont
        exact ⟨es, h1, h2⟩

theorem matchAt_self (t : Str) : MatchAt t 0 t := by
  show slice t 0 (0 + t.length) = t
  unfold slice
  simp

theorem topsTail_mem {code : Str} :
    ∀ (rest : List TExpr) (prev : TExpr) (kl : Nat × LExpr),
      kl ∈ topsTail code prev rest → ∃ f ∈ rest, kl.2 = layoutOf code f := by
  intro rest
  induction rest with
  | nil =>
    intro prev kl h
    cases h
  | cons f rest ih =>
    intro prev kl h
    rcases List.mem_cons.1 h with rfl | h2
    · exact ⟨f, by simp, rfl⟩
    · obtain ⟨f2, hf2, hkl⟩ := ih f kl h2
      exact ⟨f2, by simp [hf2], hkl⟩

theorem flatL_head_top {ind : Str} {l : LExpr} (hwf : topWF l = true) :
    ∃ c r0, flatL ind l 0 = c :: r0 ∧ isSpace c = false := by
  have h := hwf
  unfold topWF at h
  rw [Bool.or_eq_true] at h
  rcases h with h | h
  · exact flatL_head h
  · cases l with
    | atom t =>
      have ht : t = [')'] := by simpa using h
      subst ht
      exact ⟨')', [], flatL_atom ind [')'] 0, by decide⟩
    | comment t => simp at h
    | list k cs => simp at h

/-- C1.  Idempotence of the formatter: if `format` succeeds on a source
text `s` with output `R` (so `s` is a valid input), then `format`
applied to `R` succeeds and returns `R` again.  The indent unit is
assumed nonempty, all-whitespace and free of line terminators, which
holds for every unit the driver can configure (spaces or tabs). -/
theorem claim1_format_idempotent (opts : FormatOptions) (s R : Str)
    (fuel : Nat) (hne : opts.indent_seq ≠ [])
    (hsp : ∀ c ∈ opts.indent_seq, isSpace c = true)
    (hnl : hasNl opts.indent_seq = false)
    (hfmt : format fuel opts s = .ok R) :
    ∃ fuel2, format fuel2 opts R = .ok R := by
  unfold format at hfmt
  cases hcore : fmtCore fuel opts s with
  | div =>
    rw [hcore] at hfmt
    exact PResult.noConfusion hfmt
  | err m p =>
    rw [hcore] at hfmt
    exact PResult.noConfusion hfmt
  | ok R0 =>
    rw [hcore] at hfmt
    injection hfmt with hR
    unfold fmtCore at hcore
    cases hpa : parseAll fuel s 0 with
    | div =>
      rw [hpa] at hcore
      exact PResult.noConfusion hcore
    | err m p =>
      rw [hpa] at hcore
      exact PResult.noConfusion hcore
    | ok fs =>
      rw [hpa] at hcore
      cases fs with
      | nil =>
        have hcore2 : PResult.err ('S' :: 't' :: 'o' :: 'p' :: []) 0 =
            PResult.ok R0 := hcore
        exact PResult.noConfusion hcore2
      | cons e rest =>
        have hcore2 : PResult.ok (fmtTops opts.indent_seq s e rest) =
            PResult.ok R0 := hcore
        injection hcore2 with hR0
        have hwfs := parseAll_wf fuel s 0 (e :: rest) hpa
        have hwfe : topWF (layoutOf s e) = true := hwfs e (by simp)
        have hwfr : ∀ f ∈ rest, topWF (layoutOf s f) = true :=
          fun f hf => hwfs f (by simp [hf])
        have hflat : fmtTops opts.indent_seq s e rest =
            flatTops opts.indent_seq (topsOf s e rest) := by
          rw [fmtTops_eq_flatTops hne hsp rest e hwfe hwfr]
          show _ = List.replicate 0 '\n' ++
            flatL opts.indent_seq (layoutOf s e) 0 ++
            flatTops opts.indent_seq (topsTail s e rest)
          simp
        have hReq : R = flatTops opts.indent_seq (topsOf s e rest) ++
            ['\n'] := by
          rw [← hR, ← hR0, hflat]
        have hwftops : ∀ kl ∈ topsOf s e rest, topWF kl.2 = true := by
          intro kl hkl
          rcases List.mem_cons.1 hkl with rfl | hkl2
          · exact hwfe
          · obtain ⟨f, hf, hkl2eq⟩ := topsTail_mem rest e kl hkl2
            rw [hkl2eq]
            exact hwfr f hf
        obtain ⟨es, hpaR, hglueR⟩ := topParse opts.indent_seq R hne hsp hnl
          (topsOf s e rest).length (topsOf s e rest) 0
          (fuelTops (topsOf s e rest)) (Nat.le_refl _) hwftops
          (Nat.le_refl _)
          (by rw [hReq]; exact matchAt_self _)
          (by rw [hReq]; simp [List.length_append])
        cases es with
        | nil =>
          exfalso
          have hg : ([] : Str) =
              flatTops opts.indent_seq (topsOf s e rest) := hglueR
          obtain ⟨c, r0, hc, hns⟩ :=
            @flatL_head_top opts.indent_seq _ hwfe
          have hft : flatTops opts.indent_seq (topsOf s e rest) =
              List.replicate 0 '\n' ++
                flatL opts.indent_seq (layoutOf s e) 0 ++
                flatTops opts.indent_seq (topsTail s e rest) := rfl
          rw [hft, hc] at hg
          simp at hg
        | cons e' rest' =>
          have hc0 : countNl (slice R 0 (startP e')) = 0 := by
            by_contra hcne
            obtain ⟨c', hcnt⟩ : ∃ c',
                countNl (slice R 0 (startP e')) = c' + 1 := by
              cases hx : countNl (slice R 0 (startP e')) with
              | zero => exact absurd hx hcne
              | succ c' => exact ⟨c', rfl⟩
            have hgd : glued opts.indent_seq R 0 (e' :: rest') =
                List.replicate (countNl (slice R 0 (startP e'))) '\n' ++
                  fmtStr opts.indent_seq R e' ++
                  glued opts.indent_seq R (endP e') rest' := rfl
            rw [hgd, hcnt, List.replicate_succ] at hglueR
            obtain ⟨c, r0, hch, hns⟩ :=
              @flatL_head_top opts.indent_seq _ hwfe
            have hft : flatTops opts.indent_seq (topsOf s e rest) =
                List.replicate 0 '\n' ++
                  flatL opts.indent_seq (layoutOf s e) 0 ++
                  flatTops opts.indent_seq (topsTail s e rest) := rfl
            rw [hft, hch] at hglueR
            have hheads : '\n' = c := by
              have hhq := congrArg (fun (xs : Str) => xs.head?) hglueR
              simpa using hhq
            rw [← hheads] at hns
            exact absurd hns (by decide)
          have hgd : glued opts.indent_seq R 0 (e' :: rest') =
              List.replicate (countNl (slice R 0 (startP e'))) '\n' ++
                fmtStr opts.indent_seq R e' ++
                glued opts.indent_seq R (endP e') rest' := rfl
          rw [hgd, hc0] at hglueR
          have hfm : fmtTops opts.indent_seq R e' rest' =
              flatTops opts.indent_seq (topsOf s e rest) := by
            rw [fmtTops_eq_glued]
            simpa using hglueR
          refine ⟨fuelTops (topsOf s e rest), ?_⟩
          unfold format fmtCore
          rw [hpaR]
          show PResult.ok (fmtTops opts.indent_seq R e' rest' ++ ['\n']) =
            .ok R
          rw [hfm, ← hReq]

/-- Witness for C1 at a concrete input: `(a)` formats to `(a)\n`, and
formatting that output returns it unchanged. -/
theorem claim1_format_idempotent_witness :
    format 10 {} ['(', 'a', ')'] = .ok ['(', 'a', ')', '\n'] ∧
    ∃ fuel2, format fuel2 {} ['(', 'a', ')', '\n'] =
      .ok ['(', 'a', ')', '\n'] :=
  ⟨by decide,
   claim1_format_idempotent {} ['(', 'a', ')'] ['(', 'a', ')', '\n'] 10
     (by decide) (by decide) (by decide) (by decide)⟩

end SchemeFmt
